import Mathlib

/-!
lunatic: register allocator and translator block assembly.

A shallow embedding of two parts of the lunatic ARM recompiler:

* `X64RegisterAllocator` (`src/backend/x86_64/register_allocator.cpp`):
  the lifetime pre-pass, the release of dead variables, the search for a
  free host register and `GetVariableHostReg`;
* `Translator` (`src/frontend/translator/translator.cpp`): `Translate`,
  `TranslateARM`, `TranslateThumb` and `Undefined`.

Machine integers are natural numbers reduced modulo `2^32` where the source
computes in `u32`.  C++ exceptions are the `Except.error` results.
-/

namespace Lunatic

/-! ## Guest registers, modes and conditions -/

/-- The guest general purpose registers (`include/lunatic/cpu.hpp`). -/
inductive GPR
  | R0 | R1 | R2 | R3 | R4 | R5 | R6 | R7
  | R8 | R9 | R10 | R11 | R12 | SP | LR | PC
  deriving DecidableEq, Repr

/-- The guest processor modes (`include/lunatic/cpu.hpp`). -/
inductive Mode
  | User | FIQ | IRQ | Supervisor | Abort | Undefined | System
  deriving DecidableEq, Repr

/-- Modelled from the spec: the ARM condition codes, a 4-bit predicate.  The
enumeration itself is declared in a header that is not part of the sources;
the order is the architectural encoding, `AL` is 14 and `NV` is 15. -/
inductive Condition
  | EQ | NE | CS | CC | MI | PL | VS | VC
  | HI | LS | GE | LT | GT | LE | AL | NV
  deriving DecidableEq, Repr

/-- The cast of a 4-bit field to `Condition` (`bit::get_field<u32, Condition>`). -/
def Condition.ofField (n : Nat) : Condition :=
  match n % 16 with
  | 0 => .EQ | 1 => .NE | 2 => .CS | 3 => .CC
  | 4 => .MI | 5 => .PL | 6 => .VS | 7 => .VC
  | 8 => .HI | 9 => .LS | 10 => .GE | 11 => .LT
  | 12 => .GT | 13 => .LE | 14 => .AL | _ => .NV

/-! ## IR model -/

/-- A guest register with respect to a processor mode
(`src/frontend/ir/register.hpp`). -/
structure IRGuestReg where
  reg : GPR
  mode : Mode
  deriving DecidableEq, Repr

/-- Modelled from the spec: an IR operand is either a variable reference
(by variable id) or a 32-bit constant. -/
inductive IRAnyRef
  | var (id : Nat)
  | const (value : Nat)
  deriving DecidableEq, Repr

/-- Modelled from the spec: an IR opcode is a tagged record that answers the
queries `Reads(var)` and `Writes(var)`.  The opcode classes are not part of
the sources; `StoreGPR` is the one opcode the translator code under `src/`
builds itself, every other opcode is given by the variables it reads and the
variables it writes. -/
inductive IROpcode
  | StoreGPR (reg : IRGuestReg) (value : IRAnyRef)
  | Generic (reads : List Nat) (writes : List Nat)
  deriving DecidableEq, Repr

/-- The query `op->Reads(var)`. -/
def IROpcode.Reads : IROpcode → Nat → Bool
  | .StoreGPR _ (.var id), v => id == v
  | .StoreGPR _ (.const _), _ => false
  | .Generic reads _, v => reads.contains v

/-- The query `op->Writes(var)`. -/
def IROpcode.Writes : IROpcode → Nat → Bool
  | .StoreGPR _ _, _ => false
  | .Generic _ writes, v => writes.contains v

/-- Modelled from the spec: the IR emitter of one block, as far as the
allocator and the translator use it: `Vars()` holds `vars` variables, the
variable at position `i` has id `i` (ids are unique within a block and
`FindFreeHostReg` indexes the per-id tables with the position), and `Code()`
is the flattened opcode list. -/
structure IREmitter where
  vars : Nat
  code : List IROpcode
  deriving DecidableEq, Repr

/-! ## Register allocator -/

/-- The 32-bit x86-64 registers (`Xbyak::Reg32`), in hardware index order. -/
inductive HostReg
  | eax | ecx | edx | ebx | esp | ebp | esi | edi
  | r8d | r9d | r10d | r11d | r12d | r13d | r14d | r15d
  deriving DecidableEq, Repr

/-- The two instructions the allocator emits: a reload
`mov reg, dword[rbp + disp]` and a spill `mov dword[rbp + disp], reg`. -/
inductive X64Instr
  | mov_load (reg : HostReg) (disp : Nat)
  | mov_store (disp : Nat) (reg : HostReg)
  deriving DecidableEq, Repr

deriving instance DecidableEq for Except

/-- The error thrown by `FindFreeHostReg`
("out of registers and spill space"). -/
inductive AllocError
  | OutOfRegisters
  deriving DecidableEq, Repr

/-- The state of `X64RegisterAllocator`.  `code` is the list of instructions
emitted so far through the `Xbyak::CodeGenerator` reference; the back of
`free_host_regs` is the end of the list.  `free_spill_bitmap` has
`kSpillAreaSize` bits; that constant lives in a header that is not part of the
sources and is a parameter of the functions below. -/
structure X64RegisterAllocator where
  emitter : IREmitter
  code : List X64Instr
  free_host_regs : List HostReg
  number_of_vars : Nat
  var_id_to_host_reg : List (Option HostReg)
  var_id_to_point_of_last_use : List Int
  free_spill_bitmap : List Bool
  var_id_to_spill_slot : List (Option Nat)
  deriving DecidableEq, Repr

/-- The inner loop of `EvaluateVariableLifetimes` for one variable: walks the
code with a running `location`, returns the final `expiration_point`
(`-1` when no opcode writes or reads the variable). -/
def expirationPoint (code : List IROpcode) (var : Nat) : Int :=
  (code.foldl
    (fun (st : Int × Int) op =>
      (if op.Writes var || op.Reads var then st.2 else st.1, st.2 + 1))
    (-1, 0)).1

/-- One iteration of the outer loop of `EvaluateVariableLifetimes`. -/
def evaluateVariable (a : X64RegisterAllocator) (var : Nat) : X64RegisterAllocator :=
  let expiration_point := expirationPoint a.emitter.code var
  if expiration_point != -1 then
    { a with var_id_to_point_of_last_use :=
        a.var_id_to_point_of_last_use.set var expiration_point }
  else a

/-- `X64RegisterAllocator::EvaluateVariableLifetimes`. -/
def EvaluateVariableLifetimes (a : X64RegisterAllocator) : X64RegisterAllocator :=
  (List.range a.emitter.vars).foldl evaluateVariable a

/-- The constructor of `X64RegisterAllocator`: the free pool, the per-variable
tables resized to `number_of_vars` (`resize` value-initialises: no register,
last use `0`, no spill slot), the cleared spill bitmap, then the lifetime
pre-pass. -/
def X64RegisterAllocator.new (kSpillAreaSize : Nat) (emitter : IREmitter)
    (code : List X64Instr) : X64RegisterAllocator :=
  EvaluateVariableLifetimes
    { emitter := emitter
      code := code
      free_host_regs :=
        [.edx, .ebx, .esi, .edi, .r8d, .r9d, .r10d, .r11d, .r12d, .r13d, .r14d, .r15d]
      number_of_vars := emitter.vars
      var_id_to_host_reg := List.replicate emitter.vars none
      var_id_to_point_of_last_use := List.replicate emitter.vars 0
      free_spill_bitmap := List.replicate kSpillAreaSize false
      var_id_to_spill_slot := List.replicate emitter.vars none }

/-- One iteration of the loop of `ReleaseDeadVariables`. -/
def releaseVariable (location : Nat) (a : X64RegisterAllocator) (var : Nat) :
    X64RegisterAllocator :=
  let expiration_point := a.var_id_to_point_of_last_use.getD var 0
  if (location : Int) > expiration_point then
    match a.var_id_to_host_reg.getD var none with
    | some reg =>
      { a with
        free_host_regs := a.free_host_regs ++ [reg]
        var_id_to_host_reg := a.var_id_to_host_reg.set var none }
    | none => a
  else a

/-- `X64RegisterAllocator::ReleaseDeadVariables`. -/
def ReleaseDeadVariables (a : X64RegisterAllocator) (location : Nat) :
    X64RegisterAllocator :=
  (List.range a.emitter.vars).foldl (releaseVariable location) a

/-- The test `op->Reads(var)` for the opcode at index `location` of the
emitter's code (`std::advance(it, location)`).  Advancing past the end is
undefined behaviour in the source; the theorems below use locations inside
the code only. -/
def readsAt (code : List IROpcode) (location : Nat) (var : Nat) : Bool :=
  match code[location]? with
  | some op => op.Reads var
  | none => false

/-- The first loop of `FindFreeHostReg` (the search for a variable to spill),
`remaining` iterations from index `i`.  Returns the allocator, `reg` and
`var_id` as they are when the loop is left. -/
def findVictim (location : Nat) (a : X64RegisterAllocator) (reg : HostReg) (var_id : Nat) :
    Nat → Nat → X64RegisterAllocator × HostReg × Nat
  | 0, _ => (a, reg, var_id)
  | remaining + 1, i =>
    if readsAt a.emitter.code location i then
      findVictim location a reg var_id remaining (i + 1)
    else
      match a.var_id_to_host_reg.getD i none with
      | some r =>
        ({ a with var_id_to_host_reg := a.var_id_to_host_reg.set i none }, r, i)
      | none => findVictim location a reg var_id remaining (i + 1)

/-- The second loop of `FindFreeHostReg` (the search for a free spill slot),
`remaining` iterations from slot `i`. -/
def spillToFreeSlot (a : X64RegisterAllocator) (reg : HostReg) (var_id : Nat) :
    Nat → Nat → X64RegisterAllocator
  | 0, _ => a
  | remaining + 1, i =>
    if !(a.free_spill_bitmap.getD i false) then
      { a with
        free_spill_bitmap := a.free_spill_bitmap.set i true
        var_id_to_spill_slot := a.var_id_to_spill_slot.set var_id (some i)
        code := a.code ++ [X64Instr.mov_store (i * 4) reg] }
    else spillToFreeSlot a reg var_id remaining (i + 1)

/-- `X64RegisterAllocator::FindFreeHostReg`.  The result is the allocator
state left behind together with the returned register or the thrown error.
`Xbyak::Reg32{}` is register index 0 (`eax`).  Both loops are left with
`break`, so control always reaches the `throw` behind them. -/
def FindFreeHostReg (kSpillAreaSize : Nat) (a : X64RegisterAllocator) (location : Nat) :
    X64RegisterAllocator × Except AllocError HostReg :=
  match a.free_host_regs.getLast? with
  | some reg => ({ a with free_host_regs := a.free_host_regs.dropLast }, .ok reg)
  | none =>
    let (a1, reg, var_id) := findVictim location a HostReg.eax 0 a.number_of_vars 0
    let a2 := spillToFreeSlot a1 reg var_id kSpillAreaSize 0
    (a2, .error AllocError.OutOfRegisters)

/-- The reload step of `GetVariableHostReg`: when the variable has a spill
slot, load it into `reg`, clear the slot's bit and the record. -/
def restoreSpilled (a : X64RegisterAllocator) (var : Nat) (reg : HostReg) :
    X64RegisterAllocator :=
  match a.var_id_to_spill_slot.getD var none with
  | some slot =>
    { a with
      code := a.code ++ [X64Instr.mov_load reg (slot * 4)]
      free_spill_bitmap := a.free_spill_bitmap.set slot false
      var_id_to_spill_slot := a.var_id_to_spill_slot.set var none }
  | none => a

/-- `X64RegisterAllocator::GetVariableHostReg` for the variable with id
`var`. -/
def GetVariableHostReg (kSpillAreaSize : Nat) (a : X64RegisterAllocator) (var : Nat)
    (location : Nat) : X64RegisterAllocator × Except AllocError HostReg :=
  match a.var_id_to_host_reg.getD var none with
  | some reg => (a, .ok reg)
  | none =>
    let a1 := ReleaseDeadVariables a location
    match FindFreeHostReg kSpillAreaSize a1 location with
    | (a2, .error e) => (a2, .error e)
    | (a2, .ok reg) =>
      let a3 := restoreSpilled a2 var reg
      ({ a3 with var_id_to_host_reg := a3.var_id_to_host_reg.set var (some reg) }, .ok reg)

/-- Runs a sequence of `GetVariableHostReg (var, location)` calls, keeping
the state each call leaves behind, whether it returned or threw. -/
def runCalls (kSpillAreaSize : Nat) (a : X64RegisterAllocator) :
    List (Nat × Nat) → X64RegisterAllocator
  | [] => a
  | (var, location) :: rest =>
    runCalls kSpillAreaSize (GetVariableHostReg kSpillAreaSize a var location).1 rest

/-- Opcode `i` of `code` writes or reads variable `v` (the test of the
lifetime pre-pass). -/
def referencesAt (code : List IROpcode) (i : Nat) (v : Nat) : Bool :=
  match code[i]? with
  | some op => op.Writes v || op.Reads v
  | none => false


/-- A block of nineteen opcodes over thirteen variables: opcodes 0 to 11 define
variables 0 to 11, opcode 12 reads variables 0 and 1 and defines variable 12,
the remaining opcodes read the other variables. -/
def blockC1 : IREmitter :=
  { vars := 13
    code :=
      [ .Generic [] [0], .Generic [] [1], .Generic [] [2], .Generic [] [3],
        .Generic [] [4], .Generic [] [5], .Generic [] [6], .Generic [] [7],
        .Generic [] [8], .Generic [] [9], .Generic [] [10], .Generic [] [11],
        .Generic [0, 1] [12],
        .Generic [2, 3] [], .Generic [4, 5] [], .Generic [6, 7] [],
        .Generic [8, 9] [], .Generic [10, 11] [], .Generic [12] [] ] }

/-- The calls a backend makes for opcodes 0 to 11 of `blockC1` and for the
two operands that opcode 12 reads. -/
def callsC1 : List (Nat × Nat) :=
  [(0, 0), (1, 1), (2, 2), (3, 3), (4, 4), (5, 5), (6, 6), (7, 7), (8, 8), (9, 9),
   (10, 10), (11, 11), (0, 12), (1, 12)]


/-- A block of four opcodes over two variables: variable 0 is defined by
opcode 0 and last read by opcode 1, variable 1 is defined by opcode 1 and read
by opcodes 2 and 3. -/
def blockC3 : IREmitter :=
  { vars := 2
    code := [.Generic [] [0], .Generic [0] [1], .Generic [1] [], .Generic [1] []] }

/-! ## Translator -/

/-- Modelled from the spec: the result of a lifter.  The enumeration is
declared in a header that is not part of the sources; these are the four
values `translator.cpp` uses. -/
inductive Status
  | Continue | BreakBasicBlock | BreakMicroBlock | Unimplemented
  deriving DecidableEq, Repr

/-- The CPU model tag of `CPU::Descriptor` (`include/lunatic/cpu.hpp`). -/
inductive Model
  | ARM7 | ARM9
  deriving DecidableEq, Repr

/-- The fields of `CPU::Descriptor` that the translator's constructor copies
by value (`include/lunatic/cpu.hpp`); the memory and the coprocessors are part
of `Environment`. -/
structure Descriptor where
  exception_base : Nat := 0
  model : Model := Model.ARM9
  block_size : Int := 32
  deriving DecidableEq, Repr

/-- Modelled from the spec: the key of a basic block, the triple
(address, mode, thumb).  `BasicBlock::Key` packs it into one integer `value`
that is `0` for a key that was never set; the class is not part of the
sources, an unset key is `none` in `BranchTarget` below. -/
structure BlockKey where
  address : Nat
  mode : Mode
  thumb : Bool
  deriving DecidableEq, Repr

/-- Modelled from the spec: the successor descriptor of a basic block, the key
of the next block (`none` when `key.value == 0`) and the condition under which
it is taken. -/
structure BranchTarget where
  key : Option BlockKey
  condition : Condition
  deriving DecidableEq, Repr

/-- Modelled from the spec: a micro-block, its condition, its own IR emitter
and its length in guest instructions. -/
structure MicroBlock where
  condition : Condition
  emitter : IREmitter
  length : Nat
  deriving DecidableEq, Repr

/-- Modelled from the spec: a basic block, its key, its micro-blocks, its
length in guest instructions and its successor descriptor. -/
structure BasicBlock where
  key : BlockKey
  micro_blocks : List MicroBlock
  length : Nat
  branch_target : BranchTarget
  deriving DecidableEq, Repr

/-- The fields of `Translator` that hold values; `emitter` and `basic_block`
are pointers into the block under translation and travel in `LoopState`. -/
structure Translator where
  armv5te : Bool
  max_block_size : Int
  exception_base : Nat
  mode : Mode
  thumb_mode : Bool
  opcode_size : Nat
  code_address : Nat
  deriving DecidableEq, Repr

/-- Modelled from the spec: what one lifter call does.  The lifters and the
decode tables are not part of the sources.  A lifter returns a `Status`,
emits IR into the current micro-block's emitter and may store into the
block's `branch_target`; it does not touch the lengths, the micro-block list
or `code_address`. -/
structure Lifted where
  status : Status
  emit : IREmitter → IREmitter
  branch : BranchTarget → BranchTarget

/-- The collaborators of the translator that are not part of the sources:
the code bus of the memory interface (`FastRead<u32>` and `FastRead<u16>`),
the two decoders, which pick and run the lifter for an instruction on the
translator, and the condition of a value-initialised `MicroBlock`. -/
structure Environment where
  read_u32 : Nat → Nat
  read_u16 : Nat → Nat
  decode_arm : Nat → Translator → Lifted
  decode_thumb : Nat → Translator → Lifted
  default_condition : Condition

/-- The error thrown on `Status::Unimplemented`
("unknown opcode ... @ ... (thumb=...)"). -/
inductive TranslateError
  | UnknownOpcode (instruction : Nat) (code_address : Nat) (thumb : Nat)
  deriving DecidableEq, Repr

/-- The constructor `Translator::Translator`.  The fields it does not
initialise are overwritten by `Translate` before they are read. -/
def Translator.new (descriptor : Descriptor) : Translator :=
  { armv5te := descriptor.model == Model.ARM9
    max_block_size := descriptor.block_size
    exception_base := descriptor.exception_base
    mode := Mode.User
    thumb_mode := false
    opcode_size := 0
    code_address := 0 }

/-- The local variables of `TranslateARM` and `TranslateThumb` together with
the objects they work on. -/
structure LoopState where
  translator : Translator
  micro_block : MicroBlock
  basic_block : BasicBlock
  status : Status

/-- `MicroBlock{condition}`: a micro-block with a fresh emitter. -/
def MicroBlock.new (condition : Condition) : MicroBlock :=
  { condition := condition, emitter := { vars := 0, code := [] }, length := 0 }

/-- The lambda `add_micro_block`. -/
def add_micro_block (s : LoopState) : LoopState :=
  { s with basic_block :=
      { s.basic_block with micro_blocks := s.basic_block.micro_blocks ++ [s.micro_block] } }

/-- The lambda `break_micro_block`. -/
def break_micro_block (s : LoopState) (condition : Condition) : LoopState :=
  { add_micro_block s with micro_block := MicroBlock.new condition }

/-- The effect of a lifter call on the loop state: IR goes to the current
micro-block, the block's successor descriptor may be stored, the status is
kept. -/
def applyLifted (s : LoopState) (lifted : Lifted) : LoopState :=
  { s with
    micro_block := { s.micro_block with emitter := lifted.emit s.micro_block.emitter }
    basic_block :=
      { s.basic_block with branch_target := lifted.branch s.basic_block.branch_target }
    status := lifted.status }

/-- The statements `basic_block.length++; micro_block.length++;`. -/
def countInstruction (s : LoopState) : LoopState :=
  { s with
    basic_block := { s.basic_block with length := s.basic_block.length + 1 }
    micro_block := { s.micro_block with length := s.micro_block.length + 1 } }

/-- The statement `code_address += size` in `u32`. -/
def advance (s : LoopState) (size : Nat) : LoopState :=
  { s with translator :=
      { s.translator with code_address := (s.translator.code_address + size) % 2 ^ 32 } }

/-- The state in which `TranslateARM` and `TranslateThumb` enter their loop:
the first micro-block, with the given condition, and `status = Continue`. -/
def loopStart (t : Translator) (basic_block : BasicBlock) (condition : Condition) :
    LoopState :=
  { translator := t
    micro_block := MicroBlock.new condition
    basic_block := basic_block
    status := Status.Continue }

/-- The ARM instruction word at an address
(`memory.FastRead<u32, Memory::Bus::Code>`). -/
def armFetch (env : Environment) (code_address : Nat) : Nat :=
  env.read_u32 code_address % 2 ^ 32

/-- The condition `TranslateARM` tracks for an instruction word: bits 28 to
31, with `NV` replaced by `AL` on ARMv5TE. -/
def armCondition (armv5te : Bool) (instruction : Nat) : Condition :=
  let condition := Condition.ofField (instruction / 2 ^ 28)
  if armv5te && condition == Condition.NV then Condition.AL else condition

/-- The condition tracking at the head of the loop body of `TranslateARM`:
iteration 0 sets the condition of the first micro-block, a later iteration
breaks the micro-block when the condition differs from the current one. -/
def armTrack (i : Nat) (s : LoopState) (condition : Condition) : LoopState :=
  if i == 0 then
    { s with micro_block := { s.micro_block with condition := condition } }
  else if condition != s.micro_block.condition then
    break_micro_block s condition
  else s

/-- The body of the loop of `TranslateARM` for iteration `i`, up to the test
for `BreakBasicBlock`. -/
def armIteration (env : Environment) (i : Nat) (s : LoopState) :
    Except TranslateError LoopState :=
  let instruction := armFetch env s.translator.code_address
  let condition := armCondition s.translator.armv5te instruction
  let s1 := armTrack i s condition
  let s2 := applyLifted s1 (env.decode_arm instruction s1.translator)
  if s2.status == Status.Unimplemented then
    .error (TranslateError.UnknownOpcode instruction s2.translator.code_address 0)
  else
    let s3 := countInstruction s2
    let s4 :=
      if s3.status == Status.BreakMicroBlock && condition != Condition.AL then
        break_micro_block s3 condition
      else s3
    .ok s4

/-- The loop of `TranslateARM`: `remaining` iterations from index `i`. -/
def armLoop (env : Environment) : Nat → Nat → LoopState → Except TranslateError LoopState
  | 0, _, s => .ok s
  | remaining + 1, i, s =>
    match armIteration env i s with
    | .error e => .error e
    | .ok s1 =>
      if s1.status == Status.BreakBasicBlock then .ok s1
      else armLoop env remaining (i + 1) (advance s1 4)

/-- `Translator::TranslateARM`: returns the status, the translator and the
block, or the error thrown. -/
def TranslateARM (env : Environment) (t : Translator) (basic_block : BasicBlock) :
    Except TranslateError (Status × Translator × BasicBlock) :=
  match armLoop env t.max_block_size.toNat 0
      (loopStart t basic_block env.default_condition) with
  | .error e => .error e
  | .ok s => .ok (s.status, s.translator, (add_micro_block s).basic_block)

/-- The Thumb instruction at an address: two halfword reads when
`code_address & 2`, else one word read. -/
def thumbFetch (env : Environment) (code_address : Nat) : Nat :=
  if code_address &&& 2 ≠ 0 then
    (env.read_u16 code_address % 2 ^ 16)
      ||| ((env.read_u16 ((code_address + 2) % 2 ^ 32) % 2 ^ 16) <<< 16)
  else env.read_u32 code_address % 2 ^ 32

/-- The detection of conditional branches at the head of the loop body of
`TranslateThumb`. -/
def thumbTrack (i : Nat) (s : LoopState) (instruction : Nat) : LoopState :=
  if (instruction &&& 0xF000) == 0xD000 && (instruction &&& 0xF00) != 0xF00 then
    let condition := Condition.ofField ((instruction % 2 ^ 16) / 2 ^ 8)
    if i == 0 then
      { s with micro_block := { s.micro_block with condition := condition } }
    else break_micro_block s condition
  else s

/-- The body of the loop of `TranslateThumb` for iteration `i`, up to the test
for `BreakBasicBlock`. -/
def thumbIteration (env : Environment) (i : Nat) (s : LoopState) :
    Except TranslateError LoopState :=
  let instruction := thumbFetch env s.translator.code_address
  let s1 := thumbTrack i s instruction
  let s2 := applyLifted s1 (env.decode_thumb instruction s1.translator)
  if s2.status == Status.Unimplemented then
    .error (TranslateError.UnknownOpcode instruction s2.translator.code_address 1)
  else .ok (countInstruction s2)

/-- The loop of `TranslateThumb`: `remaining` iterations from index `i`. -/
def thumbLoop (env : Environment) : Nat → Nat → LoopState → Except TranslateError LoopState
  | 0, _, s => .ok s
  | remaining + 1, i, s =>
    match thumbIteration env i s with
    | .error e => .error e
    | .ok s1 =>
      if s1.status == Status.BreakBasicBlock then .ok s1
      else thumbLoop env remaining (i + 1) (advance s1 2)

/-- `Translator::TranslateThumb`. -/
def TranslateThumb (env : Environment) (t : Translator) (basic_block : BasicBlock) :
    Except TranslateError (Status × Translator × BasicBlock) :=
  match thumbLoop env t.max_block_size.toNat 0
      (loopStart t basic_block Condition.AL) with
  | .error e => .error e
  | .ok s => .ok (s.status, s.translator, (add_micro_block s).basic_block)

/-- The first four assignments of `Translate`: mode, Thumb flag, opcode size
and the code address `key.Address() - 2 * opcode_size` in `u32`. -/
def Translator.enter (t : Translator) (basic_block : BasicBlock) : Translator :=
  let opcode_size := if basic_block.key.thumb then 2 else 4
  { t with
    mode := basic_block.key.mode
    thumb_mode := basic_block.key.thumb
    opcode_size := opcode_size
    code_address := (basic_block.key.address + 2 ^ 32 - 2 * opcode_size) % 2 ^ 32 }

/-- The call `thumb_mode ? TranslateThumb(basic_block) : TranslateARM(basic_block)`. -/
def translateByMode (env : Environment) (t : Translator) (basic_block : BasicBlock) :
    Except TranslateError (Status × Translator × BasicBlock) :=
  if t.thumb_mode then TranslateThumb env t basic_block else TranslateARM env t basic_block

/-- `Translator::Translate`: returns the translator and the block, or the
error thrown. -/
def Translate (env : Environment) (t : Translator) (basic_block : BasicBlock) :
    Except TranslateError (Translator × BasicBlock) :=
  match translateByMode env (t.enter basic_block) basic_block with
  | .error e => .error e
  | .ok (status, t2, bb) =>
    if status == Status.Continue && bb.branch_target.key == none then
      let next_pc := (t2.code_address + 2 * t2.opcode_size) % 2 ^ 32
      .ok (t2,
        { bb with branch_target :=
            { key := some { address := next_pc, mode := t2.mode, thumb := t2.thumb_mode }
              condition := Condition.AL } })
    else .ok (t2, bb)

/-- `Translator::Undefined`. -/
def Translator.Undefined (_opcode : Nat) : Status :=
  Status.Unimplemented

/-- The common shape of the loops of `TranslateARM` and `TranslateThumb`: run
the loop body, stop on `BreakBasicBlock`, else advance the code address by
the instruction size. -/
def blockLoop (iteration : Nat → LoopState → Except TranslateError LoopState) (size : Nat) :
    Nat → Nat → LoopState → Except TranslateError LoopState
  | 0, _, s => .ok s
  | remaining + 1, i, s =>
    match iteration i s with
    | .error e => .error e
    | .ok s1 =>
      if s1.status == Status.BreakBasicBlock then .ok s1
      else blockLoop iteration size remaining (i + 1) (advance s1 size)

/-- The lifter call of one ARM loop iteration, as a function of the
translator. -/
def armLift (env : Environment) (t : Translator) : Lifted :=
  env.decode_arm (armFetch env t.code_address) t

/-- The lifter call of one Thumb loop iteration, as a function of the
translator. -/
def thumbLift (env : Environment) (t : Translator) : Lifted :=
  env.decode_thumb (thumbFetch env t.code_address) t

/-- The translator `j` instructions of `size` bytes further on. -/
def Translator.at (t : Translator) (size j : Nat) : Translator :=
  { t with code_address := (t.code_address + size * j) % 2 ^ 32 }

/-- What a loop body does, in terms of the lifter call `lift`: it throws
exactly on `Unimplemented`; otherwise it keeps the lifter's status, leaves the
translator alone, counts one instruction and stores what the lifter stores
into the successor descriptor. -/
def IterationSpec (iteration : Nat → LoopState → Except TranslateError LoopState)
    (lift : Translator → Lifted) : Prop :=
  ∀ i s,
    ((lift s.translator).status = Status.Unimplemented → ∃ e, iteration i s = .error e)
    ∧ ((lift s.translator).status ≠ Status.Unimplemented →
        ∃ s1, iteration i s = .ok s1
          ∧ s1.status = (lift s.translator).status
          ∧ s1.translator = s.translator
          ∧ s1.basic_block.length = s.basic_block.length + 1
          ∧ s1.basic_block.key = s.basic_block.key
          ∧ s1.basic_block.branch_target
              = (lift s.translator).branch s.basic_block.branch_target)

/-- The lifter result for the `j`-th instruction of a block, counted from the
translator's current code address, in the translator's mode. -/
def liftedAt (env : Environment) (t : Translator) (j : Nat) : Lifted :=
  if t.thumb_mode then thumbLift env (t.at 2 j) else armLift env (t.at 4 j)

/-- The condition `TranslateARM` tracks for the `j`-th instruction counted
from the translator's current code address. -/
def armConditionAt (env : Environment) (t : Translator) (j : Nat) : Condition :=
  armCondition t.armv5te (armFetch env (t.at 4 j).code_address)

/-- The memory of the examples, by word address: ARM code at 0 (`MOV R0, #5`,
`ADDEQS R0, R0, #1`, `MOVNV R0, R0`, `B .`, an undefined word), Thumb code at
0x100 (`MOV R0, #5`, `BEQ`, `B .`, `NOP`), `MOV R0, R0` elsewhere. -/
def demoWord (a : Nat) : Nat :=
  if a == 0 then 0xE3A00005 else if a == 4 then 0x02900001
  else if a == 8 then 0xF1A00000 else if a == 12 then 0xEAFFFFFE
  else if a == 16 then 0xE7F000F0
  else if a == 0x100 then 0xD0002005 else if a == 0x104 then 0x46C0E7FE
  else 0xE1A00000

/-- A small code bus and decoder for the examples.  The conditional
flag-setting add returns `BreakMicroBlock`, a branch stores its target and
returns `BreakBasicBlock`, the undefined word goes to `Translator::Undefined`,
everything else returns `Continue`. -/
def demoEnv : Environment :=
  { read_u32 := demoWord
    read_u16 := fun a => (demoWord (a - a % 4) / 2 ^ (8 * (a % 4))) % 2 ^ 16
    decode_arm := fun instruction t =>
      if instruction == 0xEAFFFFFE then
        { status := Status.BreakBasicBlock
          emit := fun e => e
          branch := fun _ =>
            { key := some { address := (t.code_address + 8) % 2 ^ 32, mode := t.mode,
                            thumb := false }
              condition := Condition.AL } }
      else if instruction == 0x02900001 then
        { status := Status.BreakMicroBlock, emit := fun e => e, branch := fun b => b }
      else if instruction == 0xE7F000F0 then
        { status := Translator.Undefined instruction, emit := fun e => e, branch := fun b => b }
      else { status := Status.Continue, emit := fun e => e, branch := fun b => b }
    decode_thumb := fun instruction t =>
      if instruction % 2 ^ 16 == 0xE7FE then
        { status := Status.BreakBasicBlock
          emit := fun e => e
          branch := fun _ =>
            { key := some { address := (t.code_address + 4) % 2 ^ 32, mode := t.mode,
                            thumb := true }
              condition := Condition.AL } }
      else { status := Status.Continue, emit := fun e => e, branch := fun b => b }
    default_condition := Condition.AL }

/-- A fresh basic block for a key: no micro-blocks, length 0, successor
unset. -/
def BasicBlock.new (key : BlockKey) : BasicBlock :=
  { key := key
    micro_blocks := []
    length := 0
    branch_target := { key := none, condition := Condition.AL } }

/-- The status the lifter returns for the `j`-th ARM instruction counted from
the translator's current code address. -/
def armStatusAt (env : Environment) (t : Translator) (j : Nat) : Status :=
  (armLift env (t.at 4 j)).status

/-- The number of predicate changes among the first `n` ARM instructions:
the indices `0 < j < n` whose tracked condition differs from that of
instruction `j - 1`. -/
def predicateChanges (env : Environment) (t : Translator) (n : Nat) : Nat :=
  Nat.count (fun j => 0 < j ∧ armConditionAt env t j ≠ armConditionAt env t (j - 1)) n

/-- The number of instructions among the first `n` whose lifter returns
`BreakMicroBlock` under a tracked condition other than `AL`. -/
def microBlockBreaks (env : Environment) (t : Translator) (n : Nat) : Nat :=
  Nat.count
    (fun j => armStatusAt env t j = Status.BreakMicroBlock
      ∧ armConditionAt env t j ≠ Condition.AL) n

/-- The state of the micro-block bookkeeping of `TranslateARM` after `i`
instructions: `mbs` are the micro-blocks pushed so far behind the block's
earlier ones `pre`, `s.micro_block` is the current one. -/
structure MicroInv (env : Environment) (t : Translator) (pre : List MicroBlock) (i : Nat)
    (s : LoopState) (mbs : List MicroBlock) : Prop where
  pushed : s.basic_block.micro_blocks = pre ++ mbs
  count : mbs.length = predicateChanges env t i + microBlockBreaks env t i
  current : 0 < i → s.micro_block.condition = armConditionAt env t (i - 1)
  origin : ∀ mb, mb ∈ mbs → ∃ j, j < i ∧ mb.condition = armConditionAt env t j
  total : (mbs.map (fun mb => mb.length)).sum + s.micro_block.length = i
  distinct : microBlockBreaks env t i = 0 →
    List.Chain' (fun a b => a ≠ b)
      (mbs.map (fun mb => mb.condition) ++ [s.micro_block.condition])

/-- The state a loop body of `TranslateARM` returns when the tracked condition
is `condition` and the lifter call is `lifted` (not `Unimplemented`). -/
def armStep (i : Nat) (s : LoopState) (condition : Condition) (lifted : Lifted) : LoopState :=
  let s3 := countInstruction (applyLifted (armTrack i s condition) lifted)
  if s3.status == Status.BreakMicroBlock && condition != Condition.AL then
    break_micro_block s3 condition
  else s3

/-! ## `EmitAdvancePC` -/

/-- `Translator::EmitAdvancePC` on the current emitter.  `IREmitter::StoreGPR`
is not part of the sources; it appends the one `StoreGPR` opcode it builds.
The constant is computed in `u32`. -/
def EmitAdvancePC (t : Translator) (emitter : IREmitter) : IREmitter :=
  { emitter with
    code := emitter.code ++
      [IROpcode.StoreGPR { reg := GPR.PC, mode := t.mode }
        (IRAnyRef.const ((t.code_address + t.opcode_size * 3) % 2 ^ 32))] }

/-! ## `StatusRegister` -/

/-- The bit-fields of `StatusRegister::f` (`include/lunatic/cpu.hpp`). -/
structure StatusRegisterFields where
  mode : Nat
  thumb : Nat
  mask_fiq : Nat
  mask_irq : Nat
  reserved : Nat
  q : Nat
  v : Nat
  c : Nat
  z : Nat
  n : Nat
  deriving DecidableEq, Repr

/-- The widths of the bit-fields of `StatusRegister::f`, in declaration
order. -/
def StatusRegister.widths : List Nat := [5, 1, 1, 1, 19, 1, 1, 1, 1, 1]

/-- The first bit of the `i`-th bit-field: the fields are allocated from the
least significant bit of the 32-bit unit in declaration order, which is what
the x86-64 ABIs (the host target) do. -/
def StatusRegister.offset (i : Nat) : Nat :=
  (StatusRegister.widths.take i).sum

/-- The value of the `i`-th bit-field of the 32-bit word `v`. -/
def StatusRegister.field (v : Nat) (i : Nat) : Nat :=
  v / 2 ^ StatusRegister.offset i % 2 ^ StatusRegister.widths.getD i 0

/-- Reading the union member `f` of a `StatusRegister` whose member `v` holds
the word `v`. -/
def StatusRegister.f (v : Nat) : StatusRegisterFields :=
  { mode := StatusRegister.field v 0
    thumb := StatusRegister.field v 1
    mask_fiq := StatusRegister.field v 2
    mask_irq := StatusRegister.field v 3
    reserved := StatusRegister.field v 4
    q := StatusRegister.field v 5
    v := StatusRegister.field v 6
    c := StatusRegister.field v 7
    z := StatusRegister.field v 8
    n := StatusRegister.field v 9 }

/-- Where a value stored into the `i`-th bit-field lands in the word: it is
truncated to the field's width and shifted to the field's first bit. -/
def StatusRegister.place (x : Nat) (i : Nat) : Nat :=
  x % 2 ^ StatusRegister.widths.getD i 0 * 2 ^ StatusRegister.offset i

/-- Reading the union member `v` of a `StatusRegister` whose bit-fields hold
`f`. -/
def StatusRegister.v (f : StatusRegisterFields) : Nat :=
  StatusRegister.place f.mode 0 + StatusRegister.place f.thumb 1
    + StatusRegister.place f.mask_fiq 2 + StatusRegister.place f.mask_irq 3
    + StatusRegister.place f.reserved 4 + StatusRegister.place f.q 5
    + StatusRegister.place f.v 6 + StatusRegister.place f.c 7
    + StatusRegister.place f.z 8 + StatusRegister.place f.n 9

/-! ## Register allocator: auxiliary notions -/

/-- The register `ReleaseDeadVariables(location)` takes from variable `var`:
the one it holds, when its last use lies before `location`. -/
def releasedReg (a : X64RegisterAllocator) (location : Nat) (var : Nat) : Option HostReg :=
  if (location : Int) > a.var_id_to_point_of_last_use.getD var 0 then
    a.var_id_to_host_reg.getD var none
  else none

/-- The registers bound to variables, in variable-id order. -/
def boundRegs (a : X64RegisterAllocator) : List HostReg :=
  a.var_id_to_host_reg.filterMap id

/-- The free pool the constructor sets up. -/
def initialPool : List HostReg :=
  [.edx, .ebx, .esi, .edi, .r8d, .r9d, .r10d, .r11d, .r12d, .r13d, .r14d, .r15d]

/-- Runs a sequence of `GetVariableHostReg (var, location)` calls that all
return; `none` when one of them throws. -/
def runReturning (kSpillAreaSize : Nat) (a : X64RegisterAllocator) :
    List (Nat × Nat) → Option X64RegisterAllocator
  | [] => some a
  | (var, location) :: rest =>
    match GetVariableHostReg kSpillAreaSize a var location with
    | (a1, .ok _) => runReturning kSpillAreaSize a1 rest
    | (_, .error _) => none

/-! ## Pool allocator -/

/-- A `Pool` object (`src/common/pool_allocator.hpp`) for `T = u16`, the
instantiation of `g_pool_alloc`: the `id` field of each element of `objects`,
the array and the length of `stack`, and the two list links (`none` is
`nullptr`).  The payload bytes of the objects are left out. -/
structure Pool where
  objects : List Nat
  stack_data : List Nat
  stack_length : Nat
  prev : Option Nat
  next : Option Nat
  deriving DecidableEq, Repr

/-- A pointer to a `Pool::Object`: the address of the pool it points into and
the index of the object inside `objects`.  Pointer arithmetic on it stays
inside the pool: `obj - k` is the object `k` places before. -/
structure ObjectPtr where
  pool : Nat
  index : Nat
  deriving DecidableEq, Repr

/-- The live `Pool` objects by address; `none` where no pool is allocated. -/
abbrev PoolHeap := Nat → Option Pool

/-- Writing a pool object at an address. -/
def PoolHeap.store (heap : PoolHeap) (address : Nat) (pool : Pool) : PoolHeap :=
  fun a => if a = address then some pool else heap a

/-- The statement `delete pool`. -/
def PoolHeap.delete (heap : PoolHeap) (address : Nat) : PoolHeap :=
  fun a => if a = address then none else heap a

/-- `PoolAllocator::List`: `head` and `tail`. -/
structure PoolList where
  head : Option Nat
  tail : Option Nat
  deriving DecidableEq, Repr

/-- The state of a `PoolAllocator`: the pool objects it has allocated and its
two lists. -/
structure PoolAllocator where
  heap : PoolHeap
  free_pools : PoolList
  full_pools : PoolList

/-- The constructor `Pool::Pool` for `capacity` objects, with `T = u16`
arithmetic. -/
def Pool.new (capacity : Nat) : Pool :=
  { objects := (List.range capacity).map (fun id => id % 2 ^ 16)
    stack_data := (List.range capacity).map
      (fun id => ((capacity - 1) % 2 ^ 16 + 2 ^ 16 - id % 2 ^ 16) % 2 ^ 16)
    stack_length := capacity
    prev := none
    next := none }

/-- `Pool::IsFull`. -/
def Pool.IsFull (p : Pool) : Bool := p.stack_length == 0

/-- `Pool::IsEmpty`. -/
def Pool.IsEmpty (capacity : Nat) (p : Pool) : Bool := p.stack_length == capacity

/-- `Pool::Push` of the object with the given index: stores the object's `id`
at `stack.data[stack.length++]`.  Indexing outside the arrays is undefined
behaviour (`none`). -/
def Pool.Push (p : Pool) (index : Nat) : Option Pool := do
  let id ← p.objects[index]?
  if p.stack_length < p.stack_data.length then
    some { p with
      stack_data := p.stack_data.set p.stack_length id
      stack_length := p.stack_length + 1 }
  else none

/-- `Pool::Pop`: returns the pool and the index of `objects[stack.data[--stack.length]]`.
Popping with `stack.length == 0` or indexing outside the arrays is undefined
behaviour (`none`). -/
def Pool.Pop (p : Pool) : Option (Pool × Nat) :=
  if 0 < p.stack_length then do
    let id ← p.stack_data[p.stack_length - 1]?
    if id < p.objects.length then
      some ({ p with stack_length := p.stack_length - 1 }, id)
    else none
  else none

/-- `List::Remove`.  Following a pointer to a pool that is not allocated is
undefined behaviour (`none`). -/
def PoolList.Remove (heap : PoolHeap) (l : PoolList) (pool : Nat) :
    Option (PoolHeap × PoolList) := do
  let p ← heap pool
  let (heap1, l1) ←
    match p.next with
    | none =>
      match p.prev with
      | some t => do
        let q ← heap t
        pure (heap.store t { q with next := none }, { l with tail := some t })
      | none => pure (heap, { l with tail := none })
    | some n => do
      let q ← heap n
      pure (heap.store n { q with prev := p.prev }, l)
  let p1 ← heap1 pool
  match p1.prev with
  | none =>
    match p1.next with
    | some h => do
      let q ← heap1 h
      pure (heap1.store h { q with prev := none }, { l1 with head := some h })
    | none => pure (heap1, { l1 with head := none })
  | some r => do
    let q ← heap1 r
    pure (heap1.store r { q with next := p1.next }, l1)

/-- `List::Append`. -/
def PoolList.Append (heap : PoolHeap) (l : PoolList) (pool : Nat) :
    Option (PoolHeap × PoolList) := do
  let (heap1, l1) ←
    match l.head with
    | none => do
      let p ← heap pool
      pure (heap.store pool { p with prev := none }, { head := some pool, tail := some pool })
    | some _ => do
      let old_tail ← l.tail
      let q ← heap old_tail
      let heap0 := heap.store old_tail { q with next := some pool }
      let p ← heap0 pool
      pure (heap0.store pool { p with prev := some old_tail }, { l with tail := some pool })
  let p ← heap1 pool
  pure (heap1.store pool { p with next := none }, l1)

/-- The allocator before the first call: no pools, both lists empty. -/
def PoolAllocator.empty : PoolAllocator :=
  { heap := fun _ => none
    free_pools := { head := none, tail := none }
    full_pools := { head := none, tail := none } }

/-- `PoolAllocator::Allocate` for pools of `capacity` objects.  `fresh` is the
address `new Pool{}` returns when a pool has to be created.  Returns the new
state and the object. -/
def PoolAllocator.Allocate (capacity : Nat) (fresh : Nat) (s : PoolAllocator) :
    Option (PoolAllocator × ObjectPtr) := do
  let s1 : PoolAllocator :=
    match s.free_pools.head with
    | none =>
      { s with
        heap := s.heap.store fresh (Pool.new capacity)
        free_pools := { head := some fresh, tail := some fresh } }
    | some _ => s
  let pool ← s1.free_pools.head
  let p ← s1.heap pool
  let (p1, index) ← p.Pop
  let heap1 := s1.heap.store pool p1
  if p1.IsFull then do
    let (heap2, free2) ← PoolList.Remove heap1 s1.free_pools pool
    let (heap3, full3) ← PoolList.Append heap2 s1.full_pools pool
    pure ({ heap := heap3, free_pools := free2, full_pools := full3 },
      { pool := pool, index := index })
  else
    pure ({ s1 with heap := heap1 }, { pool := pool, index := index })

/-- `PoolAllocator::Release`.  The owning pool is `(Pool*)(obj - obj->id)`: the
object `obj->id` places before `obj`, which has to be the first object of the
pool for the cast to give the pool. -/
def PoolAllocator.Release (capacity : Nat) (object : ObjectPtr) (s : PoolAllocator) :
    Option PoolAllocator := do
  let owner ← s.heap object.pool
  let id ← owner.objects[object.index]?
  if object.index - id = 0 ∧ id ≤ object.index then do
    let pool := object.pool
    let p ← s.heap pool
    let (heap1, full1, free1) ←
      if p.IsFull then do
        let (h1, full1) ← PoolList.Remove s.heap s.full_pools pool
        let (h2, free1) ← PoolList.Append h1 s.free_pools pool
        pure (h2, full1, free1)
      else pure (s.heap, s.full_pools, s.free_pools)
    let p1 ← heap1 pool
    let p2 ← p1.Push object.index
    let heap2 := heap1.store pool p2
    if p2.IsEmpty capacity then do
      let (heap3, free3) ← PoolList.Remove heap2 free1 pool
      pure { heap := heap3.delete pool, free_pools := free3, full_pools := full1 }
    else
      pure { heap := heap2, free_pools := free1, full_pools := full1 }
  else none

/-- The slot ids on the free stack of a pool: `stack.data[0 .. stack.length)`. -/
def Pool.freeIds (p : Pool) : List Nat := p.stack_data.take p.stack_length

/-- A pool of `capacity` objects is in order: every object carries its own
index as `id`, the stack array has `capacity` entries, and the free stack
holds distinct slot ids below `capacity`. -/
def Pool.WF (capacity : Nat) (p : Pool) : Prop :=
  p.objects = List.range capacity
  ∧ p.stack_data.length = capacity
  ∧ p.stack_length ≤ capacity
  ∧ p.freeIds.Nodup
  ∧ ∀ x, x ∈ p.freeIds → x < capacity

/-- The first element of a list of addresses, or `d` for the empty list. -/
def firstOr : List Nat → Option Nat → Option Nat
  | [], d => d
  | x :: _, _ => some x

/-- The last element of a list of addresses, or `d` for the empty list. -/
def lastOr : List Nat → Option Nat → Option Nat
  | [], d => d
  | x :: xs, _ => lastOr xs (some x)

/-- The pools `ps` form a doubly linked segment in `heap`: each pool's `next`
is its successor and each pool's `prev` its predecessor, the first pool's
`prev` is `prev` and the last pool's `next` is `nxt`. -/
def Seg (heap : PoolHeap) : Option Nat → List Nat → Option Nat → Prop
  | _, [], _ => True
  | prev, p :: rest, nxt =>
    ∃ pool, heap p = some pool ∧ pool.prev = prev ∧ pool.next = firstOr rest nxt
      ∧ Seg heap (some p) rest nxt

/-- The list `l` is a well-formed doubly linked list of exactly the pools
`ps`, in this order. -/
def IsList (heap : PoolHeap) (l : PoolList) (ps : List Nat) : Prop :=
  l.head = firstOr ps none ∧ l.tail = lastOr ps none ∧ Seg heap none ps none

/-- The part of a pool that the list operations never write: the object ids
and the free stack. -/
def Pool.contents (p : Pool) : List Nat × List Nat × Nat :=
  (p.objects, p.stack_data, p.stack_length)

/-- Two heaps hold the same pools up to the list links. -/
def SameContents (heap heap' : PoolHeap) : Prop :=
  ∀ a, (heap' a).map Pool.contents = (heap a).map Pool.contents

/-- The bookkeeping of the pools of an allocator for pools of `capacity`
objects, as far as it does not depend on the list links: only the pools on
the two lists are allocated, every pool is in order, a pool on the free list
has a free slot and a pool on the full list has none, and the live objects
`live` (returned by `Allocate` and not yet passed to `Release`) are exactly
the slots that are not on the free stack of their pool. -/
structure PoolContentsInv (capacity : Nat) (heap : PoolHeap) (live : List ObjectPtr)
    (free full : List Nat) : Prop where
  dom : ∀ a, a ∉ free → a ∉ full → heap a = none
  wf : ∀ a pool, heap a = some pool → pool.WF capacity
  free_slots : ∀ a pool, a ∈ free → heap a = some pool → 0 < pool.stack_length
  full_slots : ∀ a pool, a ∈ full → heap a = some pool → pool.stack_length = 0
  live_nodup : live.Nodup
  live_iff : ∀ o : ObjectPtr, o ∈ live ↔
    ∃ pool, heap o.pool = some pool ∧ o.index < capacity ∧ o.index ∉ pool.freeIds

/-- Every pool on the free list has at least one live object. -/
def Occupied (capacity : Nat) (heap : PoolHeap) (free : List Nat) : Prop :=
  ∀ a pool, a ∈ free → heap a = some pool → pool.stack_length < capacity

/-- The invariant of a `PoolAllocator`: `free` and `full` are the pools of
the two lists in list order, both lists are well-formed doubly linked lists,
no pool is on both or twice on one, and the bookkeeping is in order. -/
structure PoolInv (capacity : Nat) (s : PoolAllocator) (live : List ObjectPtr)
    (free full : List Nat) : Prop where
  free_list : IsList s.heap s.free_pools free
  full_list : IsList s.heap s.full_pools full
  nodup : (free ++ full).Nodup
  contents : PoolContentsInv capacity s.heap live free full
  occupied : Occupied capacity s.heap free

/-- The states a `PoolAllocator` for pools of `capacity` objects reaches by
`Allocate` and `Release`, together with the list of live objects: `Release`
is applied to live objects only, and `new` returns an address at which no
pool is allocated. -/
inductive PoolReach (capacity : Nat) : PoolAllocator → List ObjectPtr → Prop
  | init : PoolReach capacity PoolAllocator.empty []
  | allocate {s s' : PoolAllocator} {live : List ObjectPtr} {o : ObjectPtr} (fresh : Nat) :
      PoolReach capacity s live → s.heap fresh = none →
      s.Allocate capacity fresh = some (s', o) → PoolReach capacity s' (o :: live)
  | release {s s' : PoolAllocator} {live : List ObjectPtr} (o : ObjectPtr) :
      PoolReach capacity s live → o ∈ live →
      s.Release capacity o = some s' → PoolReach capacity s' (live.erase o)

/-- The pools of the free list after the first statement of `Allocate`: a
pool is created at `fresh` when the list is empty. -/
def withFresh : List Nat → Nat → List Nat
  | [], fresh => [fresh]
  | p :: ps, _ => p :: ps

/-- A pool of two objects with `n` free slots, as the constructor and `Pop`
leave it. -/
def demoPool (n : Nat) : Pool :=
  { objects := [0, 1], stack_data := [1, 0], stack_length := n, prev := none, next := none }

/-- The allocator for pools of two objects after one `Allocate`: one pool at
address 0 with one live object, on the free list. -/
def poolDemo1 : PoolAllocator :=
  { heap := (PoolAllocator.empty.heap.store 0 (demoPool 2)).store 0 (demoPool 1)
    free_pools := { head := some 0, tail := some 0 }
    full_pools := { head := none, tail := none } }

/-- The allocator for pools of two objects after two `Allocate`s: the pool at
address 0 has two live objects and is on the full list. -/
def poolDemo2 : PoolAllocator :=
  { heap := ((poolDemo1.heap.store 0 (demoPool 0)).store 0 (demoPool 0)).store 0 (demoPool 0)
    free_pools := { head := none, tail := none }
    full_pools := { head := some 0, tail := some 0 } }

/-! ## Micro-block accounting -/

/-- The test of `TranslateThumb` for a conditional branch
(`(instruction & 0xF000) == 0xD000 && (instruction & 0xF00) != 0xF00`)
together with the condition it then reads,
`bit::get_field<u16, Condition>(instruction, 8, 4)`; `none` when the test
fails. -/
def thumbDetect (instruction : Nat) : Option Condition :=
  if (instruction &&& 0xF000) == 0xD000 && (instruction &&& 0xF00) != 0xF00 then
    some (Condition.ofField ((instruction % 2 ^ 16) / 2 ^ 8))
  else none

/-- Bits `hi` down to `lo` of a number. -/
def bitField (n hi lo : Nat) : Nat :=
  n / 2 ^ lo % 2 ^ (hi + 1 - lo)

/-- The Thumb conditional branch in the words of the specification: bits 15
to 12 of the low halfword are `0b1101` and bits 11 to 8 are not `0b1111`; the
condition is the value of bits 11 to 8.  `none` for every other instruction. -/
def specThumbBranch (instruction : Nat) : Option Condition :=
  let low := instruction % 2 ^ 16
  if bitField low 15 12 = 0b1101 ∧ bitField low 11 8 ≠ 0b1111 then
    some (Condition.ofField (bitField low 11 8))
  else none

/-- The detection step of `TranslateThumb` in the words of the specification:
for a conditional branch the condition becomes the condition of the current
micro-block when `i = 0`, or a new micro-block with that condition is opened
when `i > 0`; every other instruction stays in the current micro-block. -/
def specThumbTrack (i : Nat) (s : LoopState) (instruction : Nat) : LoopState :=
  match specThumbBranch instruction with
  | some c =>
    if i = 0 then { s with micro_block := { s.micro_block with condition := c } }
    else break_micro_block s c
  | none => s

/-- The condition of the `j`-th Thumb instruction counted from the
translator's current code address when it is a conditional branch in the
words of the specification, else `none`. -/
def thumbBranchAt (env : Environment) (t : Translator) (j : Nat) : Option Condition :=
  specThumbBranch (thumbFetch env (t.at 2 j).code_address)

/-- The condition under which the `j`-th Thumb instruction runs according to
the specification: that of the last conditional branch at an index up to `j`,
`AL` when there is none. -/
def thumbConditionAt (env : Environment) (t : Translator) : Nat → Condition
  | 0 => (thumbBranchAt env t 0).getD Condition.AL
  | j + 1 => (thumbBranchAt env t (j + 1)).getD (thumbConditionAt env t j)

/-- The instruction slots of a list of micro-blocks read in order: each
micro-block stands for `length` instructions under its condition. -/
def conditionSlots : List MicroBlock → List Condition
  | [] => []
  | mb :: rest => List.replicate mb.length mb.condition ++ conditionSlots rest

/-- The index of the first instruction of each micro-block of a list, when
the first micro-block starts at instruction `offset`. -/
def microBlockStarts : Nat → List MicroBlock → List Nat
  | _, [] => []
  | offset, mb :: rest => offset :: microBlockStarts (offset + mb.length) rest

/-- The accounting of a translation loop after `i` instructions, for the
condition `cond j` of instruction `j`: `mbs` are the micro-blocks pushed so
far behind the block's earlier ones `pre`, `s.micro_block` is the current
one, `len0` was the length of the block at the start. -/
structure CountInv (cond : Nat → Condition) (pre : List MicroBlock) (len0 i : Nat)
    (s : LoopState) (mbs : List MicroBlock) : Prop where
  pushed : s.basic_block.micro_blocks = pre ++ mbs
  slots : conditionSlots (mbs ++ [s.micro_block]) = (List.range i).map cond
  length : s.basic_block.length = len0 + i

/-- The micro-block bookkeeping of `TranslateThumb` after `i` instructions. -/
structure ThumbInv (env : Environment) (t : Translator) (pre : List MicroBlock) (len0 i : Nat)
    (s : LoopState) (mbs : List MicroBlock) : Prop where
  count : CountInv (thumbConditionAt env t) pre len0 i s mbs
  starts : microBlockStarts 0 (mbs ++ [s.micro_block])
    = 0 :: (List.range i).filter (fun j => decide (0 < j) && (thumbBranchAt env t j).isSome)
  first : ∀ mb, (mbs ++ [s.micro_block]).head? = some mb →
    mb.condition = if 0 < i then thumbConditionAt env t 0 else Condition.AL
  current : s.micro_block.condition
    = if 0 < i then thumbConditionAt env t (i - 1) else Condition.AL

/-- The state a loop body of `TranslateThumb` returns for the fetched
`instruction` when the lifter call is `lifted` (not `Unimplemented`). -/
def thumbStep (i : Nat) (s : LoopState) (instruction : Nat) (lifted : Lifted) : LoopState :=
  countInstruction (applyLifted (thumbTrack i s instruction) lifted)

/-- Micro-block `k` of the list `l`, whose first micro-block starts at
instruction `offset`, counts instruction `j` and has condition `c`: `j` lies
among the `length` instructions from the start of micro-block `k`. -/
def countsFrom (offset : Nat) (l : List MicroBlock) (j k : Nat) (c : Condition) : Prop :=
  ∃ mb start, l[k]? = some mb ∧ (microBlockStarts offset l)[k]? = some start
    ∧ start ≤ j ∧ j < start + mb.length ∧ mb.condition = c

/-- Micro-block `k` of the micro-blocks `l` appended by a translation counts
instruction `j` of the block and has condition `c`. -/
def countsUnder (l : List MicroBlock) (j k : Nat) (c : Condition) : Prop :=
  countsFrom 0 l j k c

/-! ## `TranslateARM`: where micro-blocks are opened -/

/-- Every micro-block of `l` behind the first starts at an instruction index
`start` with `0 < start ≤ n` at which `TranslateARM` opens a micro-block: the
tracked condition of instruction `start < n` differs from that of the
instruction before it, or the lifter of the instruction before it returned
`BreakMicroBlock` under a tracked condition other than `AL`. -/
def OpenedBy (env : Environment) (t : Translator) (n : Nat) (l : List MicroBlock) : Prop :=
  ∀ start, start ∈ (microBlockStarts 0 l).tail →
    0 < start ∧ start ≤ n
    ∧ ((start < n ∧ armConditionAt env t start ≠ armConditionAt env t (start - 1))
      ∨ (armStatusAt env t (start - 1) = Status.BreakMicroBlock
        ∧ armConditionAt env t (start - 1) ≠ Condition.AL))

/-- The micro-block bookkeeping of `TranslateARM` after `i` instructions, by
instruction: the accounting, the condition of the current micro-block, and
where the micro-blocks were opened. -/
structure ArmStartsInv (env : Environment) (t : Translator) (pre : List MicroBlock)
    (len0 i : Nat) (s : LoopState) (mbs : List MicroBlock) : Prop where
  count : CountInv (armConditionAt env t) pre len0 i s mbs
  current : 0 < i → s.micro_block.condition = armConditionAt env t (i - 1)
  opened : OpenedBy env t i (mbs ++ [s.micro_block])

/-- A code bus for the examples of the `NV` rewriting: `MOVNV R0, R0` at
address 4, `MOV R0, R0` elsewhere; every lifter returns `Continue`. -/
def demoEnvNV : Environment :=
  { read_u32 := fun a => if a == 4 then 0xF1A00000 else 0xE1A00000
    read_u16 := fun _ => 0x46C0
    decode_arm := fun _ _ =>
      { status := Status.Continue, emit := fun e => e, branch := fun b => b }
    decode_thumb := fun _ _ =>
      { status := Status.Continue, emit := fun e => e, branch := fun b => b }
    default_condition := Condition.AL }

/-! ## Theorems: register allocator -/

set_option maxRecDepth 100000

theorem referencesAt_append_left (l : List IROpcode) (op : IROpcode) (i v : Nat)
    (h : i < l.length) : referencesAt (l ++ [op]) i v = referencesAt l i v := by
  unfold referencesAt
  rw [List.getElem?_append_left h]

theorem referencesAt_length (l : List IROpcode) (op : IROpcode) (v : Nat) :
    referencesAt (l ++ [op]) l.length v = (op.Writes v || op.Reads v) := by
  unfold referencesAt
  simp

theorem referencesAt_lt (l : List IROpcode) (i v : Nat) (h : referencesAt l i v = true) :
    i < l.length := by
  unfold referencesAt at h
  by_contra hc
  rw [List.getElem?_eq_none (by omega)] at h
  simp at h

/-- The inner loop of the pre-pass counts the opcodes and ends with the largest
referencing index, or with `-1` when there is none. -/
theorem expirationPoint_fold (v : Nat) (code : List IROpcode) :
    (code.foldl
      (fun (st : Int × Int) op =>
        (if op.Writes v || op.Reads v then st.2 else st.1, st.2 + 1))
      (-1, 0)).2 = code.length
    ∧ (∀ i, referencesAt code i v = true →
        (∀ j, i < j → referencesAt code j v = false) →
        (code.foldl
          (fun (st : Int × Int) op =>
            (if op.Writes v || op.Reads v then st.2 else st.1, st.2 + 1))
          (-1, 0)).1 = i)
    ∧ ((∀ i, referencesAt code i v = false) →
        (code.foldl
          (fun (st : Int × Int) op =>
            (if op.Writes v || op.Reads v then st.2 else st.1, st.2 + 1))
          (-1, 0)).1 = -1) := by
  induction code using List.reverseRecOn with
  | nil =>
    refine ⟨by simp, ?_, by simp⟩
    intro i hi
    have := referencesAt_lt [] i v hi
    simp at this
  | append_singleton l op ih =>
    obtain ⟨ih2, ihlast, ihnone⟩ := ih
    rw [List.foldl_append]
    simp only [List.foldl_cons, List.foldl_nil]
    refine ⟨by rw [ih2, List.length_append]; simp, ?_, ?_⟩
    · intro i hi hlast
      have hlt := referencesAt_lt _ i v hi
      simp only [List.length_append, List.length_singleton] at hlt
      by_cases hop : (op.Writes v || op.Reads v) = true
      · rw [if_pos hop, ih2]
        by_cases hil : i = l.length
        · simp [hil]
        · have := hlast l.length (by omega)
          rw [referencesAt_length, hop] at this
          simp at this
      · rw [if_neg hop]
        have hil : i < l.length := by
          by_contra hc
          have : i = l.length := by omega
          rw [this, referencesAt_length] at hi
          exact hop hi
        apply ihlast i
        · rw [← referencesAt_append_left l op i v hil]; exact hi
        · intro j hj
          by_cases hjl : j < l.length
          · rw [← referencesAt_append_left l op j v hjl]; exact hlast j hj
          · unfold referencesAt
            rw [List.getElem?_eq_none (by omega)]
    · intro hnone
      have hop : (op.Writes v || op.Reads v) = false := by
        rw [← referencesAt_length l op v]; exact hnone _
      rw [hop]
      simp only [Bool.false_eq_true, if_false]
      apply ihnone
      intro i
      by_cases hil : i < l.length
      · rw [← referencesAt_append_left l op i v hil]; exact hnone i
      · unfold referencesAt
        rw [List.getElem?_eq_none (by omega)]

theorem evaluateVariable_emitter (a : X64RegisterAllocator) (v : Nat) :
    (evaluateVariable a v).emitter = a.emitter := by
  unfold evaluateVariable
  simp only
  split <;> rfl

theorem evaluateVariable_last_use (a : X64RegisterAllocator) (v w : Nat) :
    (evaluateVariable a v).var_id_to_point_of_last_use[w]? =
      if v = w ∧ expirationPoint a.emitter.code v ≠ -1
          ∧ w < a.var_id_to_point_of_last_use.length then
        some (expirationPoint a.emitter.code v)
      else a.var_id_to_point_of_last_use[w]? := by
  unfold evaluateVariable
  simp only
  by_cases hne : expirationPoint a.emitter.code v = -1
  · simp [hne]
  · have : (expirationPoint a.emitter.code v != -1) = true := by simpa using hne
    rw [if_pos this]
    simp only [List.getElem?_set]
    by_cases hvw : v = w
    · subst hvw
      by_cases hlt : v < a.var_id_to_point_of_last_use.length
      · simp [hne, hlt]
      · simp [hne, hlt]
        omega
    · simp [hvw]

theorem evaluateVariable_last_use_length (a : X64RegisterAllocator) (v : Nat) :
    (evaluateVariable a v).var_id_to_point_of_last_use.length =
      a.var_id_to_point_of_last_use.length := by
  unfold evaluateVariable
  simp only
  split <;> simp

/-- The outer loop of the pre-pass over any list of variables. -/
theorem foldl_evaluateVariable (vs : List Nat) (a : X64RegisterAllocator) (w : Nat) :
    (vs.foldl evaluateVariable a).emitter = a.emitter
    ∧ (vs.foldl evaluateVariable a).var_id_to_point_of_last_use.length =
        a.var_id_to_point_of_last_use.length
    ∧ (vs.foldl evaluateVariable a).var_id_to_point_of_last_use[w]? =
      if w ∈ vs ∧ expirationPoint a.emitter.code w ≠ -1
          ∧ w < a.var_id_to_point_of_last_use.length then
        some (expirationPoint a.emitter.code w)
      else a.var_id_to_point_of_last_use[w]? := by
  induction vs generalizing a with
  | nil => simp
  | cons v vs ih =>
    simp only [List.foldl_cons]
    obtain ⟨h1, h2, h3⟩ := ih (evaluateVariable a v)
    refine ⟨by rw [h1, evaluateVariable_emitter], by rw [h2, evaluateVariable_last_use_length], ?_⟩
    rw [h3, evaluateVariable_emitter, evaluateVariable_last_use_length,
      evaluateVariable_last_use]
    by_cases hvw : v = w
    · subst hvw
      by_cases hc : expirationPoint a.emitter.code v ≠ -1
          ∧ v < a.var_id_to_point_of_last_use.length
      · simp [hc]
      · simp only [List.mem_cons, true_or, true_and]
        simp only [if_neg hc, if_neg (fun h => hc (And.right h)), ite_self]
    · have : (w ∈ v :: vs) ↔ w ∈ vs := by
        simp [List.mem_cons]; intro h; exact absurd h.symm hvw
      simp [hvw, this]

/-- C2. For every variable of the block that some opcode reads or writes, the
pre-pass run by the constructor sets `last_use` to the largest 0-based index
of an opcode that reads or writes it. -/
theorem EvaluateVariableLifetimes_last_use (kSpillAreaSize : Nat) (emitter : IREmitter)
    (code : List X64Instr) (v i : Nat) (hv : v < emitter.vars)
    (href : referencesAt emitter.code i v = true)
    (hlast : ∀ j, i < j → referencesAt emitter.code j v = false) :
    (X64RegisterAllocator.new kSpillAreaSize emitter code).var_id_to_point_of_last_use[v]?
      = some (i : Int) := by
  unfold X64RegisterAllocator.new EvaluateVariableLifetimes
  have hexp : expirationPoint emitter.code v = i :=
    (expirationPoint_fold v emitter.code).2.1 i href hlast
  have h := (foldl_evaluateVariable (List.range emitter.vars)
    { emitter := emitter
      code := code
      free_host_regs :=
        [.edx, .ebx, .esi, .edi, .r8d, .r9d, .r10d, .r11d, .r12d, .r13d, .r14d, .r15d]
      number_of_vars := emitter.vars
      var_id_to_host_reg := List.replicate emitter.vars none
      var_id_to_point_of_last_use := List.replicate emitter.vars 0
      free_spill_bitmap := List.replicate kSpillAreaSize false
      var_id_to_spill_slot := List.replicate emitter.vars none } v).2.2
  simp only at h
  rw [h, hexp, if_pos]
  refine ⟨List.mem_range.mpr hv, ?_, by simpa using hv⟩
  omega

/-- Witness for C2: in a block of three opcodes where variable 1 is written by
opcode 0 and read by opcode 1, `last_use[1] = 1`. -/
theorem EvaluateVariableLifetimes_last_use_witness :
    (X64RegisterAllocator.new 4
      { vars := 3, code := [.Generic [] [1], .Generic [1] [2], .Generic [2] [0]] }
      []).var_id_to_point_of_last_use[1]? = some (1 : Int) :=
  EvaluateVariableLifetimes_last_use 4
    { vars := 3, code := [.Generic [] [1], .Generic [1] [2], .Generic [2] [0]] } [] 1 1
    (by decide) (by decide)
    (by
      intro j hj
      unfold referencesAt
      match j, hj with
      | 2, _ => decide
      | j + 3, _ => simp)

/-! ### `FindFreeHostReg` -/

/-- With an empty free pool `FindFreeHostReg` always ends in the `throw`. -/
theorem FindFreeHostReg_empty_pool (k : Nat) (a : X64RegisterAllocator) (location : Nat)
    (h : a.free_host_regs = []) :
    (FindFreeHostReg k a location).2 = .error AllocError.OutOfRegisters := by
  unfold FindFreeHostReg
  rw [h]
  rfl

/-- When `FindFreeHostReg` returns, it popped the back of the free pool and
changed nothing else. -/
theorem FindFreeHostReg_ok (k : Nat) (a : X64RegisterAllocator) (location : Nat)
    (reg : HostReg) (h : (FindFreeHostReg k a location).2 = .ok reg) :
    a.free_host_regs.getLast? = some reg
    ∧ (FindFreeHostReg k a location).1 =
        { a with free_host_regs := a.free_host_regs.dropLast } := by
  unfold FindFreeHostReg at h ⊢
  cases hl : a.free_host_regs.getLast? with
  | none => rw [hl] at h; simp at h
  | some r =>
    rw [hl] at h
    simp only [Except.ok.injEq] at h
    subst h
    exact ⟨rfl, rfl⟩

/-- C1. At opcode 12 of `blockC1` the free pool is empty, variable 2 holds
`r13d` and is not read by the opcode, and spill slot 0 is unused; the claim
says the call returns `r13d`, the code throws the out-of-registers error. -/
theorem FindFreeHostReg_throws_despite_free_slot :
    (runCalls 32 (X64RegisterAllocator.new 32 blockC1 []) callsC1).free_host_regs = []
    ∧ (runCalls 32 (X64RegisterAllocator.new 32 blockC1 []) callsC1).var_id_to_host_reg[2]?
        = some (some HostReg.r13d)
    ∧ readsAt blockC1.code 12 2 = false
    ∧ (runCalls 32 (X64RegisterAllocator.new 32 blockC1 []) callsC1).free_spill_bitmap[0]?
        = some false
    ∧ (FindFreeHostReg 32 (runCalls 32 (X64RegisterAllocator.new 32 blockC1 []) callsC1) 12).2
        = .error AllocError.OutOfRegisters
    ∧ (GetVariableHostReg 32 (runCalls 32 (X64RegisterAllocator.new 32 blockC1 []) callsC1)
        12 12).2 = .error AllocError.OutOfRegisters := by
  decide

/-! ### `ReleaseDeadVariables` -/

theorem releaseVariable_frame (location : Nat) (a : X64RegisterAllocator) (v : Nat) :
    (releaseVariable location a v).emitter = a.emitter
    ∧ (releaseVariable location a v).var_id_to_point_of_last_use
        = a.var_id_to_point_of_last_use
    ∧ (releaseVariable location a v).var_id_to_host_reg.length
        = a.var_id_to_host_reg.length
    ∧ (releaseVariable location a v).number_of_vars = a.number_of_vars := by
  unfold releaseVariable
  simp only
  split
  · split <;> simp
  · simp

theorem releaseVariable_host_reg (location : Nat) (a : X64RegisterAllocator) (v u : Nat) :
    (releaseVariable location a v).var_id_to_host_reg[u]? =
      if v = u ∧ (location : Int) > a.var_id_to_point_of_last_use.getD u 0
          ∧ u < a.var_id_to_host_reg.length then
        some none
      else a.var_id_to_host_reg[u]? := by
  unfold releaseVariable
  simp only
  by_cases hvu : v = u
  · subst hvu
    by_cases hdead : (location : Int) > a.var_id_to_point_of_last_use.getD v 0
    · rw [if_pos hdead]
      by_cases hlt : v < a.var_id_to_host_reg.length
      · rw [if_pos ⟨rfl, hdead, hlt⟩]
        cases hg : a.var_id_to_host_reg.getD v none with
        | none =>
          simp only
          rw [List.getD_eq_getElem?_getD, List.getElem?_eq_getElem hlt] at hg
          rw [List.getElem?_eq_getElem hlt]
          simpa using hg
        | some r =>
          simp only [List.getElem?_set]
          simp [hlt]
      · rw [if_neg (fun ⟨_, _, h⟩ => hlt h)]
        have hg : a.var_id_to_host_reg.getD v none = none := by
          rw [List.getD_eq_getElem?_getD, List.getElem?_eq_none (by omega)]
          rfl
        rw [hg]
    · rw [if_neg hdead, if_neg (fun ⟨_, h, _⟩ => hdead h)]
  · have hn : ¬ (v = u ∧ (location : Int) > a.var_id_to_point_of_last_use.getD u 0
        ∧ u < a.var_id_to_host_reg.length) := fun h => hvu h.1
    rw [if_neg hn]
    by_cases hdead : (location : Int) > a.var_id_to_point_of_last_use.getD v 0
    · rw [if_pos hdead]
      cases hg : a.var_id_to_host_reg.getD v none with
      | none => rfl
      | some r =>
        simp only [List.getElem?_set]
        simp [hvu]
    · rw [if_neg hdead]

/-- The loop of `ReleaseDeadVariables` over any list of variables: the lifetime
table and the emitter stay, and a table entry is cleared exactly for the listed
variables whose last use lies before `location`. -/
theorem foldl_releaseVariable (location : Nat) (vs : List Nat) (a : X64RegisterAllocator)
    (u : Nat) :
    (vs.foldl (releaseVariable location) a).emitter = a.emitter
    ∧ (vs.foldl (releaseVariable location) a).var_id_to_point_of_last_use
        = a.var_id_to_point_of_last_use
    ∧ (vs.foldl (releaseVariable location) a).var_id_to_host_reg.length
        = a.var_id_to_host_reg.length
    ∧ (vs.foldl (releaseVariable location) a).number_of_vars = a.number_of_vars
    ∧ (vs.foldl (releaseVariable location) a).var_id_to_host_reg[u]? =
      if u ∈ vs ∧ (location : Int) > a.var_id_to_point_of_last_use.getD u 0
          ∧ u < a.var_id_to_host_reg.length then
        some none
      else a.var_id_to_host_reg[u]? := by
  induction vs generalizing a with
  | nil => simp
  | cons v vs ih =>
    simp only [List.foldl_cons]
    obtain ⟨h1, h2, h3, h4, h5⟩ := ih (releaseVariable location a v)
    obtain ⟨f1, f2, f3, f4⟩ := releaseVariable_frame location a v
    refine ⟨h1.trans f1, h2.trans f2, h3.trans f3, h4.trans f4, ?_⟩
    rw [h5, f2, f3, releaseVariable_host_reg]
    by_cases hc : (location : Int) > a.var_id_to_point_of_last_use.getD u 0
        ∧ u < a.var_id_to_host_reg.length
    · by_cases hin : u ∈ vs
      · rw [if_pos ⟨hin, hc⟩, if_pos ⟨List.mem_cons_of_mem _ hin, hc⟩]
      · rw [if_neg (fun h => hin h.1)]
        by_cases hvu : v = u
        · subst hvu
          rw [if_pos ⟨rfl, hc⟩, if_pos ⟨List.mem_cons_self _ _, hc⟩]
        · rw [if_neg (fun h => hvu h.1), if_neg]
          rintro ⟨hm, _⟩
          rcases List.mem_cons.mp hm with h | h
          · exact hvu h.symm
          · exact hin h
    · simp only [if_neg (fun h => hc (And.right h)), ite_self]

/-- After `ReleaseDeadVariables(location)` no variable of the block whose last
use lies before `location` holds a host register. -/
theorem ReleaseDeadVariables_live (a : X64RegisterAllocator) (location : Nat) (u : Nat)
    (r : HostReg) (hu : u < a.emitter.vars)
    (h : (ReleaseDeadVariables a location).var_id_to_host_reg[u]? = some (some r)) :
    (location : Int) ≤ a.var_id_to_point_of_last_use.getD u 0 := by
  unfold ReleaseDeadVariables at h
  rw [(foldl_releaseVariable location (List.range a.emitter.vars) a u).2.2.2.2] at h
  by_contra hc
  have hdead : (location : Int) > a.var_id_to_point_of_last_use.getD u 0 := by omega
  by_cases hlt : u < a.var_id_to_host_reg.length
  · rw [if_pos ⟨List.mem_range.mpr hu, hdead, hlt⟩] at h
    simp at h
  · rw [if_neg (fun ⟨_, _, hh⟩ => hlt hh), List.getElem?_eq_none (by omega)] at h
    simp at h

/-! ### Frame of the allocator operations -/

theorem findVictim_frame (location : Nat) (a : X64RegisterAllocator) (reg : HostReg)
    (var_id remaining i : Nat) :
    (findVictim location a reg var_id remaining i).1.emitter = a.emitter
    ∧ (findVictim location a reg var_id remaining i).1.var_id_to_point_of_last_use
        = a.var_id_to_point_of_last_use
    ∧ (findVictim location a reg var_id remaining i).1.var_id_to_host_reg.length
        = a.var_id_to_host_reg.length := by
  induction remaining generalizing i with
  | zero => simp [findVictim]
  | succ n ih =>
    unfold findVictim
    split
    · exact ih (i + 1)
    · split
      · simp
      · exact ih (i + 1)

theorem spillToFreeSlot_frame (a : X64RegisterAllocator) (reg : HostReg)
    (var_id remaining i : Nat) :
    (spillToFreeSlot a reg var_id remaining i).emitter = a.emitter
    ∧ (spillToFreeSlot a reg var_id remaining i).var_id_to_point_of_last_use
        = a.var_id_to_point_of_last_use
    ∧ (spillToFreeSlot a reg var_id remaining i).var_id_to_host_reg
        = a.var_id_to_host_reg := by
  induction remaining generalizing i with
  | zero => simp [spillToFreeSlot]
  | succ n ih =>
    unfold spillToFreeSlot
    split
    · simp
    · exact ih (i + 1)

theorem FindFreeHostReg_frame (k : Nat) (a : X64RegisterAllocator) (location : Nat) :
    (FindFreeHostReg k a location).1.emitter = a.emitter
    ∧ (FindFreeHostReg k a location).1.var_id_to_point_of_last_use
        = a.var_id_to_point_of_last_use
    ∧ (FindFreeHostReg k a location).1.var_id_to_host_reg.length
        = a.var_id_to_host_reg.length := by
  unfold FindFreeHostReg
  cases a.free_host_regs.getLast? with
  | some r => simp
  | none =>
    simp only
    obtain ⟨s1, s2, s3⟩ := spillToFreeSlot_frame
      (findVictim location a HostReg.eax 0 a.number_of_vars 0).1
      (findVictim location a HostReg.eax 0 a.number_of_vars 0).2.1
      (findVictim location a HostReg.eax 0 a.number_of_vars 0).2.2 k 0
    obtain ⟨v1, v2, v3⟩ := findVictim_frame location a HostReg.eax 0 a.number_of_vars 0
    exact ⟨s1.trans v1, s2.trans v2, (congrArg List.length s3).trans v3⟩

theorem restoreSpilled_frame (a : X64RegisterAllocator) (var : Nat) (reg : HostReg) :
    (restoreSpilled a var reg).emitter = a.emitter
    ∧ (restoreSpilled a var reg).var_id_to_point_of_last_use = a.var_id_to_point_of_last_use
    ∧ (restoreSpilled a var reg).var_id_to_host_reg = a.var_id_to_host_reg := by
  unfold restoreSpilled
  split <;> simp

theorem ReleaseDeadVariables_frame (a : X64RegisterAllocator) (location : Nat) :
    (ReleaseDeadVariables a location).emitter = a.emitter
    ∧ (ReleaseDeadVariables a location).var_id_to_point_of_last_use
        = a.var_id_to_point_of_last_use
    ∧ (ReleaseDeadVariables a location).var_id_to_host_reg.length
        = a.var_id_to_host_reg.length := by
  unfold ReleaseDeadVariables
  obtain ⟨h1, h2, h3, _, _⟩ :=
    foldl_releaseVariable location (List.range a.emitter.vars) a 0
  exact ⟨h1, h2, h3⟩

/-- `GetVariableHostReg` never touches the emitter or the lifetime table and
keeps the size of the register table, whether it returns or throws. -/
theorem GetVariableHostReg_frame (k : Nat) (a : X64RegisterAllocator) (var location : Nat) :
    (GetVariableHostReg k a var location).1.emitter = a.emitter
    ∧ (GetVariableHostReg k a var location).1.var_id_to_point_of_last_use
        = a.var_id_to_point_of_last_use
    ∧ (GetVariableHostReg k a var location).1.var_id_to_host_reg.length
        = a.var_id_to_host_reg.length := by
  unfold GetVariableHostReg
  cases a.var_id_to_host_reg.getD var none with
  | some r => simp
  | none =>
    simp only
    obtain ⟨r1, r2, r3⟩ := ReleaseDeadVariables_frame a location
    obtain ⟨f1, f2, f3⟩ := FindFreeHostReg_frame k (ReleaseDeadVariables a location) location
    rcases hf : FindFreeHostReg k (ReleaseDeadVariables a location) location with ⟨a2, res⟩
    rw [hf] at f1 f2 f3
    simp only at f1 f2 f3
    cases res with
    | error e => exact ⟨f1.trans r1, f2.trans r2, f3.trans r3⟩
    | ok reg =>
      simp only
      obtain ⟨s1, s2, s3⟩ := restoreSpilled_frame a2 var reg
      refine ⟨s1.trans (f1.trans r1), s2.trans (f2.trans r2), ?_⟩
      rw [List.length_set, s3]
      exact f3.trans r3

theorem runCalls_frame (k : Nat) (calls : List (Nat × Nat)) (a : X64RegisterAllocator) :
    (runCalls k a calls).emitter = a.emitter
    ∧ (runCalls k a calls).var_id_to_point_of_last_use = a.var_id_to_point_of_last_use
    ∧ (runCalls k a calls).var_id_to_host_reg.length = a.var_id_to_host_reg.length := by
  induction calls generalizing a with
  | nil => simp [runCalls]
  | cons c rest ih =>
    obtain ⟨var, location⟩ := c
    unfold runCalls
    obtain ⟨h1, h2, h3⟩ := ih (GetVariableHostReg k a var location).1
    obtain ⟨g1, g2, g3⟩ := GetVariableHostReg_frame k a var location
    exact ⟨h1.trans g1, h2.trans g2, h3.trans g3⟩

theorem evaluateVariable_host_reg (a : X64RegisterAllocator) (v : Nat) :
    (evaluateVariable a v).var_id_to_host_reg = a.var_id_to_host_reg := by
  unfold evaluateVariable
  simp only
  split <;> rfl

theorem foldl_evaluateVariable_host_reg (vs : List Nat) (a : X64RegisterAllocator) :
    (vs.foldl evaluateVariable a).var_id_to_host_reg = a.var_id_to_host_reg := by
  induction vs generalizing a with
  | nil => rfl
  | cons v vs ih =>
    simp only [List.foldl_cons]
    rw [ih, evaluateVariable_host_reg]

/-- The freshly constructed allocator: its emitter, the sizes of its tables. -/
theorem new_shape (k : Nat) (emitter : IREmitter) (code : List X64Instr) :
    (X64RegisterAllocator.new k emitter code).emitter = emitter
    ∧ (X64RegisterAllocator.new k emitter code).var_id_to_host_reg.length = emitter.vars
    ∧ (X64RegisterAllocator.new k emitter code).var_id_to_point_of_last_use.length
        = emitter.vars := by
  unfold X64RegisterAllocator.new EvaluateVariableLifetimes
  refine ⟨(foldl_evaluateVariable _ _ 0).1, ?_, ?_⟩
  · rw [foldl_evaluateVariable_host_reg]
    simp
  · rw [(foldl_evaluateVariable _ _ 0).2.1]
    simp

/-- The inner loop of the pre-pass ends at or after every referencing index. -/
theorem expirationPoint_ge (v : Nat) (code : List IROpcode) (i : Nat)
    (h : referencesAt code i v = true) : (i : Int) ≤ expirationPoint code v := by
  unfold expirationPoint
  induction code using List.reverseRecOn with
  | nil =>
    have := referencesAt_lt [] i v h
    simp at this
  | append_singleton l op ih =>
    have hlen := (expirationPoint_fold v l).1
    have hlt := referencesAt_lt _ i v h
    simp only [List.length_append, List.length_singleton] at hlt
    rw [List.foldl_append]
    simp only [List.foldl_cons, List.foldl_nil]
    by_cases hop : (op.Writes v || op.Reads v) = true
    · rw [if_pos hop, hlen]
      omega
    · rw [if_neg hop]
      have hil : i < l.length := by
        by_contra hc
        have : i = l.length := by omega
        rw [this, referencesAt_length] at h
        exact hop h
      apply ih
      rw [← referencesAt_append_left l op i v hil]
      exact h

/-- In the freshly constructed allocator the last use of a variable of the
block is at or after every opcode that reads or writes it. -/
theorem new_last_use_ge (k : Nat) (emitter : IREmitter) (code : List X64Instr) (v i : Nat)
    (hv : v < emitter.vars) (h : referencesAt emitter.code i v = true) :
    ∃ lu, (X64RegisterAllocator.new k emitter code).var_id_to_point_of_last_use[v]? = some lu
      ∧ (i : Int) ≤ lu := by
  have hge := expirationPoint_ge v emitter.code i h
  refine ⟨expirationPoint emitter.code v, ?_, hge⟩
  unfold X64RegisterAllocator.new EvaluateVariableLifetimes
  rw [(foldl_evaluateVariable _ _ v).2.2]
  simp only
  rw [if_pos]
  refine ⟨List.mem_range.mpr hv, ?_, by simpa using hv⟩
  omega

/-- C3, as the code has it. After a call `GetVariableHostReg(v, i)` that found
`v` without a host register and returned, every variable `u` other than `v`
that holds a host register satisfies `i ≤ last_use[u]`, and so does `v` itself
when opcode `i` reads or writes `v`.  The calls made before are arbitrary. -/
theorem GetVariableHostReg_liveness (k : Nat) (emitter : IREmitter) (code : List X64Instr)
    (calls : List (Nat × Nat)) (v i : Nat) (reg : HostReg)
    (hfree : (runCalls k (X64RegisterAllocator.new k emitter code) calls).var_id_to_host_reg.getD
      v none = none)
    (hret : (GetVariableHostReg k (runCalls k (X64RegisterAllocator.new k emitter code) calls)
      v i).2 = .ok reg)
    (u : Nat) (r : HostReg)
    (hu : (GetVariableHostReg k (runCalls k (X64RegisterAllocator.new k emitter code) calls)
      v i).1.var_id_to_host_reg[u]? = some (some r))
    (hlive : u ≠ v ∨ referencesAt emitter.code i v = true) :
    ∃ lu, (GetVariableHostReg k (runCalls k (X64RegisterAllocator.new k emitter code) calls)
        v i).1.var_id_to_point_of_last_use[u]? = some lu ∧ (i : Int) ≤ lu := by
  obtain ⟨n1, n2, n3⟩ := new_shape k emitter code
  obtain ⟨c1, c2, c3⟩ := runCalls_frame k calls (X64RegisterAllocator.new k emitter code)
  obtain ⟨g1, g2, g3⟩ := GetVariableHostReg_frame k
    (runCalls k (X64RegisterAllocator.new k emitter code) calls) v i
  have hult : u < emitter.vars := by
    have := (List.getElem?_eq_some_iff.mp hu).1
    omega
  rw [g2, c2]
  by_cases huv : u = v
  · subst huv
    rcases hlive with h | h
    · exact absurd rfl h
    · exact new_last_use_ge k emitter code u i hult h
  · generalize runCalls k (X64RegisterAllocator.new k emitter code) calls = a at *
    have hlu : u < (X64RegisterAllocator.new k emitter code).var_id_to_point_of_last_use.length := by
      omega
    refine ⟨_, List.getElem?_eq_getElem hlu, ?_⟩
    unfold GetVariableHostReg at hu hret
    rw [hfree] at hu hret
    simp only at hu hret
    rcases hf : FindFreeHostReg k (ReleaseDeadVariables a i) i with ⟨a2, res⟩
    rw [hf] at hu hret
    cases res with
    | error e => simp at hret
    | ok reg2 =>
      simp only at hu
      have hok := FindFreeHostReg_ok k (ReleaseDeadVariables a i) i reg2 (by rw [hf])
      rw [hf] at hok
      simp only at hok
      rw [List.getElem?_set_ne (fun h => huv h.symm), (restoreSpilled_frame a2 v reg2).2.2,
        hok.2] at hu
      simp only at hu
      have := ReleaseDeadVariables_live a i u r (by rw [c1, n1]; exact hult) hu
      rw [c2, List.getD_eq_getElem?_getD, List.getElem?_eq_getElem hlu] at this
      simpa using this

/-- Witness for C3: in `blockC3`, after variable 0 was placed at opcodes 0 and
1, the call for variable 1 at opcode 1 allocates `r14d`; variable 0 still holds
`r15d` and its last use is not before opcode 1. -/
theorem GetVariableHostReg_liveness_witness :
    ∃ lu, (GetVariableHostReg 32
        (runCalls 32 (X64RegisterAllocator.new 32 blockC3 []) [(0, 0), (0, 1)])
        1 1).1.var_id_to_point_of_last_use[0]? = some lu ∧ ((1 : Nat) : Int) ≤ lu :=
  GetVariableHostReg_liveness 32 blockC3 [] [(0, 0), (0, 1)] 1 1 HostReg.r14d
    (by decide) (by decide) 0 HostReg.r15d (by decide) (Or.inl (by decide))

/-- C3 as stated fails. In `blockC3` the calls at opcode indices 0, 1, 1, 2 all
return; the last one, for variable 1 at opcode 2, finds the variable in `r14d`
and returns at once, so variable 0 keeps `r15d` although its last use is
opcode 1. -/
theorem GetVariableHostReg_early_return_keeps_dead :
    (GetVariableHostReg 32
        (runCalls 32 (X64RegisterAllocator.new 32 blockC3 []) [(0, 0), (0, 1), (1, 1)])
        1 2).2 = .ok HostReg.r14d
    ∧ ¬ (∀ (u : Nat) (r : HostReg), (GetVariableHostReg 32
          (runCalls 32 (X64RegisterAllocator.new 32 blockC3 []) [(0, 0), (0, 1), (1, 1)])
          1 2).1.var_id_to_host_reg[u]? = some (some r) →
        ∃ lu, (GetVariableHostReg 32
          (runCalls 32 (X64RegisterAllocator.new 32 blockC3 []) [(0, 0), (0, 1), (1, 1)])
          1 2).1.var_id_to_point_of_last_use[u]? = some lu ∧ ((2 : Nat) : Int) ≤ lu) := by
  refine ⟨by decide, fun h => ?_⟩
  obtain ⟨lu, h1, h2⟩ := h 0 HostReg.r15d (by decide)
  have h3 : (GetVariableHostReg 32
      (runCalls 32 (X64RegisterAllocator.new 32 blockC3 []) [(0, 0), (0, 1), (1, 1)])
      1 2).1.var_id_to_point_of_last_use[0]? = some 1 := by decide
  rw [h3] at h1
  simp only [Option.some.injEq] at h1
  omega

/-- C4. In `blockC1`, after the calls for opcodes 0 to 12, eleven further calls
for variable 12 at opcode 12 each throw; the first ten spill variables 2 to 11,
the eleventh finds no variable to spill (variables 0 and 1 are read by the
opcode) and still records spill slot 10 for variable 0, which holds `r15d`. -/
theorem spill_record_for_register_holder :
    (runCalls 32 (X64RegisterAllocator.new 32 blockC1 [])
        (callsC1 ++ List.replicate 11 (12, 12))).var_id_to_host_reg[0]?
      = some (some HostReg.r15d)
    ∧ (runCalls 32 (X64RegisterAllocator.new 32 blockC1 [])
        (callsC1 ++ List.replicate 11 (12, 12))).var_id_to_spill_slot[0]?
      = some (some 10) := by
  decide

/-! ## Theorems: translator -/

theorem armLoop_eq_blockLoop (env : Environment) (n i : Nat) (s : LoopState) :
    armLoop env n i s = blockLoop (armIteration env) 4 n i s := by
  induction n generalizing i s with
  | zero => rfl
  | succ n ih =>
    unfold armLoop blockLoop
    cases armIteration env i s with
    | error e => rfl
    | ok s1 =>
      simp only
      rw [ih]

theorem thumbLoop_eq_blockLoop (env : Environment) (n i : Nat) (s : LoopState) :
    thumbLoop env n i s = blockLoop (thumbIteration env) 2 n i s := by
  induction n generalizing i s with
  | zero => rfl
  | succ n ih =>
    unfold thumbLoop blockLoop
    cases thumbIteration env i s with
    | error e => rfl
    | ok s1 =>
      simp only
      rw [ih]

theorem armTrack_frame (i : Nat) (s : LoopState) (c : Condition) :
    (armTrack i s c).translator = s.translator
    ∧ (armTrack i s c).basic_block.length = s.basic_block.length
    ∧ (armTrack i s c).basic_block.key = s.basic_block.key
    ∧ (armTrack i s c).basic_block.branch_target = s.basic_block.branch_target := by
  unfold armTrack
  split
  · simp
  · split <;> simp [break_micro_block, add_micro_block]

theorem thumbTrack_frame (i : Nat) (s : LoopState) (instruction : Nat) :
    (thumbTrack i s instruction).translator = s.translator
    ∧ (thumbTrack i s instruction).basic_block.length = s.basic_block.length
    ∧ (thumbTrack i s instruction).basic_block.key = s.basic_block.key
    ∧ (thumbTrack i s instruction).basic_block.branch_target
        = s.basic_block.branch_target := by
  unfold thumbTrack
  split
  · simp only
    split <;> simp [break_micro_block, add_micro_block]
  · simp

theorem armIteration_spec (env : Environment) :
    IterationSpec (armIteration env) (armLift env) := by
  intro i s
  obtain ⟨f1, f2, f3, f4⟩ := armTrack_frame i s
    (armCondition s.translator.armv5te (armFetch env s.translator.code_address))
  constructor
  · intro h
    unfold armIteration
    simp only [applyLifted]
    rw [f1]
    unfold armLift at h
    rw [h]
    exact ⟨_, rfl⟩
  · intro h
    unfold armIteration
    simp only [applyLifted]
    rw [f1]
    unfold armLift at h ⊢
    have hb : ((env.decode_arm (armFetch env s.translator.code_address) s.translator).status
        == Status.Unimplemented) = false := by
      simpa using h
    rw [hb]
    simp only [Bool.false_eq_true, if_false]
    refine ⟨_, rfl, ?_⟩
    split <;> simp [countInstruction, break_micro_block, add_micro_block, f1, f2, f3, f4]

theorem thumbIteration_spec (env : Environment) :
    IterationSpec (thumbIteration env) (thumbLift env) := by
  intro i s
  obtain ⟨f1, f2, f3, f4⟩ := thumbTrack_frame i s (thumbFetch env s.translator.code_address)
  constructor
  · intro h
    unfold thumbIteration
    simp only [applyLifted]
    rw [f1]
    unfold thumbLift at h
    rw [h]
    exact ⟨_, rfl⟩
  · intro h
    unfold thumbIteration
    simp only [applyLifted]
    rw [f1]
    unfold thumbLift at h ⊢
    have hb : ((env.decode_thumb (thumbFetch env s.translator.code_address)
        s.translator).status == Status.Unimplemented) = false := by
      simpa using h
    rw [hb]
    simp only [Bool.false_eq_true, if_false]
    refine ⟨_, rfl, ?_⟩
    simp [countInstruction, f1, f2, f3, f4]

/-! ### The loop of `TranslateARM` and `TranslateThumb` -/

theorem Translator.at_zero (t : Translator) (size : Nat) (h : t.code_address < 2 ^ 32) :
    t.at size 0 = t := by
  cases t
  simp only [Translator.at, Nat.mul_zero, Nat.add_zero] at h ⊢
  rw [Nat.mod_eq_of_lt h]

theorem advance_translator_at (s : LoopState) (size j : Nat) :
    (advance s size).translator.at size j = s.translator.at size (j + 1) := by
  unfold advance Translator.at
  simp only [Nat.mod_add_mod]
  congr 2
  ring

theorem advance_code_address_lt (s : LoopState) (size : Nat) :
    (advance s size).translator.code_address < 2 ^ 32 := by
  unfold advance
  exact Nat.mod_lt _ (by norm_num)

theorem advance_basic_block (s : LoopState) (size : Nat) :
    (advance s size).basic_block = s.basic_block ∧ (advance s size).status = s.status
    ∧ (advance s size).micro_block = s.micro_block := ⟨rfl, rfl, rfl⟩

/-- The loop throws exactly when some instruction is `Unimplemented` and no
earlier one broke the basic block. -/
theorem blockLoop_error_iff {iteration : Nat → LoopState → Except TranslateError LoopState}
    {lift : Translator → Lifted} (hspec : IterationSpec iteration lift) (size n i : Nat)
    (s : LoopState) (hc : s.translator.code_address < 2 ^ 32) :
    (∃ e, blockLoop iteration size n i s = .error e) ↔
      ∃ k, k < n ∧ (lift (s.translator.at size k)).status = Status.Unimplemented
        ∧ ∀ j, j < k → (lift (s.translator.at size j)).status ≠ Status.BreakBasicBlock := by
  induction n generalizing i s with
  | zero =>
    unfold blockLoop
    constructor
    · rintro ⟨e, he⟩
      cases he
    · rintro ⟨k, hk, _⟩
      omega
  | succ n ih =>
    unfold blockLoop
    have h0 := Translator.at_zero s.translator size hc
    by_cases hun : (lift s.translator).status = Status.Unimplemented
    · obtain ⟨e, he⟩ := (hspec i s).1 hun
      rw [he]
      constructor
      · intro _
        exact ⟨0, by omega, by rw [h0]; exact hun, fun j hj => by omega⟩
      · intro _
        exact ⟨e, rfl⟩
    · obtain ⟨s1, he, hst, htr, _⟩ := (hspec i s).2 hun
      rw [he]
      simp only
      by_cases hbb : s1.status = Status.BreakBasicBlock
      · rw [if_pos (by simpa using hbb)]
        constructor
        · rintro ⟨e, he⟩
          cases he
        · rintro ⟨k, _, hk1, hk2⟩
          exfalso
          rcases Nat.eq_zero_or_pos k with hk | hk
          · subst hk
            rw [h0] at hk1
            exact hun hk1
          · have := hk2 0 hk
            rw [h0, ← hst] at this
            exact this hbb
      · rw [if_neg (by simpa using hbb)]
        rw [ih (i + 1) (advance s1 size) (advance_code_address_lt s1 size)]
        simp only [advance_translator_at, htr]
        constructor
        · rintro ⟨k, hk, hk1, hk2⟩
          refine ⟨k + 1, by omega, hk1, ?_⟩
          intro j hj
          rcases Nat.eq_zero_or_pos j with hj0 | hj0
          · subst hj0
            rw [h0, ← hst]
            exact hbb
          · have := hk2 (j - 1) (by omega)
            rwa [Nat.sub_add_cancel hj0] at this
        · rintro ⟨k, hk, hk1, hk2⟩
          rcases Nat.eq_zero_or_pos k with hk0 | hk0
          · subst hk0
            rw [h0] at hk1
            exact absurd hk1 hun
          · refine ⟨k - 1, by omega, ?_, ?_⟩
            · rwa [Nat.sub_add_cancel hk0]
            · intro j hj
              exact hk2 (j + 1) (by omega)

/-- A loop that returns has decoded `m` instructions, none `Unimplemented`; it
either used up its `n` iterations without a `BreakBasicBlock`, the code address
`m` instructions further on, or stopped at the first `BreakBasicBlock`, the
code address still at that instruction. -/
theorem blockLoop_ok {iteration : Nat → LoopState → Except TranslateError LoopState}
    {lift : Translator → Lifted} (hspec : IterationSpec iteration lift) (size n i : Nat)
    (s s' : LoopState) (hc : s.translator.code_address < 2 ^ 32)
    (h : blockLoop iteration size n i s = .ok s') :
    ∃ m, m ≤ n
      ∧ s'.basic_block.length = s.basic_block.length + m
      ∧ s'.basic_block.key = s.basic_block.key
      ∧ (∀ j, j < m → (lift (s.translator.at size j)).status ≠ Status.Unimplemented)
      ∧ ((m = n ∧ (∀ j, j < m →
              (lift (s.translator.at size j)).status ≠ Status.BreakBasicBlock)
            ∧ s'.translator = s.translator.at size m)
          ∨ (0 < m ∧ (lift (s.translator.at size (m - 1))).status = Status.BreakBasicBlock
            ∧ (∀ j, j < m - 1 →
              (lift (s.translator.at size j)).status ≠ Status.BreakBasicBlock)
            ∧ s'.translator = s.translator.at size (m - 1)))
      ∧ (0 < m → s'.status = (lift (s.translator.at size (m - 1))).status)
      ∧ (m = 0 → s'.status = s.status) := by
  induction n generalizing i s with
  | zero =>
    unfold blockLoop at h
    cases h
    refine ⟨0, le_refl _, rfl, rfl, fun j hj => by omega, Or.inl ⟨rfl, fun j hj => by omega, ?_⟩,
      fun h => by omega, fun _ => rfl⟩
    exact (Translator.at_zero _ size hc).symm
  | succ n ih =>
    unfold blockLoop at h
    have h0 := Translator.at_zero s.translator size hc
    by_cases hun : (lift s.translator).status = Status.Unimplemented
    · obtain ⟨e, he⟩ := (hspec i s).1 hun
      rw [he] at h
      cases h
    · obtain ⟨s1, he, hst, htr, hlen, hkey, _⟩ := (hspec i s).2 hun
      rw [he] at h
      simp only at h
      by_cases hbb : s1.status = Status.BreakBasicBlock
      · rw [if_pos (by simpa using hbb)] at h
        cases h
        refine ⟨1, by omega, hlen, hkey, ?_, Or.inr ⟨by omega, ?_, fun j hj => by omega, ?_⟩,
          fun _ => ?_, fun h => by omega⟩
        · intro j hj
          have : j = 0 := by omega
          subst this
          rw [h0]
          exact hun
        · simp only [Nat.sub_self]
          rw [h0, ← hst]
          exact hbb
        · simp only [Nat.sub_self]
          rw [h0]
          exact htr
        · simp only [Nat.sub_self]
          rw [h0]
          exact hst
      · rw [if_neg (by simpa using hbb)] at h
        obtain ⟨m, hm, ilen, ikey, iun, icase, ist, ist0⟩ :=
          ih (i + 1) (advance s1 size) (advance_code_address_lt s1 size) h
        simp only [advance_translator_at, htr] at iun icase ist
        have hnb0 : (lift (s.translator.at size 0)).status ≠ Status.BreakBasicBlock := by
          rw [h0, ← hst]
          exact hbb
        refine ⟨m + 1, by omega, ?_, ?_, ?_, ?_, fun _ => ?_, fun h => by omega⟩
        · rw [ilen, (advance_basic_block s1 size).1, hlen]
          omega
        · rw [ikey, (advance_basic_block s1 size).1, hkey]
        · intro j hj
          rcases Nat.eq_zero_or_pos j with hj0 | hj0
          · subst hj0
            rw [h0]
            exact hun
          · have := iun (j - 1) (by omega)
            rwa [Nat.sub_add_cancel hj0] at this
        · rcases icase with ⟨hmn, hnb, htr'⟩ | ⟨hm0, hlast, hnb, htr'⟩
          · left
            refine ⟨by omega, ?_, htr'⟩
            intro j hj
            rcases Nat.eq_zero_or_pos j with hj0 | hj0
            · subst hj0
              exact hnb0
            · have := hnb (j - 1) (by omega)
              rwa [Nat.sub_add_cancel hj0] at this
          · right
            refine ⟨by omega, ?_, ?_, ?_⟩
            · rw [Nat.add_sub_cancel]
              rwa [Nat.sub_add_cancel hm0] at hlast
            · intro j hj
              rcases Nat.eq_zero_or_pos j with hj0 | hj0
              · subst hj0
                exact hnb0
              · have := hnb (j - 1) (by omega)
                rwa [Nat.sub_add_cancel hj0] at this
            · rw [Nat.add_sub_cancel]
              rwa [Nat.sub_add_cancel hm0] at htr'
        · rw [Nat.add_sub_cancel]
          rcases Nat.eq_zero_or_pos m with hm0 | hm0
          · subst hm0
            rw [ist0 rfl, (advance_basic_block s1 size).2.1, hst, h0]
          · have := ist hm0
            rwa [Nat.sub_add_cancel hm0] at this

/-- Once an instruction breaks the basic block, a larger ceiling changes
nothing: the loop with `n` iterations is the loop with `k + 1` iterations. -/
theorem blockLoop_break_eq {iteration : Nat → LoopState → Except TranslateError LoopState}
    {lift : Translator → Lifted} (hspec : IterationSpec iteration lift) (size k : Nat) :
    ∀ (n i : Nat) (s : LoopState), s.translator.code_address < 2 ^ 32 → k < n →
      (lift (s.translator.at size k)).status = Status.BreakBasicBlock →
      (∀ j, j < k → (lift (s.translator.at size j)).status ≠ Status.BreakBasicBlock) →
      blockLoop iteration size n i s = blockLoop iteration size (k + 1) i s := by
  induction k with
  | zero =>
    intro n i s hc hn hk _
    obtain ⟨n, rfl⟩ : ∃ n', n = n' + 1 := ⟨n - 1, by omega⟩
    have h0 := Translator.at_zero s.translator size hc
    rw [h0] at hk
    unfold blockLoop
    by_cases hun : (lift s.translator).status = Status.Unimplemented
    · obtain ⟨e, he⟩ := (hspec i s).1 hun
      rw [he]
    · obtain ⟨s1, he, hst, _⟩ := (hspec i s).2 hun
      rw [he]
      simp only
      rw [if_pos (by rw [hst, hk]; rfl), if_pos (by rw [hst, hk]; rfl)]
  | succ k ih =>
    intro n i s hc hn hk hnb
    obtain ⟨n, rfl⟩ : ∃ n', n = n' + 1 := ⟨n - 1, by omega⟩
    have h0 := Translator.at_zero s.translator size hc
    rw [blockLoop, blockLoop]
    by_cases hun : (lift s.translator).status = Status.Unimplemented
    · obtain ⟨e, he⟩ := (hspec i s).1 hun
      rw [he]
    · obtain ⟨s1, he, hst, htr, _⟩ := (hspec i s).2 hun
      rw [he]
      simp only
      have hbb : s1.status ≠ Status.BreakBasicBlock := by
        have := hnb 0 (by omega)
        rwa [h0, ← hst] at this
      rw [if_neg (by simpa using hbb), if_neg (by simpa using hbb)]
      apply ih n (i + 1) (advance s1 size) (advance_code_address_lt s1 size) (by omega)
      · rw [advance_translator_at, htr]
        exact hk
      · intro j hj
        rw [advance_translator_at, htr]
        exact hnb (j + 1) (by omega)

/-! ### `TranslateARM`, `TranslateThumb` and `Translate` -/

theorem TranslateARM_ok_iff (env : Environment) (t : Translator) (bb : BasicBlock)
    (st : Status) (t2 : Translator) (bb2 : BasicBlock) :
    TranslateARM env t bb = .ok (st, t2, bb2) ↔
      ∃ s', blockLoop (armIteration env) 4 t.max_block_size.toNat 0
          (loopStart t bb env.default_condition) = .ok s'
        ∧ st = s'.status ∧ t2 = s'.translator ∧ bb2 = (add_micro_block s').basic_block := by
  unfold TranslateARM
  rw [armLoop_eq_blockLoop]
  cases blockLoop (armIteration env) 4 t.max_block_size.toNat 0
      (loopStart t bb env.default_condition) with
  | error e => simp
  | ok s =>
    simp only [Except.ok.injEq, Prod.mk.injEq]
    constructor
    · rintro ⟨h1, h2, h3⟩
      exact ⟨s, rfl, h1.symm, h2.symm, h3.symm⟩
    · rintro ⟨s', h, h1, h2, h3⟩
      subst h
      exact ⟨h1.symm, h2.symm, h3.symm⟩

theorem TranslateThumb_ok_iff (env : Environment) (t : Translator) (bb : BasicBlock)
    (st : Status) (t2 : Translator) (bb2 : BasicBlock) :
    TranslateThumb env t bb = .ok (st, t2, bb2) ↔
      ∃ s', blockLoop (thumbIteration env) 2 t.max_block_size.toNat 0
          (loopStart t bb Condition.AL) = .ok s'
        ∧ st = s'.status ∧ t2 = s'.translator ∧ bb2 = (add_micro_block s').basic_block := by
  unfold TranslateThumb
  rw [thumbLoop_eq_blockLoop]
  cases blockLoop (thumbIteration env) 2 t.max_block_size.toNat 0
      (loopStart t bb Condition.AL) with
  | error e => simp
  | ok s =>
    simp only [Except.ok.injEq, Prod.mk.injEq]
    constructor
    · rintro ⟨h1, h2, h3⟩
      exact ⟨s, rfl, h1.symm, h2.symm, h3.symm⟩
    · rintro ⟨s', h, h1, h2, h3⟩
      subst h
      exact ⟨h1.symm, h2.symm, h3.symm⟩

theorem TranslateARM_error_iff (env : Environment) (t : Translator) (bb : BasicBlock) :
    (∃ e, TranslateARM env t bb = .error e) ↔
      ∃ e, blockLoop (armIteration env) 4 t.max_block_size.toNat 0
          (loopStart t bb env.default_condition) = .error e := by
  unfold TranslateARM
  rw [armLoop_eq_blockLoop]
  cases blockLoop (armIteration env) 4 t.max_block_size.toNat 0
      (loopStart t bb env.default_condition) with
  | error e => simp
  | ok s => simp

theorem TranslateThumb_error_iff (env : Environment) (t : Translator) (bb : BasicBlock) :
    (∃ e, TranslateThumb env t bb = .error e) ↔
      ∃ e, blockLoop (thumbIteration env) 2 t.max_block_size.toNat 0
          (loopStart t bb Condition.AL) = .error e := by
  unfold TranslateThumb
  rw [thumbLoop_eq_blockLoop]
  cases blockLoop (thumbIteration env) 2 t.max_block_size.toNat 0
      (loopStart t bb Condition.AL) with
  | error e => simp
  | ok s => simp

/-- What a returning `translateByMode` leaves behind, in terms of the number
`m` of decoded instructions. -/
theorem translateByMode_ok (env : Environment) (t : Translator) (bb : BasicBlock)
    (st : Status) (t2 : Translator) (bb2 : BasicBlock) (hc : t.code_address < 2 ^ 32)
    (h : translateByMode env t bb = .ok (st, t2, bb2)) :
    ∃ m, m ≤ t.max_block_size.toNat
      ∧ bb2.length = bb.length + m
      ∧ bb2.key = bb.key
      ∧ (∀ j, j < m → (liftedAt env t j).status ≠ Status.Unimplemented)
      ∧ ((m = t.max_block_size.toNat
            ∧ (∀ j, j < m → (liftedAt env t j).status ≠ Status.BreakBasicBlock)
            ∧ t2 = t.at (if t.thumb_mode then 2 else 4) m)
          ∨ (0 < m ∧ (liftedAt env t (m - 1)).status = Status.BreakBasicBlock
            ∧ (∀ j, j < m - 1 → (liftedAt env t j).status ≠ Status.BreakBasicBlock)
            ∧ t2 = t.at (if t.thumb_mode then 2 else 4) (m - 1)))
      ∧ (0 < m → st = (liftedAt env t (m - 1)).status)
      ∧ (m = 0 → st = Status.Continue) := by
  unfold translateByMode at h
  unfold liftedAt
  by_cases hth : t.thumb_mode = true
  · rw [if_pos hth] at h
    simp only [hth, if_true]
    obtain ⟨s', hloop, rfl, rfl, rfl⟩ := (TranslateThumb_ok_iff env t bb st t2 bb2).mp h
    exact blockLoop_ok (thumbIteration_spec env) 2 _ 0 _ s' hc hloop
  · rw [if_neg hth] at h
    simp only [hth, if_false]
    obtain ⟨s', hloop, rfl, rfl, rfl⟩ := (TranslateARM_ok_iff env t bb st t2 bb2).mp h
    exact blockLoop_ok (armIteration_spec env) 4 _ 0 _ s' hc hloop

theorem translateByMode_error_iff (env : Environment) (t : Translator) (bb : BasicBlock)
    (hc : t.code_address < 2 ^ 32) :
    (∃ e, translateByMode env t bb = .error e) ↔
      ∃ k, k < t.max_block_size.toNat
        ∧ (liftedAt env t k).status = Status.Unimplemented
        ∧ ∀ j, j < k → (liftedAt env t j).status ≠ Status.BreakBasicBlock := by
  unfold translateByMode liftedAt
  by_cases hth : t.thumb_mode = true
  · simp only [hth, if_true]
    rw [TranslateThumb_error_iff]
    exact blockLoop_error_iff (thumbIteration_spec env) 2 _ 0 _ hc
  · simp only [hth, Bool.false_eq_true, if_false]
    rw [TranslateARM_error_iff]
    exact blockLoop_error_iff (armIteration_spec env) 4 _ 0 _ hc

theorem enter_code_address_lt (t : Translator) (bb : BasicBlock) :
    (t.enter bb).code_address < 2 ^ 32 := by
  unfold Translator.enter
  exact Nat.mod_lt _ (by norm_num)

theorem Translate_error_iff (env : Environment) (t : Translator) (bb : BasicBlock) :
    (∃ e, Translate env t bb = .error e) ↔
      ∃ e, translateByMode env (t.enter bb) bb = .error e := by
  unfold Translate
  cases translateByMode env (t.enter bb) bb with
  | error e => simp
  | ok r =>
    obtain ⟨st, t2, bb2⟩ := r
    simp only
    split <;> simp

/-- C9. `Translate` throws if and only if the decoder returns `Unimplemented`
for an instruction that is reached before the block ends, that is within the
`block_size` ceiling and with no `BreakBasicBlock` before it, in ARM and in
Thumb mode alike; and `Translator::Undefined` returns `Unimplemented` for every
opcode. -/
theorem Translate_throws_iff_unimplemented (env : Environment) (t : Translator)
    (bb : BasicBlock) :
    ((∃ e, Translate env t bb = .error e) ↔
      ∃ k, k < t.max_block_size.toNat
        ∧ (liftedAt env (t.enter bb) k).status = Status.Unimplemented
        ∧ ∀ j, j < k → (liftedAt env (t.enter bb) j).status ≠ Status.BreakBasicBlock)
    ∧ ∀ opcode, Translator.Undefined opcode = Status.Unimplemented := by
  refine ⟨?_, fun _ => rfl⟩
  rw [Translate_error_iff]
  have := translateByMode_error_iff env (t.enter bb) bb (enter_code_address_lt t bb)
  have hm : (t.enter bb).max_block_size = t.max_block_size := rfl
  rw [hm] at this
  exact this

/-- A translation that ends with `Continue` used up the ceiling: the
translator only moved its code address, by one instruction size for each
instruction of the block. -/
theorem translateByMode_continue (env : Environment) (t : Translator) (bb : BasicBlock)
    (t2 : Translator) (bb2 : BasicBlock) (hc : t.code_address < 2 ^ 32)
    (hrun : translateByMode env t bb = .ok (Status.Continue, t2, bb2)) :
    bb.length ≤ bb2.length
    ∧ t2 = t.at (if t.thumb_mode then 2 else 4) (bb2.length - bb.length) := by
  obtain ⟨m, _, hm, _, _, hcase, hst, _⟩ := translateByMode_ok env t bb _ t2 bb2 hc hrun
  have hmn : bb2.length - bb.length = m := by omega
  rw [hmn]
  refine ⟨by omega, ?_⟩
  rcases hcase with ⟨_, _, h⟩ | ⟨hm0, hlast, _, _⟩
  · exact h
  · rw [← hst hm0] at hlast
    cases hlast

/-- The last statement of `Translate` when the status is `Continue` and the
key is unset. -/
theorem Translate_of_continue_unset (env : Environment) (t : Translator) (bb : BasicBlock)
    (t2 : Translator) (bb2 : BasicBlock)
    (hrun : translateByMode env (t.enter bb) bb = .ok (Status.Continue, t2, bb2))
    (hkey : bb2.branch_target.key = none) :
    Translate env t bb = .ok (t2,
      { bb2 with branch_target :=
          { key := some
              { address := (t2.code_address + 2 * t2.opcode_size) % 2 ^ 32
                mode := t2.mode
                thumb := t2.thumb_mode }
            condition := Condition.AL } }) := by
  unfold Translate
  rw [hrun]
  simp only [hkey, beq_self_eq_true, Bool.and_self, if_true]

/-- The address arithmetic of the fall-through successor in `u32`. -/
theorem fall_through_address (A n : Nat) (thumb : Bool) :
    ((A + 2 ^ 32 - 2 * (if thumb then 2 else 4)) % 2 ^ 32
        + (if thumb then 2 else 4) * n) % 2 ^ 32
      = (A + 2 ^ 32 - 2 * (if thumb then 2 else 4) + n * (if thumb then 2 else 4)) % 2 ^ 32
    ∧ (((A + 2 ^ 32 - 2 * (if thumb then 2 else 4)) % 2 ^ 32
        + (if thumb then 2 else 4) * n) % 2 ^ 32 + 2 * (if thumb then 2 else 4)) % 2 ^ 32
      = (A + n * (if thumb then 2 else 4)) % 2 ^ 32 := by
  cases thumb <;> simp <;> omega

/-- C5. When the translation of a block with key `(A, mode, thumb)` and
instruction size `s` ends with `Continue` after `n` instructions and the
successor key is still unset, `Translate` returns with the key
`(P + 2 s, mode, thumb)` and condition `AL`, where `P = A - 2 s + n s` (in
`u32`) is the translator's code address at the end; the successor address is
`A + n s` modulo `2 ^ 32`. -/
theorem Translate_fall_through (env : Environment) (t : Translator) (bb : BasicBlock)
    (n : Nat) (t2 : Translator) (bb2 : BasicBlock)
    (hlen : bb.length = 0)
    (hrun : translateByMode env (t.enter bb) bb = .ok (Status.Continue, t2, bb2))
    (hn : bb2.length = n)
    (hkey : bb2.branch_target.key = none) :
    Translate env t bb = .ok (t2,
      { bb2 with branch_target :=
          { key := some
              { address := (t2.code_address + 2 * (if bb.key.thumb then 2 else 4)) % 2 ^ 32
                mode := bb.key.mode
                thumb := bb.key.thumb }
            condition := Condition.AL } })
    ∧ t2.code_address
        = (bb.key.address + 2 ^ 32 - 2 * (if bb.key.thumb then 2 else 4)
            + n * (if bb.key.thumb then 2 else 4)) % 2 ^ 32
    ∧ (t2.code_address + 2 * (if bb.key.thumb then 2 else 4)) % 2 ^ 32
        = (bb.key.address + n * (if bb.key.thumb then 2 else 4)) % 2 ^ 32 := by
  obtain ⟨_, ht2⟩ :=
    translateByMode_continue env (t.enter bb) bb t2 bb2 (enter_code_address_lt t bb) hrun
  rw [hn, hlen, Nat.sub_zero] at ht2
  have hmode : t2.mode = bb.key.mode := by rw [ht2]; rfl
  have hthumb : t2.thumb_mode = bb.key.thumb := by rw [ht2]; rfl
  have hsize : t2.opcode_size = if bb.key.thumb then 2 else 4 := by rw [ht2]; rfl
  have haddr : t2.code_address
      = ((bb.key.address + 2 ^ 32 - 2 * (if bb.key.thumb then 2 else 4)) % 2 ^ 32
          + (if bb.key.thumb then 2 else 4) * n) % 2 ^ 32 := by rw [ht2]; rfl
  obtain ⟨a1, a2⟩ := fall_through_address bb.key.address n bb.key.thumb
  refine ⟨?_, ?_, ?_⟩
  · rw [Translate_of_continue_unset env t bb t2 bb2 hrun hkey, hmode, hthumb, hsize]
  · rw [haddr, a1]
  · rw [haddr, a2]

/-- Witness for C5: one `MOV` translated from key `(8, User, ARM)` with a
ceiling of one instruction ends with `Continue`; the successor is
`(12, User, ARM)` under `AL`. -/
theorem Translate_fall_through_witness :
    Translate demoEnv (Translator.new { block_size := 1 })
        (BasicBlock.new { address := 8, mode := Mode.User, thumb := false })
      = .ok
        ({ armv5te := true, max_block_size := 1, exception_base := 0, mode := Mode.User,
           thumb_mode := false, opcode_size := 4, code_address := 4 },
         { key := { address := 8, mode := Mode.User, thumb := false }
           micro_blocks :=
             [{ condition := Condition.AL, emitter := { vars := 0, code := [] }, length := 1 }]
           length := 1
           branch_target :=
             { key := some { address := 12, mode := Mode.User, thumb := false }
               condition := Condition.AL } })
    ∧ (4 : Nat) = (8 + 2 ^ 32 - 2 * 4 + 1 * 4) % 2 ^ 32
    ∧ (4 + 2 * 4) % 2 ^ 32 = (8 + 1 * 4) % 2 ^ 32 :=
  Translate_fall_through demoEnv (Translator.new { block_size := 1 })
    (BasicBlock.new { address := 8, mode := Mode.User, thumb := false }) 1
    { armv5te := true, max_block_size := 1, exception_base := 0, mode := Mode.User,
      thumb_mode := false, opcode_size := 4, code_address := 4 }
    { key := { address := 8, mode := Mode.User, thumb := false }
      micro_blocks :=
        [{ condition := Condition.AL, emitter := { vars := 0, code := [] }, length := 1 }]
      length := 1
      branch_target := { key := none, condition := Condition.AL } }
    rfl (by decide) rfl rfl

/-- C6, as the code has it. When the translation returns, `Translate` returns
with the same block length; the successor key is left unset only if the final
status is `BreakBasicBlock` or `BreakMicroBlock`; if no lifter left a key and
the final status is `Continue`, the key is the fall-through successor (block
address plus length times instruction size, same mode and Thumb flag) under
`AL`; if no lifter left a key and the final status is not `Continue`, the key
stays unset. -/
theorem Translate_successor_key (env : Environment) (t : Translator) (bb : BasicBlock)
    (st : Status) (t2 : Translator) (bb2 : BasicBlock)
    (hlen : bb.length = 0)
    (hrun : translateByMode env (t.enter bb) bb = .ok (st, t2, bb2)) :
    ∃ bb', Translate env t bb = .ok (t2, bb')
      ∧ bb'.length = bb2.length
      ∧ (bb'.branch_target.key = none →
          st = Status.BreakBasicBlock ∨ st = Status.BreakMicroBlock)
      ∧ (bb2.branch_target.key = none → st = Status.Continue →
          bb'.branch_target =
            { key := some
                { address :=
                    (bb.key.address + bb'.length * (if bb.key.thumb then 2 else 4)) % 2 ^ 32
                  mode := bb.key.mode
                  thumb := bb.key.thumb }
              condition := Condition.AL })
      ∧ (bb2.branch_target.key = none → st ≠ Status.Continue →
          bb'.branch_target.key = none) := by
  obtain ⟨m, _, _, _, hun, _, hst, hst0⟩ :=
    translateByMode_ok env (t.enter bb) bb st t2 bb2 (enter_code_address_lt t bb) hrun
  have hne : st ≠ Status.Unimplemented := by
    rcases Nat.eq_zero_or_pos m with h | h
    · rw [hst0 h]
      decide
    · rw [hst h]
      exact hun (m - 1) (by omega)
  by_cases hcont : st = Status.Continue
  · subst hcont
    by_cases hkey : bb2.branch_target.key = none
    · obtain ⟨_, ht2⟩ :=
        translateByMode_continue env (t.enter bb) bb t2 bb2 (enter_code_address_lt t bb) hrun
      rw [hlen, Nat.sub_zero] at ht2
      have hmode : t2.mode = bb.key.mode := by rw [ht2]; rfl
      have hthumb : t2.thumb_mode = bb.key.thumb := by rw [ht2]; rfl
      have hsize : t2.opcode_size = if bb.key.thumb then 2 else 4 := by rw [ht2]; rfl
      have haddr : t2.code_address
          = ((bb.key.address + 2 ^ 32 - 2 * (if bb.key.thumb then 2 else 4)) % 2 ^ 32
              + (if bb.key.thumb then 2 else 4) * bb2.length) % 2 ^ 32 := by rw [ht2]; rfl
      refine ⟨_, Translate_of_continue_unset env t bb t2 bb2 hrun hkey, rfl, ?_, ?_, ?_⟩
      · intro h
        simp at h
      · intro _ _
        simp only [hmode, hthumb, hsize, haddr,
          (fall_through_address bb.key.address bb2.length bb.key.thumb).2]
      · intro _ h
        exact absurd rfl h
    · refine ⟨bb2, ?_, rfl, fun h => absurd h hkey, fun h => absurd h hkey,
        fun h => absurd h hkey⟩
      unfold Translate
      rw [hrun]
      have : (bb2.branch_target.key == none) = false := by simpa using hkey
      simp only [this, Bool.and_false, Bool.false_eq_true, if_false]
  · refine ⟨bb2, ?_, rfl, ?_, fun _ h => absurd h hcont, fun h _ => h⟩
    · unfold Translate
      rw [hrun]
      have : (st == Status.Continue) = false := by simpa using hcont
      simp only [this, Bool.false_and, Bool.false_eq_true, if_false]
    · intro _
      cases st
      · exact absurd rfl hcont
      · exact Or.inl rfl
      · exact Or.inr rfl
      · exact absurd rfl hne

/-- Witness for C6: two instructions translated from key `(8, User, ARM)` with
a ceiling of two; the second one returns `BreakMicroBlock`, the key stays
unset. -/
theorem Translate_successor_key_witness :
    ∃ bb', Translate demoEnv (Translator.new { block_size := 2 })
          (BasicBlock.new { address := 8, mode := Mode.User, thumb := false })
        = .ok ({ armv5te := true, max_block_size := 2, exception_base := 0,
                 mode := Mode.User, thumb_mode := false, opcode_size := 4,
                 code_address := 8 }, bb')
      ∧ bb'.length = 2
      ∧ (bb'.branch_target.key = none →
          Status.BreakMicroBlock = Status.BreakBasicBlock
            ∨ Status.BreakMicroBlock = Status.BreakMicroBlock)
      ∧ ((none : Option BlockKey) = none → Status.BreakMicroBlock = Status.Continue →
          bb'.branch_target =
            { key := some
                { address := (8 + bb'.length * (if false then 2 else 4)) % 2 ^ 32
                  mode := Mode.User
                  thumb := false }
              condition := Condition.AL })
      ∧ ((none : Option BlockKey) = none → Status.BreakMicroBlock ≠ Status.Continue →
          bb'.branch_target.key = none) :=
  Translate_successor_key demoEnv (Translator.new { block_size := 2 })
    (BasicBlock.new { address := 8, mode := Mode.User, thumb := false })
    Status.BreakMicroBlock
    { armv5te := true, max_block_size := 2, exception_base := 0, mode := Mode.User,
      thumb_mode := false, opcode_size := 4, code_address := 8 }
    { key := { address := 8, mode := Mode.User, thumb := false }
      micro_blocks :=
        [{ condition := Condition.AL, emitter := { vars := 0, code := [] }, length := 1 },
         { condition := Condition.EQ, emitter := { vars := 0, code := [] }, length := 1 },
         { condition := Condition.EQ, emitter := { vars := 0, code := [] }, length := 0 }]
      length := 2
      branch_target := { key := none, condition := Condition.AL } }
    rfl (by decide)

/-- C6 as stated fails. From key `(8, User, ARM)` with a ceiling of two
instructions the loop ends at the ceiling, the last lifter returns
`BreakMicroBlock`, no lifter sets the key, and `Translate` returns with the key
unset instead of the fall-through successor `(16, User, ARM)`. -/
theorem Translate_key_unset_after_BreakMicroBlock :
    translateByMode demoEnv
        ((Translator.new { block_size := 2 }).enter
          (BasicBlock.new { address := 8, mode := Mode.User, thumb := false }))
        (BasicBlock.new { address := 8, mode := Mode.User, thumb := false })
      = .ok (Status.BreakMicroBlock,
        { armv5te := true, max_block_size := 2, exception_base := 0, mode := Mode.User,
          thumb_mode := false, opcode_size := 4, code_address := 8 },
        { key := { address := 8, mode := Mode.User, thumb := false }
          micro_blocks :=
            [{ condition := Condition.AL, emitter := { vars := 0, code := [] }, length := 1 },
             { condition := Condition.EQ, emitter := { vars := 0, code := [] }, length := 1 },
             { condition := Condition.EQ, emitter := { vars := 0, code := [] }, length := 0 }]
          length := 2
          branch_target := { key := none, condition := Condition.AL } })
    ∧ Translate demoEnv (Translator.new { block_size := 2 })
        (BasicBlock.new { address := 8, mode := Mode.User, thumb := false })
      = .ok
        ({ armv5te := true, max_block_size := 2, exception_base := 0, mode := Mode.User,
           thumb_mode := false, opcode_size := 4, code_address := 8 },
         { key := { address := 8, mode := Mode.User, thumb := false }
           micro_blocks :=
             [{ condition := Condition.AL, emitter := { vars := 0, code := [] }, length := 1 },
              { condition := Condition.EQ, emitter := { vars := 0, code := [] }, length := 1 },
              { condition := Condition.EQ, emitter := { vars := 0, code := [] }, length := 0 }]
           length := 2
           branch_target := { key := none, condition := Condition.AL } }) := by
  decide

/-- The length a returning loop leaves, given where the first
`BreakBasicBlock` is. -/
theorem blockLoop_length {iteration : Nat → LoopState → Except TranslateError LoopState}
    {lift : Translator → Lifted} (hspec : IterationSpec iteration lift) (size n i : Nat)
    (s s' : LoopState) (hc : s.translator.code_address < 2 ^ 32)
    (h : blockLoop iteration size n i s = .ok s') :
    s'.basic_block.length ≤ s.basic_block.length + n
    ∧ (∀ k, k < n → (lift (s.translator.at size k)).status = Status.BreakBasicBlock →
        (∀ j, j < k → (lift (s.translator.at size j)).status ≠ Status.BreakBasicBlock) →
        s'.basic_block.length = s.basic_block.length + (k + 1))
    ∧ ((∀ j, j < n → (lift (s.translator.at size j)).status ≠ Status.BreakBasicBlock) →
        s'.basic_block.length = s.basic_block.length + n) := by
  obtain ⟨m, hm, hlen, _, _, hcase, _, _⟩ := blockLoop_ok hspec size n i s s' hc h
  refine ⟨by omega, ?_, ?_⟩
  · intro k hk hbk hnb
    rcases hcase with ⟨hmn, hall, _⟩ | ⟨hm0, hlast, hbefore, _⟩
    · exact absurd hbk (hall k (by omega))
    · have : m - 1 = k := by
        rcases Nat.lt_trichotomy (m - 1) k with h1 | h1 | h1
        · exact absurd hlast (hnb (m - 1) h1)
        · exact h1
        · exact absurd hbk (hbefore k h1)
      omega
  · intro hall
    rcases hcase with ⟨hmn, _, _⟩ | ⟨hm0, hlast, _, _⟩
    · omega
    · exact absurd hlast (hall (m - 1) (by omega))

/-- C7. A run of `TranslateARM` or `TranslateThumb` with ceiling `N` on a block
of length 0 that returns leaves `length = k + 1` when instruction `k < N` is
the first whose lifter returns `BreakBasicBlock`, and `length = N` when there
is none among the first `N`; `length ≤ N` in both cases, and in the first the
loop runs exactly `k + 1` iterations, the instructions behind `k` are neither
fetched nor decoded. -/
theorem Translate_block_size_ceiling (env : Environment) (t : Translator) (bb : BasicBlock)
    (N : Nat) (hmax : t.max_block_size = (N : Int)) (hc : t.code_address < 2 ^ 32)
    (hlen : bb.length = 0) :
    (∀ st t2 bb2, TranslateARM env t bb = .ok (st, t2, bb2) →
      bb2.length ≤ N
      ∧ (∀ k, k < N → (armLift env (t.at 4 k)).status = Status.BreakBasicBlock →
          (∀ j, j < k → (armLift env (t.at 4 j)).status ≠ Status.BreakBasicBlock) →
          bb2.length = k + 1
          ∧ armLoop env N 0 (loopStart t bb env.default_condition)
              = armLoop env (k + 1) 0 (loopStart t bb env.default_condition))
      ∧ ((∀ j, j < N → (armLift env (t.at 4 j)).status ≠ Status.BreakBasicBlock) →
          bb2.length = N))
    ∧ (∀ st t2 bb2, TranslateThumb env t bb = .ok (st, t2, bb2) →
      bb2.length ≤ N
      ∧ (∀ k, k < N → (thumbLift env (t.at 2 k)).status = Status.BreakBasicBlock →
          (∀ j, j < k → (thumbLift env (t.at 2 j)).status ≠ Status.BreakBasicBlock) →
          bb2.length = k + 1
          ∧ thumbLoop env N 0 (loopStart t bb Condition.AL)
              = thumbLoop env (k + 1) 0 (loopStart t bb Condition.AL))
      ∧ ((∀ j, j < N → (thumbLift env (t.at 2 j)).status ≠ Status.BreakBasicBlock) →
          bb2.length = N)) := by
  have hN : t.max_block_size.toNat = N := by rw [hmax]; simp
  constructor
  · intro st t2 bb2 h
    obtain ⟨s', hloop, _, _, rfl⟩ := (TranslateARM_ok_iff env t bb st t2 bb2).mp h
    rw [hN] at hloop
    obtain ⟨h1, h2, h3⟩ := blockLoop_length (armIteration_spec env) 4 N 0 _ s' hc hloop
    have hl : (loopStart t bb env.default_condition).basic_block.length = 0 := hlen
    have ha : (add_micro_block s').basic_block.length = s'.basic_block.length := rfl
    rw [hl] at h1 h2 h3
    rw [ha]
    refine ⟨by omega, ?_, ?_⟩
    · intro k hk hbk hnb
      refine ⟨by rw [h2 k hk hbk hnb]; omega, ?_⟩
      rw [armLoop_eq_blockLoop, armLoop_eq_blockLoop]
      exact blockLoop_break_eq (armIteration_spec env) 4 k N 0 _ hc hk hbk hnb
    · intro hall
      rw [h3 hall]
      omega
  · intro st t2 bb2 h
    obtain ⟨s', hloop, _, _, rfl⟩ := (TranslateThumb_ok_iff env t bb st t2 bb2).mp h
    rw [hN] at hloop
    obtain ⟨h1, h2, h3⟩ := blockLoop_length (thumbIteration_spec env) 2 N 0 _ s' hc hloop
    have hl : (loopStart t bb Condition.AL).basic_block.length = 0 := hlen
    have ha : (add_micro_block s').basic_block.length = s'.basic_block.length := rfl
    rw [hl] at h1 h2 h3
    rw [ha]
    refine ⟨by omega, ?_, ?_⟩
    · intro k hk hbk hnb
      refine ⟨by rw [h2 k hk hbk hnb]; omega, ?_⟩
      rw [thumbLoop_eq_blockLoop, thumbLoop_eq_blockLoop]
      exact blockLoop_break_eq (thumbIteration_spec env) 2 k N 0 _ hc hk hbk hnb
    · intro hall
      rw [h3 hall]
      omega

/-- Witness for C7: ARM code at address 0 with a ceiling of 32; the fourth
instruction (`B .`, index 3) is the first to break the basic block, the block
has length 4 and the loop is the loop of four iterations. -/
theorem Translate_block_size_ceiling_witness :
    (4 : Nat) = 3 + 1
    ∧ armLoop demoEnv 32 0
        (loopStart { armv5te := true, max_block_size := 32, exception_base := 0,
                     mode := Mode.User, thumb_mode := false, opcode_size := 4,
                     code_address := 0 }
          (BasicBlock.new { address := 8, mode := Mode.User, thumb := false })
          demoEnv.default_condition)
      = armLoop demoEnv (3 + 1) 0
        (loopStart { armv5te := true, max_block_size := 32, exception_base := 0,
                     mode := Mode.User, thumb_mode := false, opcode_size := 4,
                     code_address := 0 }
          (BasicBlock.new { address := 8, mode := Mode.User, thumb := false })
          demoEnv.default_condition) :=
  ((Translate_block_size_ceiling demoEnv
      { armv5te := true, max_block_size := 32, exception_base := 0, mode := Mode.User,
        thumb_mode := false, opcode_size := 4, code_address := 0 }
      (BasicBlock.new { address := 8, mode := Mode.User, thumb := false })
      32 rfl (by norm_num) rfl).1
    Status.BreakBasicBlock
    { armv5te := true, max_block_size := 32, exception_base := 0, mode := Mode.User,
      thumb_mode := false, opcode_size := 4, code_address := 12 }
    { key := { address := 8, mode := Mode.User, thumb := false }
      micro_blocks :=
        [{ condition := Condition.AL, emitter := { vars := 0, code := [] }, length := 1 },
         { condition := Condition.EQ, emitter := { vars := 0, code := [] }, length := 1 },
         { condition := Condition.EQ, emitter := { vars := 0, code := [] }, length := 0 },
         { condition := Condition.AL, emitter := { vars := 0, code := [] }, length := 2 }]
      length := 4
      branch_target :=
        { key := some { address := 20, mode := Mode.User, thumb := false }
          condition := Condition.AL } }
    (by decide)).2.1 3 (by decide) (by decide)
    (by
      intro j hj
      match j, hj with
      | 0, _ => decide
      | 1, _ => decide
      | 2, _ => decide)

/-! ### Micro-blocks of `TranslateARM` -/

theorem armTrack_translator (i : Nat) (s : LoopState) (c : Condition) :
    (armTrack i s c).translator = s.translator := (armTrack_frame i s c).1

/-- The loop body of `TranslateARM` on the `i`-th instruction of the block. -/
theorem armIteration_eq (env : Environment) (t0 : Translator) (i : Nat) (s : LoopState)
    (ht : s.translator = t0.at 4 i) :
    armIteration env i s =
      if armStatusAt env t0 i = Status.Unimplemented then
        .error (TranslateError.UnknownOpcode (armFetch env (t0.at 4 i).code_address)
          (t0.at 4 i).code_address 0)
      else .ok (armStep i s (armConditionAt env t0 i) (armLift env (t0.at 4 i))) := by
  unfold armIteration armStep armStatusAt armConditionAt armLift
  simp only [armTrack_translator, ht]
  have harm : (t0.at 4 i).armv5te = t0.armv5te := rfl
  rw [harm]
  by_cases h : (env.decode_arm (armFetch env (t0.at 4 i).code_address) (t0.at 4 i)).status
      = Status.Unimplemented
  · rw [if_pos h]
    simp [applyLifted, h, armTrack_translator, ht]
  · rw [if_neg h]
    have hb : ((applyLifted
        (armTrack i s (armCondition t0.armv5te (armFetch env (t0.at 4 i).code_address)))
        (env.decode_arm (armFetch env (t0.at 4 i).code_address) (t0.at 4 i))).status
          == Status.Unimplemented) = false := by
      simpa [applyLifted] using h
    rw [hb]
    simp

theorem predicateChanges_succ (env : Environment) (t : Translator) (i : Nat) :
    predicateChanges env t (i + 1) = predicateChanges env t i
      + (if 0 < i ∧ armConditionAt env t i ≠ armConditionAt env t (i - 1) then 1 else 0) := by
  unfold predicateChanges
  rw [Nat.count_succ]

theorem microBlockBreaks_succ (env : Environment) (t : Translator) (i : Nat) :
    microBlockBreaks env t (i + 1) = microBlockBreaks env t i
      + (if armStatusAt env t i = Status.BreakMicroBlock
            ∧ armConditionAt env t i ≠ Condition.AL then 1 else 0) := by
  unfold microBlockBreaks
  rw [Nat.count_succ]

theorem chain_ne_snoc (l : List Condition) (a b : Condition)
    (h : List.Chain' (fun x y => x ≠ y) (l ++ [a])) (hab : a ≠ b) :
    List.Chain' (fun x y => x ≠ y) ((l ++ [a]) ++ [b]) := by
  have e : (l ++ [a]) ++ [b] = l ++ a :: [b] := by simp
  rw [e, List.chain'_split]
  exact ⟨h, List.chain'_pair.mpr hab⟩

/-- One loop body of `TranslateARM` keeps the micro-block bookkeeping. -/
theorem armStep_inv (env : Environment) (t : Translator) (pre : List MicroBlock) (i : Nat)
    (s : LoopState) (mbs : List MicroBlock) (lifted : Lifted)
    (hst : lifted.status = armStatusAt env t i)
    (inv : MicroInv env t pre i s mbs) :
    ∃ mbs', MicroInv env t pre (i + 1) (armStep i s (armConditionAt env t i) lifted) mbs' := by
  obtain ⟨hpush, hcount, hcur, horig, htot, hdist⟩ := inv
  have horig' : ∀ mb, mb ∈ mbs →
      ∃ j, j < i + 1 ∧ mb.condition = armConditionAt env t j := by
    intro mb hmb
    obtain ⟨j, hj, h⟩ := horig mb hmb
    exact ⟨j, by omega, h⟩
  by_cases hbr : armStatusAt env t i = Status.BreakMicroBlock
      ∧ armConditionAt env t i ≠ Condition.AL
  · -- the lifter breaks the micro-block
    have hb : (lifted.status == Status.BreakMicroBlock
        && armConditionAt env t i != Condition.AL) = true := by
      simp [hst, hbr.1, hbr.2]
    have hmb1 : microBlockBreaks env t (i + 1) ≠ 0 := by
      rw [microBlockBreaks_succ, if_pos hbr]
      omega
    by_cases hi : i = 0
    · subst hi
      have hnil : mbs = [] := by
        apply List.eq_nil_of_length_eq_zero
        rw [hcount]
        simp [predicateChanges, microBlockBreaks]
      subst hnil
      refine ⟨[{ s.micro_block with
        condition := armConditionAt env t 0
        emitter := lifted.emit s.micro_block.emitter
        length := s.micro_block.length + 1 }], ?_⟩
      constructor
      · simp [armStep, armTrack, applyLifted, countInstruction, break_micro_block,
          add_micro_block, hb, hpush]
      · rw [predicateChanges_succ, microBlockBreaks_succ, if_pos hbr]
        simp [predicateChanges, microBlockBreaks]
      · intro _
        simp [armStep, armTrack, applyLifted, countInstruction, break_micro_block,
          add_micro_block, hb, MicroBlock.new]
      · intro mb hmb
        simp only [List.mem_singleton] at hmb
        subst hmb
        exact ⟨0, by omega, rfl⟩
      · simp [armStep, armTrack, applyLifted, countInstruction, break_micro_block,
          add_micro_block, hb, MicroBlock.new]
        simpa using htot
      · intro h
        exact absurd h hmb1
    · have hpos : 0 < i := Nat.pos_of_ne_zero hi
      have hib : (i == 0) = false := by simpa using hi
      by_cases hch : armConditionAt env t i = s.micro_block.condition
      · have hcb : (armConditionAt env t i != s.micro_block.condition) = false := by
          simpa using hch
        refine ⟨mbs ++ [{ s.micro_block with
          emitter := lifted.emit s.micro_block.emitter
          length := s.micro_block.length + 1 }], ?_⟩
        constructor
        · simp [armStep, armTrack, applyLifted, countInstruction, break_micro_block,
            add_micro_block, hb, hpush, hib, hcb]
        · rw [predicateChanges_succ, microBlockBreaks_succ, if_pos hbr, if_neg, List.length_append,
            hcount]
          · simp
            omega
          · rintro ⟨_, h⟩
            exact h (by rw [hch, hcur hpos])
        · intro _
          simp [armStep, armTrack, applyLifted, countInstruction, break_micro_block,
            add_micro_block, hb, MicroBlock.new, hib, hcb]
        · intro mb hmb
          rcases List.mem_append.mp hmb with h | h
          · exact horig' mb h
          · simp only [List.mem_singleton] at h
            subst h
            exact ⟨i, by omega, hch.symm⟩
        · simp [armStep, armTrack, applyLifted, countInstruction, break_micro_block,
            add_micro_block, hb, MicroBlock.new, hib, hcb]
          omega
        · intro h
          exact absurd h hmb1
      · have hcb : (armConditionAt env t i != s.micro_block.condition) = true := by
          simpa using hch
        refine ⟨mbs ++ [s.micro_block] ++ [{ (MicroBlock.new (armConditionAt env t i)) with
          emitter := lifted.emit (MicroBlock.new (armConditionAt env t i)).emitter
          length := 1 }], ?_⟩
        constructor
        · simp [armStep, armTrack, applyLifted, countInstruction, break_micro_block,
            add_micro_block, hb, hpush, hib, hcb, MicroBlock.new]
        · rw [predicateChanges_succ, microBlockBreaks_succ, if_pos hbr, if_pos,
            List.length_append, List.length_append, hcount]
          · simp
            omega
          · refine ⟨hpos, ?_⟩
            rw [← hcur hpos]
            exact hch
        · intro _
          simp [armStep, armTrack, applyLifted, countInstruction, break_micro_block,
            add_micro_block, hb, MicroBlock.new, hib, hcb]
        · intro mb hmb
          rcases List.mem_append.mp hmb with h | h
          · rcases List.mem_append.mp h with h | h
            · exact horig' mb h
            · simp only [List.mem_singleton] at h
              subst h
              exact ⟨i - 1, by omega, hcur hpos⟩
          · simp only [List.mem_singleton] at h
            subst h
            exact ⟨i, by omega, rfl⟩
        · simp [armStep, armTrack, applyLifted, countInstruction, break_micro_block,
            add_micro_block, hb, MicroBlock.new, hib, hcb]
          omega
        · intro h
          exact absurd h hmb1
  · -- the lifter does not break the micro-block
    have hb : (lifted.status == Status.BreakMicroBlock
        && armConditionAt env t i != Condition.AL) = false := by
      rw [hst]
      by_cases h1 : armStatusAt env t i = Status.BreakMicroBlock
      · have : armConditionAt env t i = Condition.AL := by
          by_contra h2
          exact hbr ⟨h1, h2⟩
        simp [this]
      · simp [h1]
    have hmb1 : microBlockBreaks env t (i + 1) = microBlockBreaks env t i := by
      rw [microBlockBreaks_succ, if_neg hbr]
      rfl
    by_cases hi : i = 0
    · subst hi
      have hnil : mbs = [] := by
        apply List.eq_nil_of_length_eq_zero
        rw [hcount]
        simp [predicateChanges, microBlockBreaks]
      subst hnil
      refine ⟨[], ?_⟩
      constructor
      · simp [armStep, armTrack, applyLifted, countInstruction, hb, hpush]
      · rw [predicateChanges_succ, hmb1]
        simp [predicateChanges, microBlockBreaks]
      · intro _
        simp [armStep, armTrack, applyLifted, countInstruction, hb]
      · intro mb hmb
        simp at hmb
      · simp [armStep, armTrack, applyLifted, countInstruction, hb]
        simpa using htot
      · intro _
        simp [armStep, armTrack, applyLifted, countInstruction, hb]
    · have hpos : 0 < i := Nat.pos_of_ne_zero hi
      have hib : (i == 0) = false := by simpa using hi
      by_cases hch : armConditionAt env t i = s.micro_block.condition
      · have hcb : (armConditionAt env t i != s.micro_block.condition) = false := by
          simpa using hch
        refine ⟨mbs, ?_⟩
        constructor
        · simp [armStep, armTrack, applyLifted, countInstruction, hb, hpush, hib, hcb]
        · rw [predicateChanges_succ, hmb1, if_neg, hcount]
          · rfl
          · rintro ⟨_, h⟩
            exact h (by rw [hch, hcur hpos])
        · intro _
          simp [armStep, armTrack, applyLifted, countInstruction, hb, hib, hcb]
          exact hch.symm
        · exact horig'
        · simp [armStep, armTrack, applyLifted, countInstruction, hb, hib, hcb]
          omega
        · intro h
          rw [hmb1] at h
          have := hdist h
          simpa [armStep, armTrack, applyLifted, countInstruction, hb, hib, hcb] using this
      · have hcb : (armConditionAt env t i != s.micro_block.condition) = true := by
          simpa using hch
        refine ⟨mbs ++ [s.micro_block], ?_⟩
        constructor
        · simp [armStep, armTrack, applyLifted, countInstruction, break_micro_block,
            add_micro_block, hb, hpush, hib, hcb]
        · rw [predicateChanges_succ, hmb1, if_pos, List.length_append, hcount]
          · simp
            omega
          · refine ⟨hpos, ?_⟩
            rw [← hcur hpos]
            exact hch
        · intro _
          simp [armStep, armTrack, applyLifted, countInstruction, break_micro_block,
            add_micro_block, hb, MicroBlock.new, hib, hcb]
        · intro mb hmb
          rcases List.mem_append.mp hmb with h | h
          · exact horig' mb h
          · simp only [List.mem_singleton] at h
            subst h
            exact ⟨i - 1, by omega, hcur hpos⟩
        · simp [armStep, armTrack, applyLifted, countInstruction, break_micro_block,
            add_micro_block, hb, MicroBlock.new, hib, hcb]
          omega
        · intro h
          rw [hmb1] at h
          have hc := chain_ne_snoc _ _ (armConditionAt env t i) (hdist h) (Ne.symm hch)
          simpa [armStep, armTrack, applyLifted, countInstruction, break_micro_block,
            add_micro_block, hb, MicroBlock.new, hib, hcb] using hc

theorem armStep_frame (i : Nat) (s : LoopState) (c : Condition) (lifted : Lifted) :
    (armStep i s c lifted).translator = s.translator
    ∧ (armStep i s c lifted).basic_block.length = s.basic_block.length + 1
    ∧ (armStep i s c lifted).status = lifted.status := by
  obtain ⟨f1, f2, _, _⟩ := armTrack_frame i s c
  unfold armStep
  simp only
  split <;> simp [countInstruction, applyLifted, break_micro_block, add_micro_block, f1, f2]

/-- The loop of `TranslateARM` keeps the micro-block bookkeeping: when it
returns it has decoded the instructions below some index `L`. -/
theorem armLoop_inv (env : Environment) (t0 : Translator) (pre : List MicroBlock)
    (n : Nat) :
    ∀ (i : Nat) (s s' : LoopState) (mbs : List MicroBlock),
      s.translator = t0.at 4 i → MicroInv env t0 pre i s mbs →
      armLoop env n i s = .ok s' →
      ∃ L mbs', i ≤ L ∧ L ≤ i + n ∧ (0 < n → i < L)
        ∧ s'.basic_block.length = s.basic_block.length + (L - i)
        ∧ MicroInv env t0 pre L s' mbs' := by
  induction n with
  | zero =>
    intro i s s' mbs _ inv h
    unfold armLoop at h
    cases h
    exact ⟨i, mbs, le_refl _, le_refl _, fun h => absurd h (lt_irrefl 0), by simp, inv⟩
  | succ n ih =>
    intro i s s' mbs ht inv h
    unfold armLoop at h
    rw [armIteration_eq env t0 i s ht] at h
    by_cases hun : armStatusAt env t0 i = Status.Unimplemented
    · rw [if_pos hun] at h
      cases h
    · rw [if_neg hun] at h
      simp only at h
      obtain ⟨f1, f2, f3⟩ := armStep_frame i s (armConditionAt env t0 i) (armLift env (t0.at 4 i))
      obtain ⟨mbs1, inv1⟩ := armStep_inv env t0 pre i s mbs (armLift env (t0.at 4 i)) rfl inv
      split at h
      · cases h
        exact ⟨i + 1, mbs1, by omega, by omega, fun _ => by omega, by rw [f2]; omega, inv1⟩
      · have ht1 : (advance (armStep i s (armConditionAt env t0 i) (armLift env (t0.at 4 i)))
            4).translator = t0.at 4 (i + 1) := by
          have := advance_translator_at
            (armStep i s (armConditionAt env t0 i) (armLift env (t0.at 4 i))) 4 0
          rw [Translator.at_zero _ 4 (advance_code_address_lt _ 4), f1, ht] at this
          rw [this]
          unfold Translator.at
          simp only [Nat.mod_add_mod]
          rfl
        have inv2 : MicroInv env t0 pre (i + 1)
            (advance (armStep i s (armConditionAt env t0 i) (armLift env (t0.at 4 i))) 4)
            mbs1 :=
          ⟨inv1.pushed, inv1.count, inv1.current, inv1.origin, inv1.total, inv1.distinct⟩
        obtain ⟨L, mbs', h1, h2, _, h4, h5⟩ := ih (i + 1) _ s' mbs1 ht1 inv2 h
        refine ⟨L, mbs', by omega, by omega, fun _ => by omega, ?_, h5⟩
        rw [h4, (advance_basic_block _ 4).1, f2]
        omega

/-- The micro-blocks a returning `TranslateARM` leaves behind: those pushed in
the loop and the last one, pushed behind the loop. -/
theorem TranslateARM_inv (env : Environment) (t : Translator) (bb : BasicBlock)
    (st : Status) (t2 : Translator) (bb2 : BasicBlock) (hc : t.code_address < 2 ^ 32)
    (hrun : TranslateARM env t bb = .ok (st, t2, bb2)) :
    ∃ L mbs s', bb2.micro_blocks = bb.micro_blocks ++ (mbs ++ [s'.micro_block])
      ∧ bb2.length = bb.length + L
      ∧ L ≤ t.max_block_size.toNat
      ∧ (0 < t.max_block_size.toNat → 0 < L)
      ∧ (L = 0 → s'.micro_block.condition = env.default_condition)
      ∧ MicroInv env t bb.micro_blocks L s' mbs := by
  unfold TranslateARM at hrun
  have h0 : MicroInv env t bb.micro_blocks 0 (loopStart t bb env.default_condition) [] := by
    constructor
    · simp [loopStart]
    · simp [predicateChanges, microBlockBreaks]
    · intro h
      exact absurd h (lt_irrefl 0)
    · intro mb hmb
      simp at hmb
    · simp [loopStart, MicroBlock.new]
    · intro _
      simp
  cases hl : armLoop env t.max_block_size.toNat 0 (loopStart t bb env.default_condition) with
  | error e => rw [hl] at hrun; cases hrun
  | ok s' =>
    rw [hl] at hrun
    simp only [Except.ok.injEq, Prod.mk.injEq] at hrun
    obtain ⟨rfl, rfl, rfl⟩ := hrun
    obtain ⟨L, mbs, _, h2, h3, h4, inv⟩ :=
      armLoop_inv env t bb.micro_blocks _ 0 _ s' [] (Translator.at_zero t 4 hc).symm h0 hl
    refine ⟨L, mbs, s', ?_, ?_, by simpa using h2, h3, ?_, inv⟩
    · simp [add_micro_block, inv.pushed]
    · simpa [add_micro_block, loopStart] using h4
    · intro hL
      subst hL
      rcases Nat.eq_zero_or_pos t.max_block_size.toNat with hz | hz
      · rw [hz] at hl
        unfold armLoop at hl
        cases hl
        rfl
      · have := h3 hz
        omega

theorem ofField_NV (n : Nat) (h : n % 16 = 15) : Condition.ofField n = Condition.NV := by
  unfold Condition.ofField
  rw [h]

theorem armCondition_v5_ne_NV (instruction : Nat) :
    armCondition true instruction ≠ Condition.NV := by
  unfold armCondition
  simp only [Bool.true_and]
  split
  · decide
  · rename_i h
    simpa using h

/-! ## Theorems: `EmitAdvancePC` -/

/-- C11, as the code has it. For the `j`-th instruction of a block translated
by `Translate`, at code address `current_PC` with instruction size `s`,
`EmitAdvancePC` appends exactly one opcode: a store to guest register PC in the
block's mode of the constant `current_PC + 3 s` modulo `2 ^ 32`, which is the
address of the next instruction plus `2 s`. -/
theorem EmitAdvancePC_appends_store (t : Translator) (bb : BasicBlock) (j : Nat)
    (emitter : IREmitter) :
    EmitAdvancePC ((t.enter bb).at (if bb.key.thumb then 2 else 4) j) emitter
      = { emitter with
          code := emitter.code ++
            [IROpcode.StoreGPR { reg := GPR.PC, mode := bb.key.mode }
              (IRAnyRef.const
                ((((t.enter bb).at (if bb.key.thumb then 2 else 4) j).code_address
                  + 3 * (if bb.key.thumb then 2 else 4)) % 2 ^ 32))] }
    ∧ (((t.enter bb).at (if bb.key.thumb then 2 else 4) j).code_address
          + 3 * (if bb.key.thumb then 2 else 4)) % 2 ^ 32
        = (((t.enter bb).at (if bb.key.thumb then 2 else 4) (j + 1)).code_address
          + 2 * (if bb.key.thumb then 2 else 4)) % 2 ^ 32 := by
  constructor
  · unfold EmitAdvancePC
    have hm : ((t.enter bb).at (if bb.key.thumb then 2 else 4) j).mode = bb.key.mode := rfl
    have hs : ((t.enter bb).at (if bb.key.thumb then 2 else 4) j).opcode_size
        = if bb.key.thumb then 2 else 4 := rfl
    rw [hm, hs, Nat.mul_comm]
  · unfold Translator.at
    simp only
    cases bb.key.thumb <;> simp <;> omega

/-- C11 as stated fails. For the ARM instruction at code address 0 in User
mode the constant stored to PC is 12, not `0 + 2 * 4 = 8`. -/
theorem EmitAdvancePC_stores_three_sizes :
    EmitAdvancePC
        { armv5te := true, max_block_size := 32, exception_base := 0, mode := Mode.User,
          thumb_mode := false, opcode_size := 4, code_address := 0 }
        { vars := 0, code := [] }
      = { vars := 0
          code := [IROpcode.StoreGPR { reg := GPR.PC, mode := Mode.User } (IRAnyRef.const 12)] }
    ∧ ¬ (EmitAdvancePC
        { armv5te := true, max_block_size := 32, exception_base := 0, mode := Mode.User,
          thumb_mode := false, opcode_size := 4, code_address := 0 }
        { vars := 0, code := [] }).code
      = [IROpcode.StoreGPR { reg := GPR.PC, mode := Mode.User }
          (IRAnyRef.const ((0 + 2 * 4) % 2 ^ 32))] := by
  decide

/-! ## Theorems: `StatusRegister` -/

/-- C14. The bit-fields of `StatusRegister` occupy, from the least significant
bit, mode = bits 0-4, thumb = 5, mask_fiq = 6, mask_irq = 7, reserved = 8-26,
q = 27, v = 28, c = 29, z = 30, n = 31: each field starts where the one before
ends, the widths add up to 32, reading the fields of a word `x` gives for each
field by name the bits of `x` at these positions, packing fields puts each
field by name at these positions, and for every 32-bit value `x` reading the
fields of `x` and packing them again yields `x`. -/
theorem StatusRegister_layout_round_trip (x : Nat) (hx : x < 2 ^ 32) :
    (List.range 10).map StatusRegister.offset = [0, 5, 6, 7, 8, 27, 28, 29, 30, 31]
    ∧ StatusRegister.widths = [5, 1, 1, 1, 19, 1, 1, 1, 1, 1]
    ∧ (∀ i, i < 10 →
        StatusRegister.offset (i + 1)
          = StatusRegister.offset i + StatusRegister.widths.getD i 0)
    ∧ StatusRegister.offset 10 = 32
    ∧ (StatusRegister.f x).mode = x % 2 ^ 5
    ∧ (StatusRegister.f x).n = x / 2 ^ 31 % 2
    ∧ StatusRegister.v (StatusRegister.f x) = x
    ∧ (StatusRegister.f x).thumb = x / 2 ^ 5 % 2
    ∧ (StatusRegister.f x).mask_fiq = x / 2 ^ 6 % 2
    ∧ (StatusRegister.f x).mask_irq = x / 2 ^ 7 % 2
    ∧ (StatusRegister.f x).reserved = x / 2 ^ 8 % 2 ^ 19
    ∧ (StatusRegister.f x).q = x / 2 ^ 27 % 2
    ∧ (StatusRegister.f x).v = x / 2 ^ 28 % 2
    ∧ (StatusRegister.f x).c = x / 2 ^ 29 % 2
    ∧ (StatusRegister.f x).z = x / 2 ^ 30 % 2
    ∧ (∀ g : StatusRegisterFields,
        StatusRegister.v g
          = g.mode % 2 ^ 5 + g.thumb % 2 * 2 ^ 5 + g.mask_fiq % 2 * 2 ^ 6
            + g.mask_irq % 2 * 2 ^ 7 + g.reserved % 2 ^ 19 * 2 ^ 8 + g.q % 2 * 2 ^ 27
            + g.v % 2 * 2 ^ 28 + g.c % 2 * 2 ^ 29 + g.z % 2 * 2 ^ 30 + g.n % 2 * 2 ^ 31) := by
  refine ⟨by decide, rfl, by decide, by decide, ?_, ?_, ?_, ?_, ?_, ?_, ?_, ?_, ?_, ?_, ?_, ?_⟩
  · simp [StatusRegister.f, StatusRegister.field, StatusRegister.offset, StatusRegister.widths]
  · simp [StatusRegister.f, StatusRegister.field, StatusRegister.offset, StatusRegister.widths]
  · simp [StatusRegister.v, StatusRegister.f, StatusRegister.field, StatusRegister.place,
      StatusRegister.offset, StatusRegister.widths]
    norm_num at hx
    omega
  · simp [StatusRegister.f, StatusRegister.field, StatusRegister.offset, StatusRegister.widths]
  · simp [StatusRegister.f, StatusRegister.field, StatusRegister.offset, StatusRegister.widths]
  · simp [StatusRegister.f, StatusRegister.field, StatusRegister.offset, StatusRegister.widths]
  · simp [StatusRegister.f, StatusRegister.field, StatusRegister.offset, StatusRegister.widths]
  · simp [StatusRegister.f, StatusRegister.field, StatusRegister.offset, StatusRegister.widths]
  · simp [StatusRegister.f, StatusRegister.field, StatusRegister.offset, StatusRegister.widths]
  · simp [StatusRegister.f, StatusRegister.field, StatusRegister.offset, StatusRegister.widths]
  · simp [StatusRegister.f, StatusRegister.field, StatusRegister.offset, StatusRegister.widths]
  · intro g
    simp [StatusRegister.v, StatusRegister.place, StatusRegister.offset, StatusRegister.widths]

/-- Witness for C14: the word `0x6000001F` (System mode, flags Z and C set)
splits into its fields and packs back to itself. -/
theorem StatusRegister_layout_round_trip_witness :
    (List.range 10).map StatusRegister.offset = [0, 5, 6, 7, 8, 27, 28, 29, 30, 31]
    ∧ StatusRegister.widths = [5, 1, 1, 1, 19, 1, 1, 1, 1, 1]
    ∧ (∀ i, i < 10 →
        StatusRegister.offset (i + 1)
          = StatusRegister.offset i + StatusRegister.widths.getD i 0)
    ∧ StatusRegister.offset 10 = 32
    ∧ (StatusRegister.f 0x6000001F).mode = 0x6000001F % 2 ^ 5
    ∧ (StatusRegister.f 0x6000001F).n = 0x6000001F / 2 ^ 31 % 2
    ∧ StatusRegister.v (StatusRegister.f 0x6000001F) = 0x6000001F
    ∧ (StatusRegister.f 0x6000001F).thumb = 0x6000001F / 2 ^ 5 % 2
    ∧ (StatusRegister.f 0x6000001F).mask_fiq = 0x6000001F / 2 ^ 6 % 2
    ∧ (StatusRegister.f 0x6000001F).mask_irq = 0x6000001F / 2 ^ 7 % 2
    ∧ (StatusRegister.f 0x6000001F).reserved = 0x6000001F / 2 ^ 8 % 2 ^ 19
    ∧ (StatusRegister.f 0x6000001F).q = 0x6000001F / 2 ^ 27 % 2
    ∧ (StatusRegister.f 0x6000001F).v = 0x6000001F / 2 ^ 28 % 2
    ∧ (StatusRegister.f 0x6000001F).c = 0x6000001F / 2 ^ 29 % 2
    ∧ (StatusRegister.f 0x6000001F).z = 0x6000001F / 2 ^ 30 % 2
    ∧ (∀ g : StatusRegisterFields,
        StatusRegister.v g
          = g.mode % 2 ^ 5 + g.thumb % 2 * 2 ^ 5 + g.mask_fiq % 2 * 2 ^ 6
            + g.mask_irq % 2 * 2 ^ 7 + g.reserved % 2 ^ 19 * 2 ^ 8 + g.q % 2 * 2 ^ 27
            + g.v % 2 * 2 ^ 28 + g.c % 2 * 2 ^ 29 + g.z % 2 * 2 ^ 30 + g.n % 2 * 2 ^ 31) :=
  StatusRegister_layout_round_trip 0x6000001F (by norm_num)

/-! ## Theorems: register allocator, second part -/

/-- C15, as the code has it. For every variable of the block that no opcode
reads or writes, the pre-pass run by the constructor does not write the
lifetime table: `last_use[v]` stays at the value `resize` gave it, `0`. -/
theorem EvaluateVariableLifetimes_unreferenced (kSpillAreaSize : Nat) (emitter : IREmitter)
    (code : List X64Instr) (v : Nat) (hv : v < emitter.vars)
    (hnone : ∀ i, referencesAt emitter.code i v = false) :
    (X64RegisterAllocator.new kSpillAreaSize emitter code).var_id_to_point_of_last_use[v]?
      = some (0 : Int) := by
  unfold X64RegisterAllocator.new EvaluateVariableLifetimes
  have hexp : expirationPoint emitter.code v = -1 :=
    (expirationPoint_fold v emitter.code).2.2 hnone
  rw [(foldl_evaluateVariable _ _ v).2.2]
  simp only
  rw [if_neg (fun h => h.2.1 hexp)]
  simp [hv]

/-- Witness for C15: in a block of one opcode that defines variable 0, the
unreferenced variable 1 has `last_use[1] = 0`. -/
theorem EvaluateVariableLifetimes_unreferenced_witness :
    (X64RegisterAllocator.new 4 { vars := 2, code := [.Generic [] [0]] }
      []).var_id_to_point_of_last_use[1]? = some (0 : Int) :=
  EvaluateVariableLifetimes_unreferenced 4 { vars := 2, code := [.Generic [] [0]] } [] 1
    (by decide)
    (by
      intro i
      unfold referencesAt
      match i with
      | 0 => decide
      | i + 1 => simp)

/-- C15 as stated fails. In a block of one opcode that defines variable 0, no
opcode reads or writes variable 1, and `last_use[1]` is `0`, not `-1`. -/
theorem EvaluateVariableLifetimes_unreferenced_not_minus_one :
    (∀ i, i < 1 → referencesAt [IROpcode.Generic [] [0]] i 1 = false)
    ∧ (X64RegisterAllocator.new 4 { vars := 2, code := [.Generic [] [0]] }
        []).var_id_to_point_of_last_use[1]? = some (0 : Int)
    ∧ (X64RegisterAllocator.new 4 { vars := 2, code := [.Generic [] [0]] }
        []).var_id_to_point_of_last_use[1]? ≠ some (-1 : Int) := by
  decide

/-! ### `ReleaseDeadVariables`: postcondition and frame -/

theorem releaseVariable_rest (location : Nat) (a : X64RegisterAllocator) (v : Nat) :
    (releaseVariable location a v).free_host_regs
        = a.free_host_regs ++ (releasedReg a location v).toList
    ∧ (releaseVariable location a v).var_id_to_spill_slot = a.var_id_to_spill_slot
    ∧ (releaseVariable location a v).free_spill_bitmap = a.free_spill_bitmap
    ∧ (releaseVariable location a v).code = a.code := by
  unfold releaseVariable releasedReg
  simp only
  split
  · cases a.var_id_to_host_reg.getD v none <;> simp
  · simp

theorem releaseVariable_releasedReg (location : Nat) (a : X64RegisterAllocator) (v u : Nat)
    (h : v ≠ u) :
    releasedReg (releaseVariable location a v) location u = releasedReg a location u := by
  unfold releasedReg
  rw [(releaseVariable_frame location a v).2.1]
  have : (releaseVariable location a v).var_id_to_host_reg.getD u none
      = a.var_id_to_host_reg.getD u none := by
    rw [List.getD_eq_getElem?_getD, List.getD_eq_getElem?_getD, releaseVariable_host_reg,
      if_neg (fun hh => h hh.1)]
  rw [this]

/-- The loop of `ReleaseDeadVariables` over a duplicate-free list of variables
appends the released registers to the free pool in list order and leaves the
spill tables and the emitted code alone. -/
theorem foldl_releaseVariable_rest (location : Nat) (vs : List Nat) (hnd : vs.Nodup)
    (a : X64RegisterAllocator) :
    (vs.foldl (releaseVariable location) a).free_host_regs
        = a.free_host_regs ++ vs.filterMap (releasedReg a location)
    ∧ (vs.foldl (releaseVariable location) a).var_id_to_spill_slot = a.var_id_to_spill_slot
    ∧ (vs.foldl (releaseVariable location) a).free_spill_bitmap = a.free_spill_bitmap
    ∧ (vs.foldl (releaseVariable location) a).code = a.code := by
  induction vs generalizing a with
  | nil => simp
  | cons v vs ih =>
    simp only [List.foldl_cons]
    obtain ⟨hv, hnd'⟩ := List.nodup_cons.mp hnd
    obtain ⟨h1, h2, h3, h4⟩ := ih hnd' (releaseVariable location a v)
    obtain ⟨r1, r2, r3, r4⟩ := releaseVariable_rest location a v
    refine ⟨?_, h2.trans r2, h3.trans r3, h4.trans r4⟩
    rw [h1, r1, List.filterMap_cons]
    have hc : vs.filterMap (releasedReg (releaseVariable location a v) location)
        = vs.filterMap (releasedReg a location) := by
      apply List.filterMap_congr
      intro u hu
      exact releaseVariable_releasedReg location a v u (fun h => hv (h ▸ hu))
    rw [hc]
    cases releasedReg a location v <;> simp

/-- C18. After `ReleaseDeadVariables(i)` a variable holds a host register iff
it held one before and `last_use[v] ≥ i`; the registers of exactly the
variables with `last_use[v] < i` that held one are appended to the free pool
in variable-id order behind its earlier contents; spill records, the spill
bitmap and `last_use` are unchanged. -/
theorem ReleaseDeadVariables_post (a : X64RegisterAllocator) (i : Nat)
    (hwf : a.var_id_to_host_reg.length ≤ a.emitter.vars) :
    (∀ u r, (ReleaseDeadVariables a i).var_id_to_host_reg[u]? = some (some r) ↔
        a.var_id_to_host_reg[u]? = some (some r)
          ∧ (i : Int) ≤ a.var_id_to_point_of_last_use.getD u 0)
    ∧ (ReleaseDeadVariables a i).free_host_regs
        = a.free_host_regs ++ (List.range a.emitter.vars).filterMap (releasedReg a i)
    ∧ (ReleaseDeadVariables a i).var_id_to_spill_slot = a.var_id_to_spill_slot
    ∧ (ReleaseDeadVariables a i).free_spill_bitmap = a.free_spill_bitmap
    ∧ (ReleaseDeadVariables a i).var_id_to_point_of_last_use
        = a.var_id_to_point_of_last_use := by
  obtain ⟨p1, p2, p3, _⟩ :=
    foldl_releaseVariable_rest i (List.range a.emitter.vars) (List.nodup_range _) a
  refine ⟨?_, p1, p2, p3, (ReleaseDeadVariables_frame a i).2.1⟩
  intro u r
  unfold ReleaseDeadVariables
  rw [(foldl_releaseVariable i (List.range a.emitter.vars) a u).2.2.2.2]
  constructor
  · intro h
    by_cases hdead : (i : Int) > a.var_id_to_point_of_last_use.getD u 0
    · by_cases hlt : u < a.var_id_to_host_reg.length
      · rw [if_pos ⟨List.mem_range.mpr (by omega), hdead, hlt⟩] at h
        simp at h
      · rw [if_neg (fun ⟨_, _, hh⟩ => hlt hh), List.getElem?_eq_none (by omega)] at h
        simp at h
    · rw [if_neg (fun ⟨_, hh, _⟩ => hdead hh)] at h
      exact ⟨h, by omega⟩
  · rintro ⟨h, hlive⟩
    rw [if_neg (fun ⟨_, hh, _⟩ => by omega)]
    exact h

/-- Witness for C18: in `blockC3`, with variables 0 and 1 in registers,
releasing at opcode 2 appends the register of variable 0 (last use 1) to the
free pool. -/
theorem ReleaseDeadVariables_post_witness :
    (ReleaseDeadVariables
        (runCalls 32 (X64RegisterAllocator.new 32 blockC3 []) [(0, 0), (0, 1), (1, 1)])
        2).free_host_regs
      = (runCalls 32 (X64RegisterAllocator.new 32 blockC3 [])
          [(0, 0), (0, 1), (1, 1)]).free_host_regs
        ++ (List.range (runCalls 32 (X64RegisterAllocator.new 32 blockC3 [])
              [(0, 0), (0, 1), (1, 1)]).emitter.vars).filterMap
            (releasedReg (runCalls 32 (X64RegisterAllocator.new 32 blockC3 [])
              [(0, 0), (0, 1), (1, 1)]) 2) :=
  (ReleaseDeadVariables_post
    (runCalls 32 (X64RegisterAllocator.new 32 blockC3 []) [(0, 0), (0, 1), (1, 1)]) 2
    (by decide)).2.1

/-! ### `FindFreeHostReg`: the victim and the spill slot -/

/-- The victim loop stops at the first variable from `i` on that is not read
by the opcode and holds a register. -/
theorem findVictim_found (location : Nat) (a : X64RegisterAllocator) (reg : HostReg)
    (var_id : Nat) (n : Nat) :
    ∀ (i u : Nat) (r : HostReg), i ≤ u → u < i + n →
      a.var_id_to_host_reg.getD u none = some r →
      readsAt a.emitter.code location u = false →
      (∀ w, i ≤ w → w < u →
        readsAt a.emitter.code location w = true ∨ a.var_id_to_host_reg.getD w none = none) →
      findVictim location a reg var_id n i
        = ({ a with var_id_to_host_reg := a.var_id_to_host_reg.set u none }, r, u) := by
  induction n with
  | zero =>
    intro i u r h1 h2
    omega
  | succ n ih =>
    intro i u r h1 h2 hheld hnot hmin
    unfold findVictim
    by_cases hiu : i = u
    · subst hiu
      rw [hnot]
      simp only [Bool.false_eq_true, if_false]
      rw [hheld]
    · have hlt : i < u := by omega
      rcases hmin i (le_refl _) hlt with hr | hn
      · rw [hr]
        simp only [if_true]
        exact ih (i + 1) u r (by omega) (by omega) hheld hnot
          (fun w hw1 hw2 => hmin w (by omega) hw2)
      · by_cases hr : readsAt a.emitter.code location i = true
        · rw [hr]
          simp only [if_true]
          exact ih (i + 1) u r (by omega) (by omega) hheld hnot
            (fun w hw1 hw2 => hmin w (by omega) hw2)
        · rw [if_neg hr, hn]
          exact ih (i + 1) u r (by omega) (by omega) hheld hnot
            (fun w hw1 hw2 => hmin w (by omega) hw2)

/-- The spill loop stops at the first unused slot from `i` on. -/
theorem spillToFreeSlot_found (a : X64RegisterAllocator) (reg : HostReg) (var_id : Nat)
    (n : Nat) :
    ∀ (i s : Nat), i ≤ s → s < i + n →
      a.free_spill_bitmap.getD s false = false →
      (∀ j, i ≤ j → j < s → a.free_spill_bitmap.getD j false = true) →
      spillToFreeSlot a reg var_id n i
        = { a with
            free_spill_bitmap := a.free_spill_bitmap.set s true
            var_id_to_spill_slot := a.var_id_to_spill_slot.set var_id (some s)
            code := a.code ++ [X64Instr.mov_store (s * 4) reg] } := by
  induction n with
  | zero =>
    intro i s h1 h2
    omega
  | succ n ih =>
    intro i s h1 h2 hfree hmin
    unfold spillToFreeSlot
    by_cases his : i = s
    · subst his
      rw [hfree]
      simp
    · have hlt : i < s := by omega
      rw [hmin i (le_refl _) hlt]
      simp only [Bool.not_true, Bool.false_eq_true, if_false]
      exact ih (i + 1) s (by omega) (by omega) hfree (fun j hj1 hj2 => hmin j (by omega) hj2)

/-- C16. With an empty free pool `FindFreeHostReg(location)` takes as victim
the variable `u` with the smallest id among those that hold a host register
and are not read by the opcode at `location`; it removes that variable's
binding, marks the lowest-numbered unused spill slot `s` as used, records `s`
for the victim and emits a store of the victim's register to `rbp + 4 s`;
nothing else changes, in particular no other binding and no other spill
record. -/
theorem FindFreeHostReg_spills_victim (k : Nat) (a : X64RegisterAllocator)
    (location u s : Nat) (r : HostReg)
    (hpool : a.free_host_regs = [])
    (hu : u < a.number_of_vars)
    (hheld : a.var_id_to_host_reg[u]? = some (some r))
    (hnot : readsAt a.emitter.code location u = false)
    (hmin : ∀ w, w < u →
      readsAt a.emitter.code location w = true ∨ a.var_id_to_host_reg.getD w none = none)
    (hs : s < k)
    (hfree : a.free_spill_bitmap[s]? = some false)
    (hsmin : ∀ j, j < s → a.free_spill_bitmap[j]? = some true)
    (hrec : u < a.var_id_to_spill_slot.length) :
    (FindFreeHostReg k a location).1
      = { a with
          var_id_to_host_reg := a.var_id_to_host_reg.set u none
          free_spill_bitmap := a.free_spill_bitmap.set s true
          var_id_to_spill_slot := a.var_id_to_spill_slot.set u (some s)
          code := a.code ++ [X64Instr.mov_store (s * 4) r] }
    ∧ (FindFreeHostReg k a location).1.var_id_to_host_reg[u]? = some none
    ∧ (FindFreeHostReg k a location).1.free_spill_bitmap[s]? = some true
    ∧ (FindFreeHostReg k a location).1.var_id_to_spill_slot[u]? = some (some s)
    ∧ (∀ w, w ≠ u →
        (FindFreeHostReg k a location).1.var_id_to_host_reg[w]? = a.var_id_to_host_reg[w]?
        ∧ (FindFreeHostReg k a location).1.var_id_to_spill_slot[w]?
            = a.var_id_to_spill_slot[w]?) := by
  have hheld' : a.var_id_to_host_reg.getD u none = some r := by
    rw [List.getD_eq_getElem?_getD, hheld]
    rfl
  have hfree' : a.free_spill_bitmap.getD s false = false := by
    rw [List.getD_eq_getElem?_getD, hfree]
    rfl
  have hv := findVictim_found location a HostReg.eax 0 a.number_of_vars 0 u r (Nat.zero_le _)
    (by omega) hheld' hnot (fun w _ hw => hmin w hw)
  have hsp := spillToFreeSlot_found
    { a with var_id_to_host_reg := a.var_id_to_host_reg.set u none } r u k 0 s (Nat.zero_le _)
    (by omega) hfree' (fun j _ hj => by
      show a.free_spill_bitmap.getD j false = true
      rw [List.getD_eq_getElem?_getD, hsmin j hj]
      rfl)
  have hstate : (FindFreeHostReg k a location).1
      = { a with
          var_id_to_host_reg := a.var_id_to_host_reg.set u none
          free_spill_bitmap := a.free_spill_bitmap.set s true
          var_id_to_spill_slot := a.var_id_to_spill_slot.set u (some s)
          code := a.code ++ [X64Instr.mov_store (s * 4) r] } := by
    have hl : a.free_host_regs.getLast? = none := by
      rw [hpool]
      rfl
    unfold FindFreeHostReg
    rw [hl]
    simp only
    rw [hv]
    simp only
    rw [hsp]
  have hul : u < a.var_id_to_host_reg.length := (List.getElem?_eq_some_iff.mp hheld).1
  have hsl : s < a.free_spill_bitmap.length := (List.getElem?_eq_some_iff.mp hfree).1
  refine ⟨hstate, ?_, ?_, ?_, ?_⟩
  · rw [hstate]
    simp [hul]
  · rw [hstate]
    simp [hsl]
  · rw [hstate]
    simp [hrec]
  · intro w hw
    rw [hstate]
    simp only [List.getElem?_set]
    simp [Ne.symm hw]

/-- Witness for C16: at opcode 12 of `blockC1` the pool is empty, variables 0
and 1 are read by the opcode, variable 2 holds `r13d` and slot 0 is unused;
the victim is variable 2 and its spill record becomes slot 0. -/
theorem FindFreeHostReg_spills_victim_witness :
    (FindFreeHostReg 32 (runCalls 32 (X64RegisterAllocator.new 32 blockC1 []) callsC1)
        12).1.var_id_to_spill_slot[2]? = some (some 0) :=
  (FindFreeHostReg_spills_victim 32
    (runCalls 32 (X64RegisterAllocator.new 32 blockC1 []) callsC1) 12 2 0 HostReg.r13d
    (by decide) (by decide) (by decide) (by decide)
    (by
      intro w hw
      match w, hw with
      | 0, _ => exact Or.inl (by decide)
      | 1, _ => exact Or.inl (by decide))
    (by decide) (by decide)
    (by
      intro j hj
      omega)
    (by decide)).2.2.2.1

/-! ### `GetVariableHostReg`: reload -/

theorem findVictim_spill_tables (location : Nat) (a : X64RegisterAllocator) (reg : HostReg)
    (var_id n i : Nat) :
    (findVictim location a reg var_id n i).1.free_spill_bitmap = a.free_spill_bitmap
    ∧ (findVictim location a reg var_id n i).1.var_id_to_spill_slot
        = a.var_id_to_spill_slot := by
  induction n generalizing i with
  | zero => simp [findVictim]
  | succ n ih =>
    unfold findVictim
    split
    · exact ih (i + 1)
    · split
      · simp
      · exact ih (i + 1)

/-- The spill loop never clears a bit of the spill bitmap. -/
theorem spillToFreeSlot_keeps_used (a : X64RegisterAllocator) (reg : HostReg)
    (var_id n i j : Nat) (h : a.free_spill_bitmap[j]? = some true) :
    (spillToFreeSlot a reg var_id n i).free_spill_bitmap[j]? = some true := by
  induction n generalizing i with
  | zero => simpa [spillToFreeSlot] using h
  | succ n ih =>
    unfold spillToFreeSlot
    split
    · simp only [List.getElem?_set]
      have hj : j < a.free_spill_bitmap.length := (List.getElem?_eq_some_iff.mp h).1
      by_cases hij : i = j
      · subst hij
        simp [hj]
      · simp [hij, h]
    · exact ih (i + 1)

/-- `FindFreeHostReg` never clears a bit of the spill bitmap. -/
theorem FindFreeHostReg_keeps_used (k : Nat) (a : X64RegisterAllocator) (location j : Nat)
    (h : a.free_spill_bitmap[j]? = some true) :
    (FindFreeHostReg k a location).1.free_spill_bitmap[j]? = some true := by
  unfold FindFreeHostReg
  cases a.free_host_regs.getLast? with
  | some r => exact h
  | none =>
    simp only
    apply spillToFreeSlot_keeps_used
    rw [(findVictim_spill_tables location a HostReg.eax 0 a.number_of_vars 0).1]
    exact h

theorem ReleaseDeadVariables_rest (a : X64RegisterAllocator) (location : Nat) :
    (ReleaseDeadVariables a location).var_id_to_spill_slot = a.var_id_to_spill_slot
    ∧ (ReleaseDeadVariables a location).free_spill_bitmap = a.free_spill_bitmap
    ∧ (ReleaseDeadVariables a location).code = a.code := by
  obtain ⟨_, p2, p3, p4⟩ :=
    foldl_releaseVariable_rest location (List.range a.emitter.vars) (List.nodup_range _) a
  exact ⟨p2, p3, p4⟩

/-- C17. When variable `v` holds no host register, has spill slot `s` recorded
and the free pool is non-empty after the dead variables are released,
`GetVariableHostReg(v, i)` returns the register popped from the back of the
pool, emits a load from `rbp + 4 s` into it, marks slot `s` unused, clears the
spill record of `v` and binds `v` to the register.  A used spill slot becomes
unused only in such a reload: `ReleaseDeadVariables` leaves the bitmap and the
spill records alone. -/
theorem GetVariableHostReg_reload (k : Nat) (a : X64RegisterAllocator) (v i : Nat) :
    (∀ s reg, a.var_id_to_host_reg[v]? = some none →
      a.var_id_to_spill_slot[v]? = some (some s) →
      (ReleaseDeadVariables a i).free_host_regs.getLast? = some reg →
      GetVariableHostReg k a v i
        = ({ ReleaseDeadVariables a i with
              free_host_regs := (ReleaseDeadVariables a i).free_host_regs.dropLast
              code := a.code ++ [X64Instr.mov_load reg (s * 4)]
              free_spill_bitmap := a.free_spill_bitmap.set s false
              var_id_to_spill_slot := a.var_id_to_spill_slot.set v none
              var_id_to_host_reg :=
                (ReleaseDeadVariables a i).var_id_to_host_reg.set v (some reg) },
            .ok reg)
      ∧ (GetVariableHostReg k a v i).1.var_id_to_host_reg[v]? = some (some reg)
      ∧ (GetVariableHostReg k a v i).1.var_id_to_spill_slot[v]? = some none)
    ∧ (∀ s, a.free_spill_bitmap[s]? = some true →
        (GetVariableHostReg k a v i).1.free_spill_bitmap[s]? = some false →
        a.var_id_to_host_reg.getD v none = none
        ∧ a.var_id_to_spill_slot.getD v none = some s
        ∧ ∃ reg, (GetVariableHostReg k a v i).2 = .ok reg)
    ∧ (ReleaseDeadVariables a i).free_spill_bitmap = a.free_spill_bitmap
    ∧ (ReleaseDeadVariables a i).var_id_to_spill_slot = a.var_id_to_spill_slot := by
  obtain ⟨r1, r2, r3⟩ := ReleaseDeadVariables_rest a i
  refine ⟨?_, ?_, r2, r1⟩
  · intro s reg hnone hspill hpool
    have hnone' : a.var_id_to_host_reg.getD v none = none := by
      rw [List.getD_eq_getElem?_getD, hnone]
      rfl
    have hstate : GetVariableHostReg k a v i
        = ({ ReleaseDeadVariables a i with
              free_host_regs := (ReleaseDeadVariables a i).free_host_regs.dropLast
              code := a.code ++ [X64Instr.mov_load reg (s * 4)]
              free_spill_bitmap := a.free_spill_bitmap.set s false
              var_id_to_spill_slot := a.var_id_to_spill_slot.set v none
              var_id_to_host_reg :=
                (ReleaseDeadVariables a i).var_id_to_host_reg.set v (some reg) },
            .ok reg) := by
      unfold GetVariableHostReg
      rw [hnone']
      simp only
      unfold FindFreeHostReg
      rw [hpool]
      simp only
      unfold restoreSpilled
      simp only [r1, r2, r3]
      have : a.var_id_to_spill_slot.getD v none = some s := by
        rw [List.getD_eq_getElem?_getD, hspill]
        rfl
      rw [this]
    have hvl : v < (ReleaseDeadVariables a i).var_id_to_host_reg.length := by
      rw [(ReleaseDeadVariables_frame a i).2.2]
      exact (List.getElem?_eq_some_iff.mp hnone).1
    have hsl : v < a.var_id_to_spill_slot.length := (List.getElem?_eq_some_iff.mp hspill).1
    refine ⟨hstate, ?_, ?_⟩
    · rw [hstate]
      simp [hvl]
    · rw [hstate]
      simp [hsl]
  · intro s hused hfreed
    unfold GetVariableHostReg at hfreed ⊢
    cases hg : a.var_id_to_host_reg.getD v none with
    | some r =>
      rw [hg] at hfreed
      simp only at hfreed
      rw [hused] at hfreed
      simp at hfreed
    | none =>
      rw [hg] at hfreed
      simp only at hfreed ⊢
      have hk := FindFreeHostReg_keeps_used k (ReleaseDeadVariables a i) i s (by rw [r2]; exact hused)
      have hsp := (FindFreeHostReg_frame k (ReleaseDeadVariables a i) i)
      rcases hf : FindFreeHostReg k (ReleaseDeadVariables a i) i with ⟨a2, res⟩
      rw [hf] at hfreed hk
      simp only at hk
      cases res with
      | error e =>
        simp only at hfreed
        rw [hk] at hfreed
        simp at hfreed
      | ok reg =>
        simp only at hfreed ⊢
        have hok := FindFreeHostReg_ok k (ReleaseDeadVariables a i) i reg (by rw [hf])
        rw [hf] at hok
        simp only at hok
        have hsa : a2.var_id_to_spill_slot = a.var_id_to_spill_slot := by rw [hok.2]; exact r1
        refine ⟨trivial, ?_, reg, rfl⟩
        unfold restoreSpilled at hfreed
        rw [hsa] at hfreed
        cases hs : a.var_id_to_spill_slot.getD v none with
        | none =>
          rw [hs] at hfreed
          simp only at hfreed
          rw [hk] at hfreed
          simp at hfreed
        | some slot =>
          rw [hs] at hfreed
          simp only [List.getElem?_set] at hfreed
          by_cases hss : slot = s
          · rw [hss]
          · rw [if_neg hss, hk] at hfreed
            simp at hfreed

/-- Witness for C17: in `blockC1`, after the failing call for variable 12 at
opcode 12 spilled variable 2 to slot 0, the call for variable 2 at opcode 13
releases variables 0 and 1, pops `r14d` and reloads variable 2 into it. -/
theorem GetVariableHostReg_reload_witness :
    (GetVariableHostReg 32
        (runCalls 32 (X64RegisterAllocator.new 32 blockC1 []) (callsC1 ++ [(12, 12)]))
        2 13).1.var_id_to_host_reg[2]? = some (some HostReg.r14d) :=
  ((GetVariableHostReg_reload 32
      (runCalls 32 (X64RegisterAllocator.new 32 blockC1 []) (callsC1 ++ [(12, 12)]))
      2 13).1 0 HostReg.r14d (by decide) (by decide) (by decide)).2.1

/-! ### Host-register conservation -/

theorem filterMap_set_none_perm {α : Type} (l : List (Option α)) (v : Nat) (r : α)
    (h : l[v]? = some (some r)) :
    List.Perm (r :: (l.set v none).filterMap id) (l.filterMap id) := by
  induction l generalizing v with
  | nil => simp at h
  | cons x l ih =>
    cases v with
    | zero =>
      simp only [List.getElem?_cons_zero, Option.some.injEq] at h
      subst h
      simp
    | succ v =>
      simp only [List.getElem?_cons_succ] at h
      have := ih v h
      cases x with
      | none => simpa using this
      | some y =>
        simp only [List.set_cons_succ, List.filterMap_cons_some, id_eq]
        exact (List.Perm.swap y r _).trans (List.Perm.cons y this)

theorem filterMap_set_some_perm {α : Type} (l : List (Option α)) (v : Nat) (r : α)
    (h : l[v]? = some none) :
    List.Perm ((l.set v (some r)).filterMap id) (r :: l.filterMap id) := by
  induction l generalizing v with
  | nil => simp at h
  | cons x l ih =>
    cases v with
    | zero =>
      simp only [List.getElem?_cons_zero, Option.some.injEq] at h
      subst h
      simp
    | succ v =>
      simp only [List.getElem?_cons_succ] at h
      have := ih v h
      cases x with
      | none => simpa using this
      | some y =>
        simp only [List.set_cons_succ, List.filterMap_cons_some, id_eq]
        exact (List.Perm.cons y this).trans (List.Perm.swap r y _)

theorem filterMap_nodup_index {α : Type} (l : List (Option α)) (u w : Nat) (r : α)
    (hnd : (l.filterMap id).Nodup) (hu : l[u]? = some (some r)) (hw : l[w]? = some (some r)) :
    u = w := by
  induction l generalizing u w with
  | nil => simp at hu
  | cons x l ih =>
    have hmem : ∀ n : Nat, l[n]? = some (some r) → r ∈ l.filterMap id := by
      intro n hn
      rw [List.mem_filterMap]
      exact ⟨some r, List.getElem?_mem hn, rfl⟩
    cases u with
    | zero =>
      cases w with
      | zero => rfl
      | succ w =>
        simp only [List.getElem?_cons_zero, Option.some.injEq] at hu
        simp only [List.getElem?_cons_succ] at hw
        subst hu
        have hnd1 : (r :: l.filterMap id).Nodup := hnd
        exact absurd (hmem w hw) (List.nodup_cons.mp hnd1).1
    | succ u =>
      cases w with
      | zero =>
        simp only [List.getElem?_cons_zero, Option.some.injEq] at hw
        simp only [List.getElem?_cons_succ] at hu
        subst hw
        have hnd1 : (r :: l.filterMap id).Nodup := hnd
        exact absurd (hmem u hu) (List.nodup_cons.mp hnd1).1
      | succ w =>
        simp only [List.getElem?_cons_succ] at hu hw
        have hnd' : (l.filterMap id).Nodup := by
          cases x with
          | none => simpa using hnd
          | some y =>
            have hnd1 : (y :: l.filterMap id).Nodup := hnd
            exact (List.nodup_cons.mp hnd1).2
        rw [ih u w hnd' hu hw]

theorem getD_eq_some_iff {α : Type} (l : List (Option α)) (v : Nat) (r : α) :
    l.getD v none = some r ↔ l[v]? = some (some r) := by
  rw [List.getD_eq_getElem?_getD]
  cases h : l[v]? with
  | none => simp
  | some x => simp

theorem releaseVariable_perm (location : Nat) (a : X64RegisterAllocator) (v : Nat) :
    List.Perm
      (boundRegs (releaseVariable location a v) ++ (releaseVariable location a v).free_host_regs)
      (boundRegs a ++ a.free_host_regs) := by
  unfold releaseVariable boundRegs
  simp only
  split
  · cases hg : a.var_id_to_host_reg.getD v none with
    | none => exact List.Perm.refl _
    | some reg =>
      simp only
      have h := filterMap_set_none_perm a.var_id_to_host_reg v reg
        ((getD_eq_some_iff _ _ _).mp hg)
      have h1 : List.Perm
          ((a.var_id_to_host_reg.set v none).filterMap id ++ (a.free_host_regs ++ [reg]))
          (reg :: ((a.var_id_to_host_reg.set v none).filterMap id ++ a.free_host_regs)) := by
        rw [← List.append_assoc]
        exact List.perm_append_singleton _ _
      exact h1.trans (List.Perm.append_right a.free_host_regs h)
  · exact List.Perm.refl _

theorem ReleaseDeadVariables_perm (a : X64RegisterAllocator) (location : Nat) :
    List.Perm
      (boundRegs (ReleaseDeadVariables a location)
        ++ (ReleaseDeadVariables a location).free_host_regs)
      (boundRegs a ++ a.free_host_regs) := by
  unfold ReleaseDeadVariables
  generalize List.range a.emitter.vars = vs
  induction vs generalizing a with
  | nil => exact List.Perm.refl _
  | cons v vs ih =>
    simp only [List.foldl_cons]
    exact (ih (releaseVariable location a v)).trans (releaseVariable_perm location a v)

theorem restoreSpilled_free_host_regs (a : X64RegisterAllocator) (var : Nat) (reg : HostReg) :
    (restoreSpilled a var reg).free_host_regs = a.free_host_regs := by
  unfold restoreSpilled
  split <;> rfl

/-- A returning `GetVariableHostReg` for a variable of the block only moves
registers between the free pool and the bindings. -/
theorem GetVariableHostReg_perm (k : Nat) (a : X64RegisterAllocator) (v i : Nat)
    (reg : HostReg) (hv : v < a.var_id_to_host_reg.length)
    (hret : (GetVariableHostReg k a v i).2 = .ok reg) :
    List.Perm
      (boundRegs (GetVariableHostReg k a v i).1 ++ (GetVariableHostReg k a v i).1.free_host_regs)
      (boundRegs a ++ a.free_host_regs) := by
  unfold GetVariableHostReg at hret ⊢
  cases hg : a.var_id_to_host_reg.getD v none with
  | some r => exact List.Perm.refl _
  | none =>
    rw [hg] at hret
    simp only at hret ⊢
    rcases hf : FindFreeHostReg k (ReleaseDeadVariables a i) i with ⟨a2, res⟩
    rw [hf] at hret
    cases res with
    | error e => simp at hret
    | ok reg2 =>
      simp only
      have hok := FindFreeHostReg_ok k (ReleaseDeadVariables a i) i reg2 (by rw [hf])
      rw [hf] at hok
      simp only at hok
      obtain ⟨hlast, ha2⟩ := hok
      have hnone : (ReleaseDeadVariables a i).var_id_to_host_reg[v]? = some none := by
        have hav : a.var_id_to_host_reg[v]? = some none := by
          rw [List.getD_eq_getElem?_getD, List.getElem?_eq_getElem hv] at hg
          rw [List.getElem?_eq_getElem hv]
          simpa using hg
        unfold ReleaseDeadVariables
        rw [(foldl_releaseVariable i (List.range a.emitter.vars) a v).2.2.2.2, hav]
        simp
      have hpool : (ReleaseDeadVariables a i).free_host_regs
          = (ReleaseDeadVariables a i).free_host_regs.dropLast ++ [reg2] :=
        (List.dropLast_append_getLast? reg2 hlast).symm
      unfold boundRegs
      rw [(restoreSpilled_frame a2 v reg2).2.2, restoreSpilled_free_host_regs, ha2]
      simp only
      have h1 := filterMap_set_some_perm (ReleaseDeadVariables a i).var_id_to_host_reg v reg2
        hnone
      have h2 : List.Perm
          (((ReleaseDeadVariables a i).var_id_to_host_reg.set v (some reg2)).filterMap id
            ++ (ReleaseDeadVariables a i).free_host_regs.dropLast)
          ((ReleaseDeadVariables a i).var_id_to_host_reg.filterMap id
            ++ (ReleaseDeadVariables a i).free_host_regs) := by
        have h3 := List.Perm.append_right (ReleaseDeadVariables a i).free_host_regs.dropLast h1
        refine h3.trans ?_
        rw [List.cons_append]
        refine (List.perm_append_singleton reg2 _).symm.trans ?_
        rw [List.append_assoc, ← hpool]
      exact h2.trans (ReleaseDeadVariables_perm a i)

theorem evaluateVariable_free_host_regs (a : X64RegisterAllocator) (v : Nat) :
    (evaluateVariable a v).free_host_regs = a.free_host_regs := by
  unfold evaluateVariable
  simp only
  split <;> rfl

theorem foldl_evaluateVariable_free_host_regs (vs : List Nat) (a : X64RegisterAllocator) :
    (vs.foldl evaluateVariable a).free_host_regs = a.free_host_regs := by
  induction vs generalizing a with
  | nil => rfl
  | cons v vs ih =>
    simp only [List.foldl_cons]
    rw [ih, evaluateVariable_free_host_regs]

theorem new_conserves (k : Nat) (emitter : IREmitter) (code : List X64Instr) :
    boundRegs (X64RegisterAllocator.new k emitter code)
      ++ (X64RegisterAllocator.new k emitter code).free_host_regs = initialPool := by
  unfold boundRegs X64RegisterAllocator.new EvaluateVariableLifetimes
  rw [foldl_evaluateVariable_host_reg, foldl_evaluateVariable_free_host_regs]
  simp only
  have : (List.replicate emitter.vars (none : Option HostReg)).filterMap id = [] := by
    induction emitter.vars with
    | zero => rfl
    | succ n _ => simp [List.replicate_succ]
  rw [this]
  rfl

/-- Calls that all return keep the registers: bindings and free pool together
are a rearrangement of the pool the state started with. -/
theorem runReturning_perm (k : Nat) (calls : List (Nat × Nat)) :
    ∀ (a s : X64RegisterAllocator),
      (∀ c, c ∈ calls → c.1 < a.var_id_to_host_reg.length) →
      runReturning k a calls = some s →
      List.Perm (boundRegs s ++ s.free_host_regs) (boundRegs a ++ a.free_host_regs) := by
  induction calls with
  | nil =>
    intro a s _ h
    simp only [runReturning, Option.some.injEq] at h
    subst h
    exact List.Perm.refl _
  | cons c rest ih =>
    intro a s hv h
    obtain ⟨v, i⟩ := c
    unfold runReturning at h
    have hvl : v < a.var_id_to_host_reg.length := hv (v, i) (List.mem_cons_self _ _)
    have hp := GetVariableHostReg_perm k a v i
    have hlen := (GetVariableHostReg_frame k a v i).2.2
    rcases hg : GetVariableHostReg k a v i with ⟨a1, res⟩
    rw [hg] at h hp hlen
    cases res with
    | error e => simp at h
    | ok reg =>
      simp only at h hp hlen
      have h1 := ih a1 s (fun c hc => by
        rw [hlen]
        exact hv c (List.mem_cons_of_mem _ hc)) h
      exact h1.trans (hp reg hvl rfl)

/-- C19. In every allocator state reached from construction by calls of
`GetVariableHostReg` (for variables of the block) that all return, the bound
registers together with the free pool are exactly the twelve registers of the
initial pool, the registers bound to different variables are different, none
of them is in the free pool, and none is `eax`, `ecx`, `ebp` or `esp`. -/
theorem host_register_conservation (k : Nat) (emitter : IREmitter) (code : List X64Instr)
    (calls : List (Nat × Nat)) (s : X64RegisterAllocator)
    (hvalid : ∀ c, c ∈ calls → c.1 < emitter.vars)
    (hrun : runReturning k (X64RegisterAllocator.new k emitter code) calls = some s) :
    List.Perm (boundRegs s ++ s.free_host_regs) initialPool
    ∧ (∀ (u w : Nat) (r : HostReg), s.var_id_to_host_reg[u]? = some (some r) →
        s.var_id_to_host_reg[w]? = some (some r) → u = w)
    ∧ (∀ (u : Nat) (r : HostReg), s.var_id_to_host_reg[u]? = some (some r) →
        r ∉ s.free_host_regs)
    ∧ (∀ (u : Nat) (r : HostReg), s.var_id_to_host_reg[u]? = some (some r) →
        r ≠ HostReg.eax ∧ r ≠ HostReg.ecx ∧ r ≠ HostReg.ebp ∧ r ≠ HostReg.esp) := by
  have hperm : List.Perm (boundRegs s ++ s.free_host_regs) initialPool := by
    have := runReturning_perm k calls (X64RegisterAllocator.new k emitter code) s
      (fun c hc => by rw [(new_shape k emitter code).2.1]; exact hvalid c hc) hrun
    rwa [new_conserves] at this
  have hnd : (boundRegs s ++ s.free_host_regs).Nodup :=
    hperm.nodup_iff.mpr (by decide)
  have hmem : ∀ (u : Nat) (r : HostReg), s.var_id_to_host_reg[u]? = some (some r) →
      r ∈ boundRegs s := by
    intro u r h
    unfold boundRegs
    rw [List.mem_filterMap]
    exact ⟨some r, List.getElem?_mem h, rfl⟩
  refine ⟨hperm, ?_, ?_, ?_⟩
  · intro u w r hu hw
    exact filterMap_nodup_index s.var_id_to_host_reg u w r (List.nodup_append.mp hnd).1 hu hw
  · intro u r hu hin
    exact (List.nodup_append.mp hnd).2.2 (hmem u r hu) hin
  · intro u r hu
    have hin : r ∈ initialPool :=
      hperm.subset (List.mem_append_left _ (hmem u r hu))
    refine ⟨?_, ?_, ?_, ?_⟩ <;>
    · intro h
      subst h
      revert hin
      decide

/-- Witness for C19: the fourteen returning calls of `callsC1` on `blockC1`
bind all twelve registers of the pool. -/
theorem host_register_conservation_witness :
    List.Perm
      (boundRegs (runCalls 32 (X64RegisterAllocator.new 32 blockC1 []) callsC1)
        ++ (runCalls 32 (X64RegisterAllocator.new 32 blockC1 []) callsC1).free_host_regs)
      initialPool :=
  (host_register_conservation 32 blockC1 [] callsC1
    (runCalls 32 (X64RegisterAllocator.new 32 blockC1 []) callsC1)
    (by decide) (by decide)).1

/-! ## Theorems: pool allocator -/

/-! ### Heap and doubly linked segments -/

@[simp] theorem PoolHeap.store_same (heap : PoolHeap) (a : Nat) (p : Pool) :
    (heap.store a p) a = some p := by
  simp [PoolHeap.store]

@[simp] theorem PoolHeap.store_other (heap : PoolHeap) (a b : Nat) (p : Pool) (h : b ≠ a) :
    (heap.store a p) b = heap b := by
  simp [PoolHeap.store, h]

theorem firstOr_append (l1 l2 : List Nat) (d : Option Nat) :
    firstOr (l1 ++ l2) d = firstOr l1 (firstOr l2 d) := by
  cases l1 <;> rfl

theorem lastOr_append (l1 l2 : List Nat) (d : Option Nat) :
    lastOr (l1 ++ l2) d = lastOr l2 (lastOr l1 d) := by
  induction l1 generalizing d with
  | nil => rfl
  | cons x xs ih => exact ih (some x)

theorem lastOr_snoc (l : List Nat) (x : Nat) (d : Option Nat) :
    lastOr (l ++ [x]) d = some x := by
  rw [lastOr_append]
  rfl

/-- A segment only depends on the pools it lists. -/
theorem Seg.frame {heap heap' : PoolHeap} {prev nxt : Option Nat} {l : List Nat}
    (hf : ∀ a, a ∈ l → heap' a = heap a) (h : Seg heap prev l nxt) : Seg heap' prev l nxt := by
  induction l generalizing prev with
  | nil => trivial
  | cons p rest ih =>
    obtain ⟨pool, hp, h1, h2, h3⟩ := h
    refine ⟨pool, ?_, h1, h2, ih (fun a ha => hf a (List.mem_cons_of_mem _ ha)) h3⟩
    rw [hf p (List.mem_cons_self _ _)]
    exact hp

theorem Seg.append_iff (heap : PoolHeap) (prev nxt : Option Nat) (l1 l2 : List Nat) :
    Seg heap prev (l1 ++ l2) nxt ↔
      Seg heap prev l1 (firstOr l2 nxt) ∧ Seg heap (lastOr l1 prev) l2 nxt := by
  induction l1 generalizing prev with
  | nil => simp [Seg, lastOr]
  | cons p rest ih =>
    show Seg heap prev (p :: (rest ++ l2)) nxt ↔ _
    constructor
    · rintro ⟨pool, h1, h2, h3, h4⟩
      rw [firstOr_append] at h3
      obtain ⟨a, b⟩ := (ih (some p)).mp h4
      exact ⟨⟨pool, h1, h2, h3, a⟩, b⟩
    · rintro ⟨⟨pool, h1, h2, h3, h4⟩, h5⟩
      exact ⟨pool, h1, h2, by rw [firstOr_append]; exact h3, (ih (some p)).mpr ⟨h4, h5⟩⟩

/-- Every pool of a segment is allocated. -/
theorem Seg.allocated {heap : PoolHeap} {prev nxt : Option Nat} {l : List Nat}
    (h : Seg heap prev l nxt) (a : Nat) (ha : a ∈ l) : ∃ pool, heap a = some pool := by
  induction l generalizing prev with
  | nil => simp at ha
  | cons p rest ih =>
    obtain ⟨pool, hp, _, _, h3⟩ := h
    rcases List.mem_cons.mp ha with rfl | h'
    · exact ⟨pool, hp⟩
    · exact ih h3 h'

/-- Storing a new `prev` into the first pool of a segment. -/
theorem Seg.store_prev {heap : PoolHeap} {prev nxt : Option Nat} {h : Nat} {l : List Nat}
    {q : Pool} (hq : heap h = some q) (hn : h ∉ l) (prev' : Option Nat)
    (hs : Seg heap prev (h :: l) nxt) :
    Seg (heap.store h { q with prev := prev' }) prev' (h :: l) nxt := by
  obtain ⟨pool, hp, _, h2, h3⟩ := hs
  rw [hq] at hp
  cases hp
  refine ⟨{ q with prev := prev' }, by simp, rfl, h2, ?_⟩
  exact Seg.frame (fun a ha => PoolHeap.store_other _ _ _ _ (fun e => hn (e ▸ ha))) h3

/-- Storing a new `next` into the last pool of a segment. -/
theorem Seg.store_next {heap : PoolHeap} {prev nxt : Option Nat} {t : Nat} {l : List Nat}
    {q : Pool} (hq : heap t = some q) (hn : t ∉ l) (nxt' : Option Nat)
    (hs : Seg heap prev (l ++ [t]) nxt) :
    Seg (heap.store t { q with next := nxt' }) prev (l ++ [t]) nxt' := by
  rw [Seg.append_iff] at hs ⊢
  obtain ⟨h1, pool, hp, h2, _, _⟩ := hs
  rw [hq] at hp
  cases hp
  refine ⟨?_, { q with next := nxt' }, by simp, h2, rfl, trivial⟩
  exact Seg.frame (fun a ha => PoolHeap.store_other _ _ _ _ (fun e => hn (e ▸ ha))) h1

theorem SameContents.refl (heap : PoolHeap) : SameContents heap heap := fun _ => rfl

theorem SameContents.trans {h1 h2 h3 : PoolHeap} (a : SameContents h1 h2)
    (b : SameContents h2 h3) : SameContents h1 h3 := fun x => (b x).trans (a x)

theorem SameContents.store {heap : PoolHeap} {a : Nat} {q r : Pool} (hq : heap a = some q)
    (hc : r.contents = q.contents) : SameContents heap (heap.store a r) := by
  intro b
  by_cases hb : b = a
  · subst hb
    simp [hq, hc]
  · simp [hb]

theorem lastOr_cons_cons (x y : Nat) (ys : List Nat) (d d' : Option Nat) :
    lastOr (x :: y :: ys) d = lastOr (y :: ys) d' := rfl

/-- `List::Remove` of a pool of a well-formed list unlinks exactly that pool:
the other pools stay linked in their order, pools outside the list are not
touched, and only links are written. -/
theorem PoolList.Remove_spec (heap : PoolHeap) (l : PoolList) (l1 l2 : List Nat) (p : Nat)
    (hnd : (l1 ++ p :: l2).Nodup) (hl : IsList heap l (l1 ++ p :: l2)) :
    ∃ heap' l', PoolList.Remove heap l p = some (heap', l')
      ∧ IsList heap' l' (l1 ++ l2)
      ∧ (∀ a, a ∉ l1 ++ l2 → heap' a = heap a)
      ∧ SameContents heap heap' := by
  obtain ⟨hhead, htail, hseg⟩ := hl
  rw [Seg.append_iff] at hseg
  obtain ⟨hs1, P, hP, hPprev, hPnext, hs2⟩ := hseg
  have hnd1 : l1.Nodup := (List.nodup_append.mp hnd).1
  have hnd2 : (p :: l2).Nodup := (List.nodup_append.mp hnd).2.1
  have hdis : ∀ a, a ∈ l1 → a ∉ p :: l2 := fun a ha hb => (List.nodup_append.mp hnd).2.2 ha hb
  have hp1 : p ∉ l1 := fun h => hdis p h (List.mem_cons_self _ _)
  have hp2 : p ∉ l2 := (List.nodup_cons.mp hnd2).1
  have hnd2' : l2.Nodup := (List.nodup_cons.mp hnd2).2
  rcases List.eq_nil_or_concat l1 with rfl | ⟨L, t, hLt⟩
  · -- `p` is the head
    simp only [lastOr] at hPprev
    cases l2 with
    | nil =>
      simp only [firstOr] at hPnext
      refine ⟨heap, { head := none, tail := none }, ?_, ⟨rfl, rfl, trivial⟩,
        fun _ _ => rfl, SameContents.refl heap⟩
      simp [PoolList.Remove, hP, hPprev, hPnext]
    | cons n l2' =>
      simp only [firstOr] at hPnext
      obtain ⟨q, hq⟩ := Seg.allocated hs2 n (List.mem_cons_self _ _)
      have hnp : n ≠ p := fun e => hp2 (e ▸ List.mem_cons_self _ _)
      have hn2 : n ∉ l2' := (List.nodup_cons.mp hnd2').1
      refine ⟨(heap.store n { q with prev := none }).store n { q with prev := none },
        { l with head := some n }, ?_, ⟨rfl, ?_, ?_⟩, ?_, ?_⟩
      · simp [PoolList.Remove, hP, hPprev, hPnext, hq, Ne.symm hnp]
      · simp only [List.nil_append] at htail ⊢
        rw [htail]
        rfl
      · simp only [List.nil_append]
        have h1 := Seg.store_prev hq hn2 none hs2
        exact Seg.store_prev (q := { q with prev := none }) (by simp) hn2 none h1
      · intro a ha
        have : a ≠ n := fun e => ha (by simp [e])
        simp [this]
      · exact (SameContents.store (r := { q with prev := none }) hq rfl).trans
          (@SameContents.store (heap.store n { q with prev := none }) n
            { q with prev := none } { q with prev := none } (by simp) rfl)
  · -- `p` has the predecessor `t`
    rw [List.concat_eq_append] at hLt
    subst hLt
    rw [lastOr_snoc] at hPprev
    obtain ⟨qt, hqt⟩ := Seg.allocated hs1 t (List.mem_append_right _ (List.mem_singleton_self _))
    have htp : t ≠ p := fun e => hp1 (e ▸ List.mem_append_right _ (List.mem_singleton_self _))
    have htL : t ∉ L := by
      intro h
      have := List.nodup_append.mp hnd1
      exact this.2.2 h (List.mem_singleton_self _)
    cases l2 with
    | nil =>
      simp only [firstOr] at hPnext hs1
      refine ⟨(heap.store t { qt with next := none }).store t { qt with next := none },
        { l with tail := some t }, ?_, ⟨?_, ?_, ?_⟩, ?_, ?_⟩
      · simp [PoolList.Remove, hP, hPprev, hPnext, hqt, Ne.symm htp]
      · simp only [List.append_nil]
        rw [hhead, firstOr_append, firstOr_append]
        cases L <;> rfl
      · simp only [List.append_nil]
        rw [lastOr_snoc]
      · simp only [List.append_nil]
        have h1 := Seg.store_next hqt htL none hs1
        exact Seg.store_next (q := { qt with next := none }) (by simp) htL none h1
      · intro a ha
        have : a ≠ t := fun e => ha (by simp [e])
        simp [this]
      · exact (SameContents.store (r := { qt with next := none }) hqt rfl).trans
          (@SameContents.store (heap.store t { qt with next := none }) t
            { qt with next := none } { qt with next := none } (by simp) rfl)
    | cons n l2' =>
      simp only [firstOr] at hPnext hs1
      obtain ⟨qn, hqn⟩ := Seg.allocated hs2 n (List.mem_cons_self _ _)
      have hnp : n ≠ p := fun e => hp2 (e ▸ List.mem_cons_self _ _)
      have hn2 : n ∉ l2' := (List.nodup_cons.mp hnd2').1
      have htn : t ≠ n := fun e =>
        hdis t (List.mem_append_right _ (List.mem_singleton_self _))
          (List.mem_cons_of_mem _ (e ▸ List.mem_cons_self _ _))
      have hnLt : n ∉ L ++ [t] := fun h =>
        hdis n h (List.mem_cons_of_mem _ (List.mem_cons_self _ _))
      have ht2 : t ∉ n :: l2' := fun h =>
        hdis t (List.mem_append_right _ (List.mem_singleton_self _)) (List.mem_cons_of_mem _ h)
      refine ⟨(heap.store n { qn with prev := some t }).store t { qt with next := some n },
        l, ?_, ⟨?_, ?_, ?_⟩, ?_, ?_⟩
      · simp [PoolList.Remove, hP, hPprev, hPnext, hqn, hqt, Ne.symm hnp, Ne.symm htp, htn]
      · rw [hhead, firstOr_append, firstOr_append]
        cases L <;> rfl
      · rw [htail]
        simp only [lastOr_append]
        rfl
      · rw [Seg.append_iff, lastOr_snoc]
        constructor
        · have h1 : Seg (heap.store n { qn with prev := some t }) none (L ++ [t]) (some p) :=
            Seg.frame (fun a ha => PoolHeap.store_other _ _ _ _ (fun e => hnLt (e ▸ ha))) hs1
          exact Seg.store_next (by simp [htn, hqt]) htL (some n) h1
        · have h1 := Seg.store_prev hqn hn2 (some t) hs2
          exact Seg.frame (fun a ha => PoolHeap.store_other _ _ _ _ (fun e => ht2 (e ▸ ha))) h1
      · intro a ha
        have h1 : a ≠ n := fun e => ha (by simp [e])
        have h2 : a ≠ t := fun e => ha (by simp [e])
        simp [h1, h2]
      · exact (SameContents.store (r := { qn with prev := some t }) hqn rfl).trans
          (@SameContents.store (heap.store n { qn with prev := some t }) t
            qt { qt with next := some n } (by simp [htn, hqt]) rfl)

/-- `List::Append` of an allocated pool that is not on a well-formed list puts
it behind the last pool; pools outside the list are not touched and only
links are written. -/
theorem PoolList.Append_spec (heap : PoolHeap) (l : PoolList) (ps : List Nat) (p : Nat)
    (P : Pool) (hP : heap p = some P) (hp : p ∉ ps) (hnd : ps.Nodup)
    (hl : IsList heap l ps) :
    ∃ heap' l', PoolList.Append heap l p = some (heap', l')
      ∧ IsList heap' l' (ps ++ [p])
      ∧ (∀ a, a ∉ ps ++ [p] → heap' a = heap a)
      ∧ SameContents heap heap' := by
  obtain ⟨hhead, htail, hseg⟩ := hl
  rcases List.eq_nil_or_concat ps with rfl | ⟨L, t, hLt⟩
  · simp only [firstOr] at hhead
    refine ⟨(heap.store p { P with prev := none }).store p { P with prev := none, next := none },
      { head := some p, tail := some p }, ?_, ⟨rfl, rfl, ?_⟩, ?_, ?_⟩
    · simp [PoolList.Append, hhead, hP]
    · exact ⟨{ P with prev := none, next := none }, by simp, rfl, rfl, trivial⟩
    · intro a ha
      have : a ≠ p := fun e => ha (by simp [e])
      simp [this]
    · exact (SameContents.store (r := { P with prev := none }) hP rfl).trans
        (@SameContents.store (heap.store p { P with prev := none }) p
          { P with prev := none } { P with prev := none, next := none } (by simp) rfl)
  · rw [List.concat_eq_append] at hLt
    subst hLt
    rw [lastOr_snoc] at htail
    obtain ⟨x, hx⟩ : ∃ x, l.head = some x := by
      rw [hhead]
      cases L with
      | nil => exact ⟨t, rfl⟩
      | cons y ys => exact ⟨y, rfl⟩
    obtain ⟨q, hq⟩ := Seg.allocated hseg t (List.mem_append_right _ (List.mem_singleton_self _))
    have htp : t ≠ p := fun e => hp (e ▸ List.mem_append_right _ (List.mem_singleton_self _))
    have htL : t ∉ L := fun h =>
      (List.nodup_append.mp hnd).2.2 h (List.mem_singleton_self _)
    refine ⟨((heap.store t { q with next := some p }).store p { P with prev := some t }).store p
        { P with prev := some t, next := none },
      { l with tail := some p }, ?_, ⟨?_, ?_, ?_⟩, ?_, ?_⟩
    · simp [PoolList.Append, hx, htail, hq, hP, Ne.symm htp]
    · rw [hhead, firstOr_append, firstOr_append, firstOr_append]
      cases L <;> rfl
    · rw [lastOr_snoc]
    · rw [Seg.append_iff, lastOr_snoc]
      constructor
      · have h1 := Seg.store_next hq htL (some p) hseg
        refine Seg.frame (fun a ha => ?_) h1
        have hap : a ≠ p := fun e => hp (e ▸ ha)
        simp [hap]
      · exact ⟨{ P with prev := some t, next := none }, by simp, rfl, rfl, trivial⟩
    · intro a ha
      have h1 : a ≠ p := fun e => ha (by simp [e])
      have h2 : a ≠ t := fun e => ha (by simp [e])
      simp [h1, h2]
    · refine ((SameContents.store (r := { q with next := some p }) hq rfl).trans
        (@SameContents.store (heap.store t { q with next := some p }) p
          P { P with prev := some t } (by simp [Ne.symm htp, hP]) rfl)).trans ?_
      exact @SameContents.store
        ((heap.store t { q with next := some p }).store p { P with prev := some t }) p
        { P with prev := some t } { P with prev := some t, next := none } (by simp) rfl

/-! ### Pools: constructor, `Pop` and `Push` -/

theorem Pool.WF_of_contents {c : Nat} {p q : Pool} (h : q.contents = p.contents)
    (hp : p.WF c) : q.WF c := by
  unfold Pool.contents at h
  simp only [Prod.mk.injEq] at h
  obtain ⟨h1, h2, h3⟩ := h
  unfold Pool.WF Pool.freeIds at hp ⊢
  rw [h1, h2, h3]
  exact hp

theorem SameContents.lookup {heap heap' : PoolHeap} (h : SameContents heap heap') {a : Nat}
    {q : Pool} (hq : heap' a = some q) :
    ∃ p, heap a = some p ∧ q.contents = p.contents := by
  have := h a
  rw [hq] at this
  cases hp : heap a with
  | none => rw [hp] at this; simp at this
  | some p =>
    rw [hp] at this
    simp only [Option.map_some', Option.some.injEq] at this
    exact ⟨p, rfl, this⟩

theorem SameContents.lookup_none {heap heap' : PoolHeap} (h : SameContents heap heap') {a : Nat}
    (hq : heap a = none) : heap' a = none := by
  have := h a
  rw [hq] at this
  cases hp : heap' a with
  | none => rfl
  | some p => rw [hp] at this; simp at this

theorem Pool.contents_eq {p q : Pool} (h : q.contents = p.contents) :
    q.objects = p.objects ∧ q.stack_data = p.stack_data ∧ q.stack_length = p.stack_length
      ∧ q.freeIds = p.freeIds := by
  unfold Pool.contents at h
  simp only [Prod.mk.injEq] at h
  obtain ⟨h1, h2, h3⟩ := h
  refine ⟨h1, h2, h3, ?_⟩
  unfold Pool.freeIds
  rw [h2, h3]

/-- The bookkeeping does not depend on the list links. -/
theorem PoolContentsInv.of_same {c : Nat} {heap heap' : PoolHeap} {live : List ObjectPtr}
    {free full : List Nat} (h : SameContents heap heap')
    (inv : PoolContentsInv c heap live free full) :
    PoolContentsInv c heap' live free full := by
  constructor
  · intro a h1 h2
    exact h.lookup_none (inv.dom a h1 h2)
  · intro a q hq
    obtain ⟨p, hp, hc⟩ := h.lookup hq
    exact Pool.WF_of_contents hc (inv.wf a p hp)
  · intro a q ha hq
    obtain ⟨p, hp, hc⟩ := h.lookup hq
    rw [(Pool.contents_eq hc).2.2.1]
    exact inv.free_slots a p ha hp
  · intro a q ha hq
    obtain ⟨p, hp, hc⟩ := h.lookup hq
    rw [(Pool.contents_eq hc).2.2.1]
    exact inv.full_slots a p ha hp
  · exact inv.live_nodup
  · intro o
    rw [inv.live_iff o]
    constructor
    · rintro ⟨p, hp, h1, h2⟩
      cases hq : heap' o.pool with
      | none =>
        have := h o.pool
        rw [hq, hp] at this
        simp at this
      | some q =>
        obtain ⟨p', hp', hc⟩ := h.lookup hq
        rw [hp] at hp'
        cases hp'
        exact ⟨q, rfl, h1, by rw [(Pool.contents_eq hc).2.2.2]; exact h2⟩
    · rintro ⟨q, hq, h1, h2⟩
      obtain ⟨p, hp, hc⟩ := h.lookup hq
      exact ⟨p, hp, h1, by rw [← (Pool.contents_eq hc).2.2.2]; exact h2⟩

theorem Occupied.of_same_contents {c : Nat} {heap heap' : PoolHeap} {free : List Nat}
    (h : SameContents heap heap') (inv : Occupied c heap free) : Occupied c heap' free := by
  intro a q ha hq
  obtain ⟨p, hp, hc⟩ := h.lookup hq
  rw [(Pool.contents_eq hc).2.2.1]
  exact inv a p ha hp

/-- The constructor builds a pool in order whose free stack holds every slot
id, slot 0 on top. -/
theorem Pool.new_spec (c : Nat) (hc : c ≤ 2 ^ 16) :
    (Pool.new c).WF c ∧ (Pool.new c).stack_length = c
      ∧ ∀ x, x < c → x ∈ (Pool.new c).freeIds := by
  have hobj : (Pool.new c).objects = List.range c := by
    unfold Pool.new
    simp only
    apply List.ext_getElem
    · simp
    · intro n h1 h2
      simp only [List.length_map, List.length_range] at h1
      simp only [List.getElem_map, List.getElem_range]
      exact Nat.mod_eq_of_lt (by omega)
  have hdata : (Pool.new c).stack_data = (List.range c).map (fun id => c - 1 - id) := by
    unfold Pool.new
    simp only
    apply List.map_congr_left
    intro id hid
    have := List.mem_range.mp hid
    have h1 : id % 2 ^ 16 = id := Nat.mod_eq_of_lt (by omega)
    have h2 : (c - 1) % 2 ^ 16 = c - 1 := Nat.mod_eq_of_lt (by omega)
    rw [h1, h2]
    have : c - 1 + 2 ^ 16 - id = (c - 1 - id) + 2 ^ 16 := by omega
    rw [this, Nat.add_mod_right]
    exact Nat.mod_eq_of_lt (by omega)
  have hfree : (Pool.new c).freeIds = (List.range c).map (fun id => c - 1 - id) := by
    unfold Pool.freeIds
    rw [hdata]
    have : (Pool.new c).stack_length = c := rfl
    rw [this]
    apply List.take_of_length_le
    simp
  refine ⟨⟨hobj, by rw [hdata]; simp, le_refl _, ?_, ?_⟩, rfl, ?_⟩
  · rw [hfree]
    apply List.Nodup.map_on _ (List.nodup_range c)
    intro x hx y hy hxy
    have := List.mem_range.mp hx
    have := List.mem_range.mp hy
    omega
  · intro x hx
    rw [hfree] at hx
    obtain ⟨y, hy, rfl⟩ := List.mem_map.mp hx
    have := List.mem_range.mp hy
    omega
  · intro x hx
    rw [hfree]
    exact List.mem_map.mpr ⟨c - 1 - x, List.mem_range.mpr (by omega), by omega⟩

theorem Seg.of_links {heap heap' : PoolHeap} {prev nxt : Option Nat} {l : List Nat}
    (hf : ∀ a pool, a ∈ l → heap a = some pool →
      ∃ pool', heap' a = some pool' ∧ pool'.prev = pool.prev ∧ pool'.next = pool.next)
    (h : Seg heap prev l nxt) : Seg heap' prev l nxt := by
  induction l generalizing prev with
  | nil => trivial
  | cons p rest ih =>
    obtain ⟨pool, hp, h1, h2, h3⟩ := h
    obtain ⟨pool', hp', e1, e2⟩ := hf p pool (List.mem_cons_self _ _) hp
    exact ⟨pool', hp', e1.trans h1, e2.trans h2,
      ih (fun a q ha hq => hf a q (List.mem_cons_of_mem _ ha) hq) h3⟩

/-- Writing the contents of one pool keeps every list. -/
theorem IsList.store_contents {heap : PoolHeap} {l : PoolList} {ps : List Nat} {a : Nat}
    {q q' : Pool} (hq : heap a = some q) (h1 : q'.prev = q.prev) (h2 : q'.next = q.next)
    (h : IsList heap l ps) : IsList (heap.store a q') l ps := by
  refine ⟨h.1, h.2.1, Seg.of_links ?_ h.2.2⟩
  intro b pool _ hb
  by_cases hba : b = a
  · subst hba
    rw [hq] at hb
    cases hb
    exact ⟨q', by simp, h1, h2⟩
  · exact ⟨pool, by rw [PoolHeap.store_other _ _ _ _ hba]; exact hb, rfl, rfl⟩

theorem IsList.of_heap_eq {heap heap' : PoolHeap} {l : PoolList} {ps : List Nat}
    (hf : ∀ a, a ∈ ps → heap' a = heap a) (h : IsList heap l ps) : IsList heap' l ps :=
  ⟨h.1, h.2.1, Seg.frame hf h.2.2⟩

/-- `Pop` on a pool in order with a free slot takes the top of the free
stack. -/
theorem Pool.Pop_spec {c : Nat} {P : Pool} (hwf : P.WF c) (hlen : 0 < P.stack_length) :
    ∃ id, P.Pop = some ({ P with stack_length := P.stack_length - 1 }, id)
      ∧ P.freeIds = Pool.freeIds { P with stack_length := P.stack_length - 1 } ++ [id]
      ∧ Pool.WF c { P with stack_length := P.stack_length - 1 } := by
  obtain ⟨hobj, hdata, hle, hnd, hlt⟩ := hwf
  have hi : P.stack_length - 1 < P.stack_data.length := by omega
  have hfree : P.freeIds = Pool.freeIds { P with stack_length := P.stack_length - 1 }
      ++ [P.stack_data[P.stack_length - 1]] := by
    unfold Pool.freeIds
    simp only
    have : P.stack_length = (P.stack_length - 1) + 1 := by omega
    conv_lhs => rw [this]
    rw [List.take_succ, List.getElem?_eq_getElem hi]
    rfl
  have hmem : P.stack_data[P.stack_length - 1] ∈ P.freeIds := by
    rw [hfree]; simp
  refine ⟨P.stack_data[P.stack_length - 1], ?_, hfree, ?_⟩
  · unfold Pool.Pop
    rw [if_pos hlen, List.getElem?_eq_getElem hi]
    have : P.stack_data[P.stack_length - 1] < P.objects.length := by
      rw [hobj, List.length_range]
      exact hlt _ hmem
    simp [this]
  · rw [hfree] at hnd hlt
    refine ⟨hobj, hdata, ?_, ?_, ?_⟩
    · show P.stack_length - 1 ≤ c
      omega
    · exact (List.nodup_append.mp hnd).1
    · intro x hx
      exact hlt x (List.mem_append_left _ hx)

/-- `Push` of a slot of a pool in order that is not full of free slots puts
the slot id on top of the free stack. -/
theorem Pool.Push_spec {c : Nat} {P : Pool} {index : Nat} (hwf : P.WF c)
    (hlen : P.stack_length < c) (hindex : index < c) :
    P.Push index = some { P with
        stack_data := P.stack_data.set P.stack_length index
        stack_length := P.stack_length + 1 }
      ∧ Pool.freeIds { P with
        stack_data := P.stack_data.set P.stack_length index
        stack_length := P.stack_length + 1 } = P.freeIds ++ [index] := by
  obtain ⟨hobj, hdata, hle, hnd, hlt⟩ := hwf
  constructor
  · unfold Pool.Push
    have : P.objects[index]? = some index := by
      rw [hobj, List.getElem?_range hindex]
    rw [this]
    simp only [Option.bind_eq_bind, Option.some_bind]
    rw [if_pos (by omega)]
  · unfold Pool.freeIds
    simp only
    rw [List.take_succ, List.getElem?_set_self (by omega)]
    congr 1
    rw [List.set_take, List.set_eq_of_length_le (by simp)]

/-! ### The bookkeeping under `new Pool`, `Pop` and `Push` -/

theorem PoolContentsInv.create {c : Nat} {heap : PoolHeap} {live : List ObjectPtr}
    {full : List Nat} {fresh : Nat} (hc : 0 < c) (hc16 : c ≤ 2 ^ 16)
    (inv : PoolContentsInv c heap live [] full) (hfresh : heap fresh = none)
    (hfull : fresh ∉ full) :
    PoolContentsInv c (heap.store fresh (Pool.new c)) live [fresh] full := by
  obtain ⟨hwf, hlen, hall⟩ := Pool.new_spec c hc16
  constructor
  · intro a h1 h2
    have hne : a ≠ fresh := by simpa using h1
    rw [PoolHeap.store_other _ _ _ _ hne]
    exact inv.dom a (by simp) h2
  · intro a pool hp
    by_cases ha : a = fresh
    · subst ha
      simp only [PoolHeap.store_same, Option.some.injEq] at hp
      subst hp
      exact hwf
    · rw [PoolHeap.store_other _ _ _ _ ha] at hp
      exact inv.wf a pool hp
  · intro a pool ha hp
    have ha : a = fresh := by simpa using ha
    subst ha
    simp only [PoolHeap.store_same, Option.some.injEq] at hp
    subst hp
    rw [hlen]
    exact hc
  · intro a pool ha hp
    have hne : a ≠ fresh := fun h => hfull (h ▸ ha)
    rw [PoolHeap.store_other _ _ _ _ hne] at hp
    exact inv.full_slots a pool ha hp
  · exact inv.live_nodup
  · intro o
    rw [inv.live_iff o]
    by_cases ho : o.pool = fresh
    · rw [ho, hfresh]
      simp only [PoolHeap.store_same, Option.some.injEq]
      constructor
      · rintro ⟨pool, hp, _⟩
        cases hp
      · rintro ⟨pool, hp, hlt, hn⟩
        subst hp
        exact absurd (hall _ hlt) hn
    · rw [PoolHeap.store_other _ _ _ _ ho]

theorem PoolContentsInv.pop {c : Nat} {heap : PoolHeap} {live : List ObjectPtr}
    {free full : List Nat} {h : Nat} {P : Pool}
    (inv : PoolContentsInv c heap live free full) (hP : heap h = some P)
    (hlen : 0 < P.stack_length) :
    ∃ id, P.Pop = some ({ P with stack_length := P.stack_length - 1 }, id)
      ∧ id ∈ P.freeIds
      ∧ (⟨h, id⟩ : ObjectPtr) ∉ live
      ∧ ∀ free' full' : List Nat,
          (∀ a, a ≠ h → (a ∈ free' ↔ a ∈ free)) → (∀ a, a ≠ h → (a ∈ full' ↔ a ∈ full)) →
          (h ∈ free' ↔ P.stack_length - 1 ≠ 0) → (h ∈ full' ↔ P.stack_length - 1 = 0) →
          PoolContentsInv c (heap.store h { P with stack_length := P.stack_length - 1 })
            (⟨h, id⟩ :: live) free' full' := by
  obtain ⟨id, hpop, hfree, hwf1⟩ := Pool.Pop_spec (inv.wf h P hP) hlen
  have hwf := inv.wf h P hP
  have hidmem : id ∈ P.freeIds := by rw [hfree]; simp
  have hnotlive : (⟨h, id⟩ : ObjectPtr) ∉ live := by
    rw [inv.live_iff]
    rintro ⟨pool, hp, _, hn⟩
    simp only at hp hn
    rw [hP] at hp
    cases hp
    exact hn hidmem
  have hnd : P.freeIds.Nodup := hwf.2.2.2.1
  have hid1 : id ∉ Pool.freeIds { P with stack_length := P.stack_length - 1 } := by
    rw [hfree] at hnd
    intro hmem
    exact (List.nodup_append.mp hnd).2.2 hmem (List.mem_singleton_self _)
  refine ⟨id, hpop, hidmem, hnotlive, ?_⟩
  intro free' full' hfr hfu hhfr hhfu
  constructor
  · intro a h1 h2
    have hne : a ≠ h := by
      rintro rfl
      by_cases hz : P.stack_length - 1 = 0
      · exact h2 (hhfu.mpr hz)
      · exact h1 (hhfr.mpr hz)
    rw [PoolHeap.store_other _ _ _ _ hne]
    exact inv.dom a (fun x => h1 ((hfr a hne).mpr x)) (fun x => h2 ((hfu a hne).mpr x))
  · intro a pool hp
    by_cases ha : a = h
    · subst ha
      simp only [PoolHeap.store_same, Option.some.injEq] at hp
      subst hp
      exact hwf1
    · rw [PoolHeap.store_other _ _ _ _ ha] at hp
      exact inv.wf a pool hp
  · intro a pool ha hp
    by_cases hah : a = h
    · subst hah
      simp only [PoolHeap.store_same, Option.some.injEq] at hp
      subst hp
      exact Nat.pos_of_ne_zero (hhfr.mp ha)
    · rw [PoolHeap.store_other _ _ _ _ hah] at hp
      exact inv.free_slots a pool ((hfr a hah).mp ha) hp
  · intro a pool ha hp
    by_cases hah : a = h
    · subst hah
      simp only [PoolHeap.store_same, Option.some.injEq] at hp
      subst hp
      exact hhfu.mp ha
    · rw [PoolHeap.store_other _ _ _ _ hah] at hp
      exact inv.full_slots a pool ((hfu a hah).mp ha) hp
  · exact List.nodup_cons.mpr ⟨hnotlive, inv.live_nodup⟩
  · intro o
    rw [List.mem_cons, inv.live_iff o]
    by_cases ho : o.pool = h
    · have hidc : id < c := hwf.2.2.2.2 id hidmem
      rw [ho, hP]
      simp only [PoolHeap.store_same, Option.some.injEq, exists_eq_left']
      have hoeq : o = ⟨h, id⟩ ↔ o.index = id := by
        constructor
        · intro e; rw [e]
        · intro e
          cases o
          simp only at ho e
          rw [ho, e]
      rw [hoeq, hfree]
      simp only [List.mem_append, List.mem_singleton, not_or]
      constructor
      · rintro (e | ⟨h1, h2, _⟩)
        · rw [e]; exact ⟨hidc, hid1⟩
        · exact ⟨h1, h2⟩
      · rintro ⟨h1, h2⟩
        by_cases e : o.index = id
        · exact Or.inl e
        · exact Or.inr ⟨h1, h2, e⟩
    · rw [PoolHeap.store_other _ _ _ _ ho]
      have : o ≠ ⟨h, id⟩ := by
        rintro rfl
        exact ho rfl
      simp [this]

/-- A list of `c` distinct numbers below `c` holds every number below `c`. -/
theorem mem_of_nodup_length_eq {c : Nat} {l : List Nat} (hnd : l.Nodup)
    (hlt : ∀ x, x ∈ l → x < c) (hlen : l.length = c) (x : Nat) (hx : x < c) : x ∈ l := by
  have hsub : l ⊆ List.range c := fun y hy => List.mem_range.mpr (hlt y hy)
  have hsp : l.Subperm (List.range c) := List.subperm_of_subset hnd hsub
  have hperm : l.Perm (List.range c) :=
    hsp.perm_of_length_le (by rw [List.length_range, hlen])
  exact hperm.mem_iff.mpr (List.mem_range.mpr hx)

theorem ObjectPtr.eq_iff_of_pool {o o' : ObjectPtr} (h : o'.pool = o.pool) :
    o' = o ↔ o'.index = o.index := by
  constructor
  · intro e; rw [e]
  · intro e
    cases o; cases o'
    simp only at h e
    rw [h, e]

theorem PoolContentsInv.push {c : Nat} {heap : PoolHeap} {live : List ObjectPtr}
    {free full : List Nat} {o : ObjectPtr} {P : Pool}
    (inv : PoolContentsInv c heap live free full) (ho : o ∈ live)
    (hP : heap o.pool = some P) (hlen : P.stack_length < c) :
    P.Push o.index = some { P with
        stack_data := P.stack_data.set P.stack_length o.index
        stack_length := P.stack_length + 1 }
      ∧ ∀ free' full' : List Nat,
          (∀ a, a ≠ o.pool → (a ∈ free' ↔ a ∈ free)) →
          (∀ a, a ≠ o.pool → (a ∈ full' ↔ a ∈ full)) → o.pool ∉ full' →
          (P.stack_length + 1 ≠ c → o.pool ∈ free' →
            PoolContentsInv c (heap.store o.pool { P with
              stack_data := P.stack_data.set P.stack_length o.index
              stack_length := P.stack_length + 1 }) (live.erase o) free' full')
          ∧ (P.stack_length + 1 = c → o.pool ∉ free' →
            PoolContentsInv c (heap.delete o.pool) (live.erase o) free' full') := by
  have hwf := inv.wf _ P hP
  obtain ⟨P', hP', hindex, hnot⟩ := (inv.live_iff o).mp ho
  rw [hP] at hP'
  cases hP'
  obtain ⟨hpush, hfree⟩ := Pool.Push_spec hwf hlen hindex
  have hwf2 : Pool.WF c { P with
      stack_data := P.stack_data.set P.stack_length o.index
      stack_length := P.stack_length + 1 } := by
    obtain ⟨hobj, hdata, hle, hnd, hlt⟩ := hwf
    refine ⟨hobj, by simp [hdata], ?_, ?_, ?_⟩
    · show P.stack_length + 1 ≤ c
      omega
    · rw [hfree]
      exact List.nodup_append.mpr ⟨hnd, List.nodup_singleton _, by
        intro x hx hx'
        rw [List.mem_singleton] at hx'
        exact hnot (hx' ▸ hx)⟩
    · rw [hfree]
      intro x hx
      rcases List.mem_append.mp hx with h | h
      · exact hlt x h
      · rw [List.mem_singleton] at h
        rw [h]; exact hindex
  have hlive : ∀ o' : ObjectPtr, o' ∈ live.erase o ↔ o' ≠ o ∧ o' ∈ live :=
    fun o' => inv.live_nodup.mem_erase_iff
  refine ⟨hpush, ?_⟩
  intro free' full' hfr hfu hpfu
  constructor
  · intro hne hpfr
    constructor
    · intro a h1 h2
      have hap : a ≠ o.pool := fun e => h1 (e ▸ hpfr)
      rw [PoolHeap.store_other _ _ _ _ hap]
      exact inv.dom a (fun x => h1 ((hfr a hap).mpr x)) (fun x => h2 ((hfu a hap).mpr x))
    · intro a pool hp
      by_cases ha : a = o.pool
      · subst ha
        simp only [PoolHeap.store_same, Option.some.injEq] at hp
        subst hp
        exact hwf2
      · rw [PoolHeap.store_other _ _ _ _ ha] at hp
        exact inv.wf a pool hp
    · intro a pool ha hp
      by_cases hah : a = o.pool
      · subst hah
        simp only [PoolHeap.store_same, Option.some.injEq] at hp
        subst hp
        exact Nat.succ_pos _
      · rw [PoolHeap.store_other _ _ _ _ hah] at hp
        exact inv.free_slots a pool ((hfr a hah).mp ha) hp
    · intro a pool ha hp
      have hah : a ≠ o.pool := fun e => hpfu (e ▸ ha)
      rw [PoolHeap.store_other _ _ _ _ hah] at hp
      exact inv.full_slots a pool ((hfu a hah).mp ha) hp
    · exact inv.live_nodup.erase _
    · intro o'
      rw [hlive, inv.live_iff o']
      by_cases hp : o'.pool = o.pool
      · rw [ne_eq, ObjectPtr.eq_iff_of_pool hp, hp, hP]
        simp only [PoolHeap.store_same, Option.some.injEq, exists_eq_left']
        rw [hfree]
        simp only [List.mem_append, List.mem_singleton, not_or]
        tauto
      · rw [PoolHeap.store_other _ _ _ _ hp]
        have : o' ≠ o := fun e => hp (by rw [e])
        simp [this]
  · intro heq hpfr
    have hdel : ∀ a, a ≠ o.pool → heap.delete o.pool a = heap a := by
      intro a ha
      unfold PoolHeap.delete
      rw [if_neg ha]
    have hdel0 : heap.delete o.pool o.pool = none := by
      unfold PoolHeap.delete
      rw [if_pos rfl]
    constructor
    · intro a h1 h2
      by_cases hap : a = o.pool
      · rw [hap]; exact hdel0
      · rw [hdel a hap]
        exact inv.dom a (fun x => h1 ((hfr a hap).mpr x)) (fun x => h2 ((hfu a hap).mpr x))
    · intro a pool hp
      by_cases ha : a = o.pool
      · rw [ha, hdel0] at hp
        cases hp
      · rw [hdel a ha] at hp
        exact inv.wf a pool hp
    · intro a pool ha hp
      have hah : a ≠ o.pool := fun e => hpfr (e ▸ ha)
      rw [hdel a hah] at hp
      exact inv.free_slots a pool ((hfr a hah).mp ha) hp
    · intro a pool ha hp
      have hah : a ≠ o.pool := fun e => hpfu (e ▸ ha)
      rw [hdel a hah] at hp
      exact inv.full_slots a pool ((hfu a hah).mp ha) hp
    · exact inv.live_nodup.erase _
    · intro o'
      rw [hlive, inv.live_iff o']
      by_cases hp : o'.pool = o.pool
      · rw [ne_eq, ObjectPtr.eq_iff_of_pool hp, hp, hP, hdel0]
        simp only [Option.some.injEq, exists_eq_left']
        constructor
        swap
        · rintro ⟨pool, hp0, _⟩
          cases hp0
        rintro ⟨hne, hlt, hn⟩
        exfalso
        have hall := mem_of_nodup_length_eq hwf2.2.2.2.1 hwf2.2.2.2.2
          (by unfold Pool.freeIds
              simp only [List.length_take, List.length_set]
              rw [hwf.2.1]; omega) o'.index hlt
        rw [hfree] at hall
        rcases List.mem_append.mp hall with h | h
        · exact hn h
        · rw [List.mem_singleton] at h
          exact hne h
      · rw [hdel _ hp]
        have : o' ≠ o := fun e => hp (by rw [e])
        simp [this]

theorem SameContents.lookup_fwd {heap heap' : PoolHeap} (h : SameContents heap heap') {a : Nat}
    {p : Pool} (hp : heap a = some p) :
    ∃ q, heap' a = some q ∧ q.contents = p.contents := by
  have := h a
  rw [hp] at this
  cases hq : heap' a with
  | none => rw [hq] at this; simp at this
  | some q =>
    rw [hq] at this
    simp only [Option.map_some', Option.some.injEq] at this
    exact ⟨q, rfl, this⟩

/-- The second half of `Allocate`, on a state whose free list starts with the
pool `h`: the object comes from `h`, it was not live, and `h` moves to the
tail of the full list exactly when its last free slot was taken. -/
theorem PoolInv.serve {c : Nat} {s1 : PoolAllocator} {live : List ObjectPtr}
    {h : Nat} {rest full : List Nat}
    (hl1 : IsList s1.heap s1.free_pools (h :: rest))
    (hl2 : IsList s1.heap s1.full_pools full)
    (hnd : (h :: rest ++ full).Nodup)
    (cinv : PoolContentsInv c s1.heap live (h :: rest) full)
    (hocc : Occupied c s1.heap rest) :
    ∃ P id, s1.free_pools.head = some h ∧ s1.heap h = some P
      ∧ P.Pop = some ({ P with stack_length := P.stack_length - 1 }, id)
      ∧ id ∈ P.freeIds
      ∧ (⟨h, id⟩ : ObjectPtr) ∉ live
      ∧ (P.stack_length - 1 ≠ 0 →
          PoolInv c { s1 with heap := s1.heap.store h { P with stack_length := P.stack_length - 1 } }
            (⟨h, id⟩ :: live) (h :: rest) full)
      ∧ (P.stack_length - 1 = 0 →
          ∃ heap2 free2 heap3 full3 P',
            PoolList.Remove (s1.heap.store h { P with stack_length := P.stack_length - 1 })
              s1.free_pools h = some (heap2, free2)
            ∧ PoolList.Append heap2 s1.full_pools h = some (heap3, full3)
            ∧ heap3 h = some P' ∧ P'.stack_length = 0
            ∧ PoolInv c { heap := heap3, free_pools := free2, full_pools := full3 }
                (⟨h, id⟩ :: live) rest (full ++ [h])) := by
  obtain ⟨P, hP, -, -, -⟩ := hl1.2.2
  have hlen : 0 < P.stack_length := cinv.free_slots h P (List.mem_cons_self _ _) hP
  have hwf := cinv.wf h P hP
  obtain ⟨id, hpop, hidmem, hnotlive, hinv⟩ := cinv.pop hP hlen
  have hnd1 : (h :: (rest ++ full)).Nodup := hnd
  have hhn : h ∉ rest ++ full := (List.nodup_cons.mp hnd1).1
  have hhr : h ∉ rest := fun x => hhn (List.mem_append_left _ x)
  have hhf : h ∉ full := fun x => hhn (List.mem_append_right _ x)
  have hrf : (rest ++ full).Nodup := (List.nodup_cons.mp hnd1).2
  have hdisj : ∀ a, a ∈ rest → a ∉ full := fun a ha hf =>
    (List.nodup_append.mp hrf).2.2 ha hf
  have hl1' : IsList (s1.heap.store h { P with stack_length := P.stack_length - 1 })
      s1.free_pools (h :: rest) := IsList.store_contents hP rfl rfl hl1
  have hl2' : IsList (s1.heap.store h { P with stack_length := P.stack_length - 1 })
      s1.full_pools full := IsList.store_contents hP rfl rfl hl2
  have hocc1 : Occupied c (s1.heap.store h { P with stack_length := P.stack_length - 1 })
      rest := by
    intro a pool ha hp
    have hne : a ≠ h := fun e => hhr (e ▸ ha)
    rw [PoolHeap.store_other _ _ _ _ hne] at hp
    exact hocc a pool ha hp
  refine ⟨P, id, hl1.1, hP, hpop, hidmem, hnotlive, ?_, ?_⟩
  · intro hne
    refine ⟨hl1', hl2', hnd, ?_, ?_⟩
    · exact hinv (h :: rest) full (fun _ _ => Iff.rfl) (fun _ _ => Iff.rfl)
        (by simp [hne]) (by simp [hne, hhf])
    · intro a pool ha hp
      rcases List.mem_cons.mp ha with e | e
      · subst e
        simp only [PoolHeap.store_same, Option.some.injEq] at hp
        subst hp
        have := hwf.2.2.1
        show P.stack_length - 1 < c
        omega
      · exact hocc1 a pool e hp
  · intro hz
    obtain ⟨heap2, free2, hrem, hlist2, hframe2, hsame2⟩ :=
      PoolList.Remove_spec _ s1.free_pools [] rest h (List.nodup_cons.mpr
        ⟨hhr, (List.nodup_append.mp hrf).1⟩) hl1'
    simp only [List.nil_append] at hlist2 hframe2
    have h2h : heap2 h = some { P with stack_length := P.stack_length - 1 } := by
      rw [hframe2 h hhr]; simp
    have hl2'' : IsList heap2 s1.full_pools full :=
      IsList.of_heap_eq (fun a ha => hframe2 a (fun x => hdisj a x ha)) hl2'
    obtain ⟨heap3, full3, happ, hlist3, hframe3, hsame3⟩ :=
      PoolList.Append_spec heap2 s1.full_pools full h _ h2h hhf (List.nodup_append.mp hrf).2.1
        hl2''
    have hlist2' : IsList heap3 free2 rest := by
      refine IsList.of_heap_eq (fun a ha => hframe3 a ?_) hlist2
      intro x
      rcases List.mem_append.mp x with x | x
      · exact hdisj a ha x
      · rw [List.mem_singleton] at x
        exact hhr (x ▸ ha)
    obtain ⟨P', hP', hc'⟩ := (hsame2.trans hsame3).lookup_fwd
      (PoolHeap.store_same s1.heap h { P with stack_length := P.stack_length - 1 })
    refine ⟨heap2, free2, heap3, full3, P', hrem, happ, hP', ?_, hlist2', hlist3, ?_, ?_, ?_⟩
    · rw [(Pool.contents_eq hc').2.2.1]
      exact hz
    · have : (rest ++ (full ++ [h])).Perm (h :: (rest ++ full)) := by
        rw [← List.append_assoc]
        exact List.perm_append_singleton _ _
      exact this.nodup_iff.mpr hnd1
    · apply PoolContentsInv.of_same (hsame2.trans hsame3)
      apply hinv rest (full ++ [h])
      · intro a ha; simp [ha]
      · intro a ha; simp [ha]
      · simp [hhr, hz]
      · simp [hz]
    · exact Occupied.of_same_contents (hsame2.trans hsame3) hocc1

/-- `Allocate` on a state in order returns: the object comes from the head of
the free list (a pool created at `fresh` when the list is empty), it was not
live, and the pool moves to the tail of the full list exactly when its last
free slot was taken. -/
theorem PoolAllocator.Allocate_spec {c : Nat} {s : PoolAllocator} {live : List ObjectPtr}
    {free full : List Nat} (hc : 0 < c) (hc16 : c ≤ 2 ^ 16)
    (inv : PoolInv c s live free full) (fresh : Nat) (hfresh : s.heap fresh = none) :
    ∃ s' o P', s.Allocate c fresh = some (s', o)
      ∧ some o.pool = (withFresh free fresh).head?
      ∧ o ∉ live
      ∧ s'.heap o.pool = some P'
      ∧ (P'.stack_length ≠ 0 → PoolInv c s' (o :: live) (withFresh free fresh) full)
      ∧ (P'.stack_length = 0 →
          PoolInv c s' (o :: live) (withFresh free fresh).tail (full ++ [o.pool])) := by
  obtain ⟨hl1, hl2, hnd, cinv, hocc⟩ := inv
  cases free with
  | nil =>
    have hhead : s.free_pools.head = none := hl1.1
    have hfull : fresh ∉ full := by
      intro hmem
      obtain ⟨pool, hp⟩ := hl2.2.2.allocated fresh hmem
      rw [hfresh] at hp
      cases hp
    obtain ⟨P, id, h1, h2, hpop, -, hnot, hA, hB⟩ :=
      @PoolInv.serve c { s with
          heap := s.heap.store fresh (Pool.new c)
          free_pools := { head := some fresh, tail := some fresh } } live fresh [] full
        ⟨rfl, rfl, Pool.new c, by simp, rfl, rfl, trivial⟩
        (IsList.of_heap_eq (fun a ha => PoolHeap.store_other _ _ _ _ (fun e => hfull (e ▸ ha))) hl2)
        (List.nodup_cons.mpr ⟨by simpa using hfull, by simpa using hnd⟩)
        (cinv.create hc hc16 hfresh hfull)
        (fun _ _ ha _ => absurd ha (List.not_mem_nil _))
    simp only [PoolHeap.store_same, Option.some.injEq] at h2
    subst h2
    by_cases hz : (Pool.new c).stack_length - 1 = 0
    · obtain ⟨heap2, free2, heap3, full3, P', hrem, happ, hP', hlen', hinv⟩ := hB hz
      refine ⟨_, ⟨fresh, id⟩, P', ?_, rfl, hnot, hP', fun h => absurd hlen' h, fun _ => hinv⟩
      unfold PoolAllocator.Allocate
      have hb : ((Pool.new c).stack_length - 1 == 0) = true := by simpa using hz
      dsimp only at hrem happ
      simp only [hhead, PoolHeap.store_same, Option.bind_eq_bind, Option.some_bind, hpop,
        Pool.IsFull, hb, if_true]
      rw [hrem]
      simp only [Option.some_bind]
      rw [happ]
      rfl
    · refine ⟨_, ⟨fresh, id⟩, _, ?_, rfl, hnot, PoolHeap.store_same _ _ _,
        fun _ => hA hz, fun h => absurd h hz⟩
      unfold PoolAllocator.Allocate
      have hb : ((Pool.new c).stack_length - 1 == 0) = false := by simpa using hz
      simp only [hhead, PoolHeap.store_same, Option.bind_eq_bind, Option.some_bind, hpop,
        Pool.IsFull, hb]
      rfl
  | cons h rest =>
    have hhead : s.free_pools.head = some h := hl1.1
    obtain ⟨P, id, h1, h2, hpop, -, hnot, hA, hB⟩ :=
      PoolInv.serve hl1 hl2 hnd cinv
        (fun a pool ha hp => hocc a pool (List.mem_cons_of_mem _ ha) hp)
    by_cases hz : P.stack_length - 1 = 0
    · obtain ⟨heap2, free2, heap3, full3, P', hrem, happ, hP', hlen', hinv⟩ := hB hz
      refine ⟨_, ⟨h, id⟩, P', ?_, rfl, hnot, hP', fun h => absurd hlen' h, fun _ => hinv⟩
      unfold PoolAllocator.Allocate
      have hb : (P.stack_length - 1 == 0) = true := by simpa using hz
      simp only [hhead, h2, Option.bind_eq_bind, Option.some_bind, hpop,
        Pool.IsFull, hb, if_true]
      rw [hrem]
      simp only [Option.some_bind]
      rw [happ]
      rfl
    · refine ⟨_, ⟨h, id⟩, _, ?_, rfl, hnot, PoolHeap.store_same _ _ _,
        fun _ => hA hz, fun h => absurd h hz⟩
      unfold PoolAllocator.Allocate
      have hb : (P.stack_length - 1 == 0) = false := by simpa using hz
      simp only [hhead, h2, Option.bind_eq_bind, Option.some_bind, hpop,
        Pool.IsFull, hb]
      rfl

theorem SameContents.delete {heap heap' : PoolHeap} (h : SameContents heap heap') (p : Nat) :
    SameContents (heap.delete p) (heap'.delete p) := by
  intro a
  unfold PoolHeap.delete
  by_cases ha : a = p
  · rw [if_pos ha, if_pos ha]
  · rw [if_neg ha, if_neg ha]
    exact h a

theorem SameContents.delete_store {heap heap' : PoolHeap} {p : Nat} {q : Pool}
    (h : SameContents (heap.store p q) heap') :
    SameContents (heap.delete p) (heap'.delete p) := by
  intro a
  unfold PoolHeap.delete
  by_cases ha : a = p
  · rw [if_pos ha, if_pos ha]
  · rw [if_neg ha, if_neg ha]
    have := h a
    rw [PoolHeap.store_other _ _ _ _ ha] at this
    exact this

/-- The second half of `Release`, after the pool of the object has been put
on the free list if it was on the full list: the slot id is pushed, and a
pool whose slots are all free is unlinked and deleted. -/
theorem PoolInv.finish {c : Nat} {heap heap1 : PoolHeap} {freeL1 fullL1 : PoolList}
    {live : List ObjectPtr} {free full free1 full1 : List Nat} {o : ObjectPtr} {P : Pool}
    (cinv : PoolContentsInv c heap live free full) (hocc : Occupied c heap free)
    (ho : o ∈ live) (hP : heap o.pool = some P) (hlen : P.stack_length < c)
    (hsame : SameContents heap heap1)
    (hfl : IsList heap1 freeL1 free1) (hful : IsList heap1 fullL1 full1)
    (hnd : (free1 ++ full1).Nodup) (hpf : o.pool ∈ free1)
    (hfr : ∀ a, a ≠ o.pool → (a ∈ free1 ↔ a ∈ free))
    (hfu : ∀ a, a ≠ o.pool → (a ∈ full1 ↔ a ∈ full)) :
    ∃ P1, heap1 o.pool = some P1 ∧ P1.stack_length = P.stack_length
      ∧ P1.Push o.index = some { P1 with
          stack_data := P1.stack_data.set P1.stack_length o.index
          stack_length := P1.stack_length + 1 }
      ∧ Pool.freeIds { P1 with
          stack_data := P1.stack_data.set P1.stack_length o.index
          stack_length := P1.stack_length + 1 } = P.freeIds ++ [o.index]
      ∧ (P.stack_length + 1 ≠ c →
          PoolInv c
            { heap := heap1.store o.pool { P1 with
                stack_data := P1.stack_data.set P1.stack_length o.index
                stack_length := P1.stack_length + 1 }
              free_pools := freeL1, full_pools := fullL1 }
            (live.erase o) free1 full1)
      ∧ (P.stack_length + 1 = c →
          ∃ heap3 free3,
            PoolList.Remove (heap1.store o.pool { P1 with
                stack_data := P1.stack_data.set P1.stack_length o.index
                stack_length := P1.stack_length + 1 }) freeL1 o.pool = some (heap3, free3)
            ∧ PoolInv c
              { heap := heap3.delete o.pool, free_pools := free3, full_pools := fullL1 }
              (live.erase o) (free1.erase o.pool) full1) := by
  have cinv1 := cinv.of_same hsame
  have hocc1 := hocc.of_same_contents hsame
  obtain ⟨P1, hP1, hc1⟩ := hsame.lookup_fwd hP
  have hlen1 : P1.stack_length = P.stack_length := (Pool.contents_eq hc1).2.2.1
  have hfree1 : P1.freeIds = P.freeIds := (Pool.contents_eq hc1).2.2.2
  have hwf1 := cinv1.wf _ P1 hP1
  obtain ⟨hpush, hinv⟩ := cinv1.push ho hP1 (by rw [hlen1]; exact hlen)
  obtain ⟨P', hP', hindex, hnot⟩ := (cinv1.live_iff o).mp ho
  rw [hP1] at hP'
  cases hP'
  have hfreeIds := (Pool.Push_spec hwf1 (by rw [hlen1]; exact hlen) hindex).2
  rw [hfree1] at hfreeIds
  have hpfu : o.pool ∉ full1 := fun x => (List.nodup_append.mp hnd).2.2 hpf x
  refine ⟨P1, hP1, hlen1, hpush, hfreeIds, ?_, ?_⟩
  · intro hne
    refine ⟨IsList.store_contents hP1 rfl rfl hfl, IsList.store_contents hP1 rfl rfl hful, hnd,
      (hinv free1 full1 hfr hfu hpfu).1 (by rw [hlen1]; exact hne) hpf, ?_⟩
    intro a pool ha hp
    simp only at hp
    by_cases hap : a = o.pool
    · subst hap
      simp only [PoolHeap.store_same, Option.some.injEq] at hp
      subst hp
      show P1.stack_length + 1 < c
      omega
    · rw [PoolHeap.store_other _ _ _ _ hap] at hp
      exact hocc1 a pool ((hfr a hap).mp ha) hp
  · intro heq
    obtain ⟨l1, l2, hsplit⟩ := List.append_of_mem hpf
    subst hsplit
    have hndf : (l1 ++ o.pool :: l2).Nodup := (List.nodup_append.mp hnd).1
    have hp1 : o.pool ∉ l1 := fun x =>
      (List.nodup_append.mp hndf).2.2 x (List.mem_cons_self _ _)
    have hp2 : o.pool ∉ l2 := (List.nodup_cons.mp (List.nodup_append.mp hndf).2.1).1
    have hp12 : o.pool ∉ l1 ++ l2 := by
      intro x
      rcases List.mem_append.mp x with x | x
      · exact hp1 x
      · exact hp2 x
    have hsub : ∀ a, a ∈ l1 ++ l2 → a ∈ l1 ++ o.pool :: l2 := by
      intro a ha
      rcases List.mem_append.mp ha with x | x
      · exact List.mem_append_left _ x
      · exact List.mem_append_right _ (List.mem_cons_of_mem _ x)
    obtain ⟨heap3, free3, hrem, hlist3, hframe3, hsame3⟩ :=
      PoolList.Remove_spec (heap1.store o.pool { P1 with
          stack_data := P1.stack_data.set P1.stack_length o.index
          stack_length := P1.stack_length + 1 }) freeL1 l1 l2 o.pool hndf
        (IsList.store_contents hP1 rfl rfl hfl)
    have herase : (l1 ++ o.pool :: l2).erase o.pool = l1 ++ l2 := by
      rw [List.erase_append_right _ hp1, List.erase_cons_head]
    have hdel : ∀ a, a ≠ o.pool → heap3.delete o.pool a = heap3 a := by
      intro a ha
      unfold PoolHeap.delete
      rw [if_neg ha]
    have hsd : SameContents (heap1.delete o.pool) (heap3.delete o.pool) := hsame3.delete_store
    refine ⟨heap3, free3, hrem, ?_, ?_, ?_, ?_, ?_⟩
    · rw [herase]
      exact IsList.of_heap_eq (fun a ha => hdel a (fun e => hp12 (e ▸ ha))) hlist3
    · refine IsList.of_heap_eq (fun a ha => ?_) hful
      have hap : a ≠ o.pool := fun e => hpfu (e ▸ ha)
      have ha12 : a ∉ l1 ++ l2 := fun x => (List.nodup_append.mp hnd).2.2 (hsub a x) ha
      show heap3.delete o.pool a = heap1 a
      rw [hdel a hap, hframe3 a ha12, PoolHeap.store_other _ _ _ _ hap]
    · rw [herase]
      refine List.Nodup.sublist ?_ hnd
      exact List.Sublist.append_right
        (List.Sublist.append_left (List.sublist_cons_self _ _) _) _
    · rw [herase]
      apply PoolContentsInv.of_same hsd
      refine (hinv (l1 ++ l2) full1 ?_ hfu hpfu).2 (by rw [hlen1]; exact heq) hp12
      intro a hap
      rw [← hfr a hap]
      simp only [List.mem_append, List.mem_cons, hap, false_or]
    · rw [herase]
      apply Occupied.of_same_contents hsd
      intro a pool ha hp
      have hap : a ≠ o.pool := fun e => hp12 (e ▸ ha)
      unfold PoolHeap.delete at hp
      rw [if_neg hap] at hp
      exact hocc1 a pool ((hfr a hap).mp (hsub a ha)) hp

/-- `Release` of a live object on a state in order returns: the slot id is
pushed on the free stack of the pool of the object, the pool moves from the
full list to the tail of the free list exactly when it was full, and a pool
whose slots are all free afterwards is unlinked and deleted. -/
theorem PoolAllocator.Release_spec {c : Nat} {s : PoolAllocator} {live : List ObjectPtr}
    {free full : List Nat} (inv : PoolInv c s live free full) (o : ObjectPtr)
    (ho : o ∈ live) :
    ∃ s' P, s.Release c o = some s' ∧ s.heap o.pool = some P
      ∧ (P.stack_length = 0 ↔ o.pool ∈ full)
      ∧ (P.stack_length + 1 ≠ c →
          (∃ P', s'.heap o.pool = some P' ∧ P'.freeIds = P.freeIds ++ [o.index])
          ∧ PoolInv c s' (live.erase o)
              (if o.pool ∈ full then free ++ [o.pool] else free) (full.erase o.pool))
      ∧ (P.stack_length + 1 = c →
          s'.heap o.pool = none
          ∧ PoolInv c s' (live.erase o) (free.erase o.pool) (full.erase o.pool)) := by
  obtain ⟨hl1, hl2, hnd, cinv, hocc⟩ := inv
  obtain ⟨P, hP, hindex, hnot⟩ := (cinv.live_iff o).mp ho
  have hwf := cinv.wf _ P hP
  have hobj : P.objects[o.index]? = some o.index := by
    rw [hwf.1, List.getElem?_range hindex]
  have hdisj : ∀ a, a ∈ free → a ∉ full := fun a ha hf => (List.nodup_append.mp hnd).2.2 ha hf
  have hdel0 : ∀ heap : PoolHeap, heap.delete o.pool o.pool = none := by
    intro heap
    unfold PoolHeap.delete
    rw [if_pos rfl]
  by_cases hpf : o.pool ∈ full
  · have hlen0 : P.stack_length = 0 := cinv.full_slots _ P hpf hP
    have hpfree : o.pool ∉ free := fun x => hdisj _ x hpf
    obtain ⟨l1, l2, hsplit⟩ := List.append_of_mem hpf
    subst hsplit
    have hndf : (l1 ++ o.pool :: l2).Nodup := (List.nodup_append.mp hnd).2.1
    have hp1 : o.pool ∉ l1 := fun x =>
      (List.nodup_append.mp hndf).2.2 x (List.mem_cons_self _ _)
    have hp2 : o.pool ∉ l2 := (List.nodup_cons.mp (List.nodup_append.mp hndf).2.1).1
    have hp12 : o.pool ∉ l1 ++ l2 := by
      intro x
      rcases List.mem_append.mp x with x | x
      · exact hp1 x
      · exact hp2 x
    have hsub : ∀ a, a ∈ l1 ++ l2 → a ∈ l1 ++ o.pool :: l2 := by
      intro a ha
      rcases List.mem_append.mp ha with x | x
      · exact List.mem_append_left _ x
      · exact List.mem_append_right _ (List.mem_cons_of_mem _ x)
    have herase : (l1 ++ o.pool :: l2).erase o.pool = l1 ++ l2 := by
      rw [List.erase_append_right _ hp1, List.erase_cons_head]
    obtain ⟨h1, full1L, hrem1, hlist1, hframe1, hsame1⟩ :=
      PoolList.Remove_spec s.heap s.full_pools l1 l2 o.pool hndf hl2
    have h1p : h1 o.pool = some P := by rw [hframe1 _ hp12]; exact hP
    have hl1' : IsList h1 s.free_pools free :=
      IsList.of_heap_eq (fun a ha => hframe1 a (fun x => hdisj a ha (hsub a x))) hl1
    obtain ⟨h2, free1L, happ, hlistf, hframe2, hsame2⟩ :=
      PoolList.Append_spec h1 s.free_pools free o.pool P h1p hpfree
        (List.nodup_append.mp hnd).1 hl1'
    have hlist1' : IsList h2 full1L (l1 ++ l2) := by
      refine IsList.of_heap_eq (fun a ha => hframe2 a ?_) hlist1
      intro x
      rcases List.mem_append.mp x with x | x
      · exact hdisj a x (hsub a ha)
      · rw [List.mem_singleton] at x
        exact hp12 (x ▸ ha)
    have hnd1 : ((free ++ [o.pool]) ++ (l1 ++ l2)).Nodup := by
      have hperm : ((free ++ [o.pool]) ++ (l1 ++ l2)).Perm (free ++ (l1 ++ o.pool :: l2)) := by
        rw [List.append_assoc]
        apply List.Perm.append_left
        exact (@List.perm_middle _ o.pool l1 l2).symm
      exact hperm.nodup_iff.mpr hnd
    obtain ⟨P1, hP1, hlen1, hpush, hfreeIds, hA, hB⟩ :=
      PoolInv.finish cinv hocc ho hP (by omega) (hsame1.trans hsame2) hlistf hlist1' hnd1
        (by simp) (fun a ha => by simp [ha]) (fun a ha => by simp [ha])
    have hfull : (P.stack_length == 0) = true := by simpa using hlen0
    by_cases hz : P.stack_length + 1 = c
    · obtain ⟨heap3, free3, hrem3, hinv⟩ := hB hz
      have herase2 : (free ++ [o.pool]).erase o.pool = free := by
        rw [List.erase_append_right _ hpfree]
        simp
      rw [herase2] at hinv
      refine ⟨{ heap := heap3.delete o.pool, free_pools := free3, full_pools := full1L }, P, ?_,
        hP, ⟨fun _ => hpf, fun _ => hlen0⟩, fun h => absurd hz h, fun _ => ?_⟩
      · unfold PoolAllocator.Release
        have he : (P1.stack_length + 1 == c) = true := by rw [hlen1]; simpa using hz
        simp only [hP, hobj, Option.bind_eq_bind, Option.some_bind, Option.pure_def,
          Bool.false_eq_true, if_false, Nat.sub_self, le_refl,
          and_self, if_true, Pool.IsFull, hfull, hrem1, happ, hP1, hpush, Pool.IsEmpty, he,
          hrem3]
      · rw [herase, List.erase_of_not_mem hpfree]
        exact ⟨hdel0 _, hinv⟩
    · have hinv := hA hz
      refine ⟨
        { heap := h2.store o.pool { P1 with
            stack_data := P1.stack_data.set P1.stack_length o.index
            stack_length := P1.stack_length + 1 },
          free_pools := free1L,
          full_pools := full1L }, P, ?_,
        hP, ⟨fun _ => hpf, fun _ => hlen0⟩, fun _ => ?_, fun h => absurd h hz⟩
      · unfold PoolAllocator.Release
        have he : (P1.stack_length + 1 == c) = false := by rw [hlen1]; simpa using hz
        simp only [hP, hobj, Option.bind_eq_bind, Option.some_bind, Option.pure_def,
          Bool.false_eq_true, if_false, Nat.sub_self, le_refl,
          and_self, if_true, Pool.IsFull, hfull, hrem1, happ, hP1, hpush, Pool.IsEmpty, he]
      · rw [if_pos hpf, herase]
        exact ⟨⟨_, PoolHeap.store_same _ _ _, hfreeIds⟩, hinv⟩
  · have hpfree : o.pool ∈ free := by
      by_contra hn
      have := cinv.dom _ hn hpf
      rw [hP] at this
      cases this
    have hlen0 : 0 < P.stack_length := cinv.free_slots _ P hpfree hP
    obtain ⟨P1, hP1, hlen1, hpush, hfreeIds, hA, hB⟩ :=
      PoolInv.finish cinv hocc ho hP (hocc _ P hpfree hP) (SameContents.refl _) hl1 hl2 hnd
        hpfree (fun _ _ => Iff.rfl) (fun _ _ => Iff.rfl)
    rw [hP] at hP1
    cases hP1
    have hfull : (P.stack_length == 0) = false := by
      simpa using Nat.pos_iff_ne_zero.mp hlen0
    have hiff : P.stack_length = 0 ↔ o.pool ∈ full :=
      ⟨fun h => absurd h (Nat.pos_iff_ne_zero.mp hlen0), fun h => absurd h hpf⟩
    by_cases hz : P.stack_length + 1 = c
    · obtain ⟨heap3, free3, hrem3, hinv⟩ := hB hz
      refine ⟨{ heap := heap3.delete o.pool, free_pools := free3, full_pools := s.full_pools },
        P, ?_, hP, hiff, fun h => absurd hz h, fun _ => ?_⟩
      · unfold PoolAllocator.Release
        have he : (P.stack_length + 1 == c) = true := by simpa using hz
        simp only [hP, hobj, Option.bind_eq_bind, Option.some_bind, Option.pure_def,
          Bool.false_eq_true, if_false, Nat.sub_self, le_refl,
          and_self, if_true, Pool.IsFull, hfull, hpush, Pool.IsEmpty, he, hrem3]
      · rw [List.erase_of_not_mem hpf]
        exact ⟨hdel0 _, hinv⟩
    · have hinv := hA hz
      refine ⟨
        { heap := s.heap.store o.pool { P with
            stack_data := P.stack_data.set P.stack_length o.index
            stack_length := P.stack_length + 1 },
          free_pools := s.free_pools,
          full_pools := s.full_pools }, P, ?_,
        hP, hiff, fun _ => ?_, fun h => absurd h hz⟩
      · unfold PoolAllocator.Release
        have he : (P.stack_length + 1 == c) = false := by simpa using hz
        simp only [hP, hobj, Option.bind_eq_bind, Option.some_bind, Option.pure_def,
          Bool.false_eq_true, if_false, Nat.sub_self, le_refl,
          and_self, if_true, Pool.IsFull, hfull, hpush, Pool.IsEmpty, he]
      · rw [if_neg hpf, List.erase_of_not_mem hpf]
        exact ⟨⟨_, PoolHeap.store_same _ _ _, hfreeIds⟩, hinv⟩

theorem PoolInv.init (c : Nat) : PoolInv c PoolAllocator.empty [] [] [] := by
  refine ⟨⟨rfl, rfl, trivial⟩, ⟨rfl, rfl, trivial⟩, List.nodup_nil, ?_, ?_⟩
  · refine ⟨fun _ _ _ => rfl, ?_, ?_, ?_, List.nodup_nil, ?_⟩
    · intro a pool hp; cases hp
    · intro a pool ha; cases ha
    · intro a pool ha; cases ha
    · intro o
      constructor
      · intro h; cases h
      · rintro ⟨pool, hp, _⟩; cases hp
  · intro a pool ha; cases ha

/-- Every state reached by `Allocate` and `Release` is in order. -/
theorem PoolReach.inv {c : Nat} (hc : 0 < c) (hc16 : c ≤ 2 ^ 16) {s : PoolAllocator}
    {live : List ObjectPtr} (h : PoolReach c s live) :
    ∃ free full, PoolInv c s live free full := by
  induction h with
  | init => exact ⟨[], [], PoolInv.init c⟩
  | allocate fresh _ hfresh hrun ih =>
    obtain ⟨free, full, inv⟩ := ih
    obtain ⟨s'', o', P', hrun', -, -, -, hA, hB⟩ :=
      PoolAllocator.Allocate_spec hc hc16 inv fresh hfresh
    rw [hrun] at hrun'
    cases hrun'
    by_cases hz : P'.stack_length = 0
    · exact ⟨_, _, hB hz⟩
    · exact ⟨_, _, hA hz⟩
  | release o _ ho hrun ih =>
    obtain ⟨free, full, inv⟩ := ih
    obtain ⟨s'', P, hrun', -, -, hA, hB⟩ := PoolAllocator.Release_spec inv o ho
    rw [hrun] at hrun'
    cases hrun'
    by_cases hz : P.stack_length + 1 = c
    · exact ⟨_, _, (hB hz).2⟩
    · exact ⟨_, _, (hA hz).2⟩

/-- A list of fewer than `c` numbers misses a number below `c`. -/
theorem exists_not_mem_of_length_lt {c : Nat} {l : List Nat} (h : l.length < c) :
    ∃ x, x < c ∧ x ∉ l := by
  by_contra hn
  have hsub : List.range c ⊆ l := by
    intro x hx
    by_contra hxl
    exact hn ⟨x, List.mem_range.mp hx, hxl⟩
  have := (List.subperm_of_subset (List.nodup_range c) hsub).length_le
  rw [List.length_range] at this
  omega

/-- In a state in order a pool with fewer than `capacity` free slots has a
live object. -/
theorem PoolContentsInv.has_live {c : Nat} {heap : PoolHeap} {live : List ObjectPtr}
    {free full : List Nat} (inv : PoolContentsInv c heap live free full) {a : Nat} {pool : Pool}
    (hp : heap a = some pool) (hlen : pool.stack_length < c) :
    ∃ o, o ∈ live ∧ o.pool = a := by
  have hl : pool.freeIds.length < c := by
    unfold Pool.freeIds
    rw [List.length_take]
    exact lt_of_le_of_lt (Nat.min_le_left _ _) hlen
  obtain ⟨x, hx, hxn⟩ := exists_not_mem_of_length_lt hl
  exact ⟨⟨a, x⟩, (inv.live_iff ⟨a, x⟩).mpr ⟨pool, hp, hx, hxn⟩, rfl⟩

theorem poolDemo1_reach : PoolReach 2 poolDemo1 [⟨0, 0⟩] :=
  PoolReach.allocate 0 PoolReach.init rfl rfl

theorem poolDemo2_reach : PoolReach 2 poolDemo2 [⟨0, 1⟩, ⟨0, 0⟩] :=
  PoolReach.allocate 1 poolDemo1_reach rfl rfl

/-- C12: in every state reached by `Allocate` and `Release` (on live objects)
both lists are well-formed, every pool of the free list has a free slot and
every pool of the full list has none.  `Allocate` returns an object of the
pool at the head of the free list (the pool created at `fresh` when the list
is empty) and that pool goes to the tail of the full list exactly when it has
no free slot left afterwards.  `Release` finds the pool of the object on the
full list exactly when it has no free slot, and then takes it off the full
list and puts it at the tail of the free list (with one object per pool the
pool is empty at once and deleted); otherwise the full list stays and the
free list only loses the pool if all its slots are free. -/
theorem PoolAllocator_list_invariant (c : Nat) (hc : 0 < c) (hc16 : c ≤ 2 ^ 16)
    (s : PoolAllocator) (live : List ObjectPtr) (hreach : PoolReach c s live) :
    ∃ free full, IsList s.heap s.free_pools free ∧ IsList s.heap s.full_pools full
      ∧ (∀ a, a ∈ free → ∃ pool, s.heap a = some pool ∧ 0 < pool.stack_length)
      ∧ (∀ a, a ∈ full → ∃ pool, s.heap a = some pool ∧ pool.stack_length = 0)
      ∧ (∀ fresh, s.heap fresh = none →
          ∃ s' o P', s.Allocate c fresh = some (s', o)
            ∧ some o.pool = (withFresh free fresh).head?
            ∧ s'.heap o.pool = some P'
            ∧ (P'.stack_length = 0 →
                IsList s'.heap s'.free_pools (withFresh free fresh).tail
                ∧ IsList s'.heap s'.full_pools (full ++ [o.pool]))
            ∧ (P'.stack_length ≠ 0 →
                IsList s'.heap s'.free_pools (withFresh free fresh)
                ∧ IsList s'.heap s'.full_pools full))
      ∧ (∀ o, o ∈ live →
          ∃ s' P, s.Release c o = some s' ∧ s.heap o.pool = some P
            ∧ (P.stack_length = 0 ↔ o.pool ∈ full)
            ∧ (o.pool ∈ full →
                IsList s'.heap s'.full_pools (full.erase o.pool)
                ∧ IsList s'.heap s'.free_pools (if c = 1 then free else free ++ [o.pool]))
            ∧ (o.pool ∉ full →
                IsList s'.heap s'.full_pools full
                ∧ IsList s'.heap s'.free_pools
                    (if P.stack_length + 1 = c then free.erase o.pool else free))) := by
  obtain ⟨free, full, inv⟩ := hreach.inv hc hc16
  refine ⟨free, full, inv.free_list, inv.full_list, ?_, ?_, ?_, ?_⟩
  · intro a ha
    obtain ⟨pool, hp⟩ := inv.free_list.2.2.allocated a ha
    exact ⟨pool, hp, inv.contents.free_slots a pool ha hp⟩
  · intro a ha
    obtain ⟨pool, hp⟩ := inv.full_list.2.2.allocated a ha
    exact ⟨pool, hp, inv.contents.full_slots a pool ha hp⟩
  · intro fresh hfresh
    obtain ⟨s', o, P', hrun, hhead, -, hP', hA, hB⟩ :=
      PoolAllocator.Allocate_spec hc hc16 inv fresh hfresh
    exact ⟨s', o, P', hrun, hhead, hP',
      fun hz => ⟨(hB hz).free_list, (hB hz).full_list⟩,
      fun hz => ⟨(hA hz).free_list, (hA hz).full_list⟩⟩
  · intro o ho
    obtain ⟨s', P, hrun, hP, hiff, hA, hB⟩ := PoolAllocator.Release_spec inv o ho
    refine ⟨s', P, hrun, hP, hiff, ?_, ?_⟩
    · intro hpf
      have hlen0 := hiff.mpr hpf
      have hpfree : o.pool ∉ free := fun x => (List.nodup_append.mp inv.nodup).2.2 x hpf
      by_cases hz : P.stack_length + 1 = c
      · have hc1 : c = 1 := by omega
        have := (hB hz).2
        rw [List.erase_of_not_mem hpfree] at this
        rw [if_pos hc1]
        exact ⟨this.full_list, this.free_list⟩
      · have hc1 : c ≠ 1 := by omega
        have := (hA hz).2
        rw [if_pos hpf] at this
        rw [if_neg hc1]
        exact ⟨this.full_list, this.free_list⟩
    · intro hpf
      by_cases hz : P.stack_length + 1 = c
      · have := (hB hz).2
        rw [List.erase_of_not_mem hpf] at this
        rw [if_pos hz]
        exact ⟨this.full_list, this.free_list⟩
      · have := (hA hz).2
        rw [if_neg hpf, List.erase_of_not_mem hpf] at this
        rw [if_neg hz]
        exact ⟨this.full_list, this.free_list⟩

/-- Witness for C12: the allocator for pools of two objects after two
`Allocate`s, where the only pool is on the full list. -/
theorem PoolAllocator_list_invariant_witness :
    (0 < 2 ∧ 2 ≤ 2 ^ 16 ∧ PoolReach 2 poolDemo2 [⟨0, 1⟩, ⟨0, 0⟩])
    ∧ ∃ free full, IsList poolDemo2.heap poolDemo2.free_pools free
      ∧ IsList poolDemo2.heap poolDemo2.full_pools full
      ∧ (∀ a, a ∈ free → ∃ pool, poolDemo2.heap a = some pool ∧ 0 < pool.stack_length)
      ∧ (∀ a, a ∈ full → ∃ pool, poolDemo2.heap a = some pool ∧ pool.stack_length = 0)
      ∧ (∀ fresh, poolDemo2.heap fresh = none →
          ∃ s' o P', poolDemo2.Allocate 2 fresh = some (s', o)
            ∧ some o.pool = (withFresh free fresh).head?
            ∧ s'.heap o.pool = some P'
            ∧ (P'.stack_length = 0 →
                IsList s'.heap s'.free_pools (withFresh free fresh).tail
                ∧ IsList s'.heap s'.full_pools (full ++ [o.pool]))
            ∧ (P'.stack_length ≠ 0 →
                IsList s'.heap s'.free_pools (withFresh free fresh)
                ∧ IsList s'.heap s'.full_pools full))
      ∧ (∀ o, o ∈ [(⟨0, 1⟩ : ObjectPtr), ⟨0, 0⟩] →
          ∃ s' P, poolDemo2.Release 2 o = some s' ∧ poolDemo2.heap o.pool = some P
            ∧ (P.stack_length = 0 ↔ o.pool ∈ full)
            ∧ (o.pool ∈ full →
                IsList s'.heap s'.full_pools (full.erase o.pool)
                ∧ IsList s'.heap s'.free_pools (if 2 = 1 then free else free ++ [o.pool]))
            ∧ (o.pool ∉ full →
                IsList s'.heap s'.full_pools full
                ∧ IsList s'.heap s'.free_pools
                    (if P.stack_length + 1 = 2 then free.erase o.pool else free))) :=
  ⟨⟨by decide, by decide, poolDemo2_reach⟩,
    PoolAllocator_list_invariant 2 (by decide) (by decide) poolDemo2 [⟨0, 1⟩, ⟨0, 0⟩]
      poolDemo2_reach⟩

/-- C13: when `Release` of a live object leaves its pool with all `c` slots
free, the call returns a state in which the pool is deleted and on neither
list, both lists are well-formed lists of the other pools in their previous
order, and every pool still on a list has fewer than `c` free slots and a
live object. -/
theorem Release_deletes_empty_pool (c : Nat) (hc : 0 < c) (hc16 : c ≤ 2 ^ 16)
    (s : PoolAllocator) (live : List ObjectPtr) (hreach : PoolReach c s live)
    (o : ObjectPtr) (ho : o ∈ live) (P : Pool) (hP : s.heap o.pool = some P)
    (hempty : P.stack_length + 1 = c) :
    ∃ free full s', IsList s.heap s.free_pools free ∧ IsList s.heap s.full_pools full
      ∧ s.Release c o = some s'
      ∧ s'.heap o.pool = none
      ∧ o.pool ∉ free.erase o.pool ∧ o.pool ∉ full.erase o.pool
      ∧ IsList s'.heap s'.free_pools (free.erase o.pool)
      ∧ IsList s'.heap s'.full_pools (full.erase o.pool)
      ∧ (∀ a, a ∈ free.erase o.pool ++ full.erase o.pool →
          ∃ pool, s'.heap a = some pool ∧ pool.stack_length < c
            ∧ ∃ o', o' ∈ live.erase o ∧ o'.pool = a) := by
  obtain ⟨free, full, inv⟩ := hreach.inv hc hc16
  obtain ⟨s', P0, hrun, hP0, -, -, hB⟩ := PoolAllocator.Release_spec inv o ho
  rw [hP] at hP0
  cases hP0
  obtain ⟨hnone, inv'⟩ := hB hempty
  have hnot : ∀ (l : PoolList) (ps : List Nat), IsList s'.heap l ps → o.pool ∉ ps := by
    intro l ps hl hmem
    obtain ⟨pool, hp⟩ := hl.2.2.allocated _ hmem
    rw [hnone] at hp
    cases hp
  refine ⟨free, full, s', inv.free_list, inv.full_list, hrun, hnone,
    hnot _ _ inv'.free_list, hnot _ _ inv'.full_list,
    inv'.free_list, inv'.full_list, ?_⟩
  intro a ha
  rcases List.mem_append.mp ha with h | h
  · obtain ⟨pool, hp⟩ := inv'.free_list.2.2.allocated a h
    have hlen := inv'.occupied a pool h hp
    exact ⟨pool, hp, hlen, inv'.contents.has_live hp hlen⟩
  · obtain ⟨pool, hp⟩ := inv'.full_list.2.2.allocated a h
    have hlen : pool.stack_length < c := by
      rw [inv'.contents.full_slots a pool h hp]
      exact hc
    exact ⟨pool, hp, hlen, inv'.contents.has_live hp hlen⟩

/-- Witness for C13: the allocator for pools of two objects after one
`Allocate`; the release of the only live object empties the pool. -/
theorem Release_deletes_empty_pool_witness :
    (0 < 2 ∧ 2 ≤ 2 ^ 16 ∧ PoolReach 2 poolDemo1 [⟨0, 0⟩]
      ∧ (⟨0, 0⟩ : ObjectPtr) ∈ [(⟨0, 0⟩ : ObjectPtr)]
      ∧ poolDemo1.heap 0 = some (demoPool 1) ∧ (demoPool 1).stack_length + 1 = 2)
    ∧ ∃ free full s', IsList poolDemo1.heap poolDemo1.free_pools free
      ∧ IsList poolDemo1.heap poolDemo1.full_pools full
      ∧ poolDemo1.Release 2 ⟨0, 0⟩ = some s'
      ∧ s'.heap 0 = none
      ∧ 0 ∉ free.erase 0 ∧ 0 ∉ full.erase 0
      ∧ IsList s'.heap s'.free_pools (free.erase 0)
      ∧ IsList s'.heap s'.full_pools (full.erase 0)
      ∧ (∀ a, a ∈ free.erase 0 ++ full.erase 0 →
          ∃ pool, s'.heap a = some pool ∧ pool.stack_length < 2
            ∧ ∃ o', o' ∈ [(⟨0, 0⟩ : ObjectPtr)].erase ⟨0, 0⟩ ∧ o'.pool = a) :=
  ⟨⟨by decide, by decide, poolDemo1_reach, by decide, rfl, rfl⟩,
    Release_deletes_empty_pool 2 (by decide) (by decide) poolDemo1 [⟨0, 0⟩] poolDemo1_reach
      ⟨0, 0⟩ (by decide) (demoPool 1) rfl rfl⟩

/-- C20: in every state reached by `Allocate` and `Release` (on live objects)
no slot is live twice, and the free stack of every pool holds each slot id of
the pool that is not live exactly once.  `Allocate` returns an object that is
not live.  `Release` of a live object returns: the object carries its own
index as `id`, so `obj - obj->id` is the first object of its pool, its id is
not on the free stack, and afterwards the free stack of the pool is the old
one with this id on top (or the pool is deleted, when all its slots are
free). -/
theorem Allocate_never_aliases (c : Nat) (hc : 0 < c) (hc16 : c ≤ 2 ^ 16)
    (s : PoolAllocator) (live : List ObjectPtr) (hreach : PoolReach c s live) :
    live.Nodup
      ∧ (∀ pool P, s.heap pool = some P →
          P.freeIds.Nodup
          ∧ ∀ i, i < c → (i ∈ P.freeIds ↔ (⟨pool, i⟩ : ObjectPtr) ∉ live))
      ∧ (∀ fresh, s.heap fresh = none →
          ∃ s' o, s.Allocate c fresh = some (s', o) ∧ o ∉ live)
      ∧ (∀ o, o ∈ live →
          ∃ s' P, s.Release c o = some s' ∧ s.heap o.pool = some P
            ∧ P.objects[o.index]? = some o.index
            ∧ o.index ∉ P.freeIds
            ∧ (P.stack_length + 1 ≠ c →
                ∃ P', s'.heap o.pool = some P' ∧ P'.freeIds = P.freeIds ++ [o.index])
            ∧ (P.stack_length + 1 = c → s'.heap o.pool = none)) := by
  obtain ⟨free, full, inv⟩ := hreach.inv hc hc16
  refine ⟨inv.contents.live_nodup, ?_, ?_, ?_⟩
  · intro pool P hP
    refine ⟨(inv.contents.wf pool P hP).2.2.2.1, ?_⟩
    intro i hi
    rw [inv.contents.live_iff]
    constructor
    · rintro hmem ⟨P0, hP0, -, hn⟩
      simp only at hP0 hn
      rw [hP] at hP0
      cases hP0
      exact hn hmem
    · intro hn
      by_contra hmem
      exact hn ⟨P, hP, hi, hmem⟩
  · intro fresh hfresh
    obtain ⟨s', o, P', hrun, -, hnot, -⟩ :=
      PoolAllocator.Allocate_spec hc hc16 inv fresh hfresh
    exact ⟨s', o, hrun, hnot⟩
  · intro o ho
    obtain ⟨s', P, hrun, hP, -, hA, hB⟩ := PoolAllocator.Release_spec inv o ho
    obtain ⟨P0, hP0, hindex, hn⟩ := (inv.contents.live_iff o).mp ho
    rw [hP] at hP0
    cases hP0
    refine ⟨s', P, hrun, hP, ?_, hn, fun h => (hA h).1, fun h => (hB h).1⟩
    rw [(inv.contents.wf _ P hP).1, List.getElem?_range hindex]

/-- Witness for C20: the allocator for pools of two objects after two
`Allocate`s, with the two slots of the pool live. -/
theorem Allocate_never_aliases_witness :
    (0 < 2 ∧ 2 ≤ 2 ^ 16 ∧ PoolReach 2 poolDemo2 [⟨0, 1⟩, ⟨0, 0⟩])
    ∧ ([(⟨0, 1⟩ : ObjectPtr), ⟨0, 0⟩].Nodup
      ∧ (∀ pool P, poolDemo2.heap pool = some P →
          P.freeIds.Nodup
          ∧ ∀ i, i < 2 →
              (i ∈ P.freeIds ↔ (⟨pool, i⟩ : ObjectPtr) ∉ [(⟨0, 1⟩ : ObjectPtr), ⟨0, 0⟩]))
      ∧ (∀ fresh, poolDemo2.heap fresh = none →
          ∃ s' o, poolDemo2.Allocate 2 fresh = some (s', o)
            ∧ o ∉ [(⟨0, 1⟩ : ObjectPtr), ⟨0, 0⟩])
      ∧ (∀ o, o ∈ [(⟨0, 1⟩ : ObjectPtr), ⟨0, 0⟩] →
          ∃ s' P, poolDemo2.Release 2 o = some s' ∧ poolDemo2.heap o.pool = some P
            ∧ P.objects[o.index]? = some o.index
            ∧ o.index ∉ P.freeIds
            ∧ (P.stack_length + 1 ≠ 2 →
                ∃ P', s'.heap o.pool = some P' ∧ P'.freeIds = P.freeIds ++ [o.index])
            ∧ (P.stack_length + 1 = 2 → s'.heap o.pool = none))) :=
  ⟨⟨by decide, by decide, poolDemo2_reach⟩,
    Allocate_never_aliases 2 (by decide) (by decide) poolDemo2 [⟨0, 1⟩, ⟨0, 0⟩]
      poolDemo2_reach⟩

/-! ## Theorems: micro-block accounting -/

theorem and_mask (n lo w : Nat) :
    n &&& ((2 ^ w - 1) * 2 ^ lo) = (n / 2 ^ lo % 2 ^ w) * 2 ^ lo := by
  apply Nat.eq_of_testBit_eq
  intro i
  rw [Nat.testBit_and, Nat.mul_comm _ (2 ^ lo), Nat.mul_comm _ (2 ^ lo),
    Nat.testBit_mul_pow_two, Nat.testBit_mul_pow_two, Nat.testBit_two_pow_sub_one,
    Nat.testBit_mod_two_pow, ← Nat.shiftRight_eq_div_pow, Nat.testBit_shiftRight]
  by_cases h : lo ≤ i
  · have : lo + (i - lo) = i := by omega
    rw [this]
    cases n.testBit i <;> simp [h]
  · simp [h]

/-- The mask test of `TranslateThumb` is the test on the bit fields. -/
theorem thumbDetect_eq_spec (instruction : Nat) :
    thumbDetect instruction = specThumbBranch instruction := by
  have h1 : instruction &&& 0xF000 = (instruction / 2 ^ 12 % 2 ^ 4) * 2 ^ 12 :=
    and_mask instruction 12 4
  have h2 : instruction &&& 0xF00 = (instruction / 2 ^ 8 % 2 ^ 4) * 2 ^ 8 :=
    and_mask instruction 8 4
  unfold thumbDetect specThumbBranch bitField
  simp only [h1, h2]
  have e1 : instruction % 2 ^ 16 / 2 ^ 12 % 2 ^ (15 + 1 - 12) = instruction / 2 ^ 12 % 2 ^ 4 := by
    norm_num
    omega
  have e2 : instruction % 2 ^ 16 / 2 ^ 8 % 2 ^ (11 + 1 - 8) = instruction / 2 ^ 8 % 2 ^ 4 := by
    norm_num
    omega
  have e3 : Condition.ofField (instruction % 2 ^ 16 / 2 ^ 8)
      = Condition.ofField (instruction / 2 ^ 8 % 2 ^ 4) := by
    unfold Condition.ofField
    have : instruction % 2 ^ 16 / 2 ^ 8 % 16 = instruction / 2 ^ 8 % 2 ^ 4 % 16 := by
      norm_num
      omega
    rw [this]
  rw [e1, e2, e3]
  simp only [Bool.and_eq_true, beq_iff_eq, bne_iff_ne, ne_eq]
  by_cases c : instruction / 2 ^ 12 % 2 ^ 4 = 0b1101 ∧ ¬ instruction / 2 ^ 8 % 2 ^ 4 = 0b1111
  · rw [if_pos c, if_pos ⟨by omega, by omega⟩]
  · rw [if_neg c, if_neg]
    rintro ⟨a, b⟩
    exact c ⟨by omega, by omega⟩

theorem conditionSlots_append (a b : List MicroBlock) :
    conditionSlots (a ++ b) = conditionSlots a ++ conditionSlots b := by
  induction a with
  | nil => rfl
  | cons mb rest ih =>
    show List.replicate mb.length mb.condition ++ conditionSlots (rest ++ b) = _
    rw [ih]
    simp [conditionSlots]

theorem conditionSlots_snoc (a : List MicroBlock) (mb : MicroBlock) :
    conditionSlots (a ++ [mb]) = conditionSlots a ++ List.replicate mb.length mb.condition := by
  rw [conditionSlots_append]
  simp [conditionSlots]

theorem conditionSlots_length (l : List MicroBlock) :
    (conditionSlots l).length = (l.map (fun mb => mb.length)).sum := by
  induction l with
  | nil => rfl
  | cons mb rest ih => simp [conditionSlots, ih]

theorem microBlockStarts_snoc (offset : Nat) (l : List MicroBlock) (mb : MicroBlock) :
    microBlockStarts offset (l ++ [mb])
      = microBlockStarts offset l ++ [offset + (l.map (fun mb => mb.length)).sum] := by
  induction l generalizing offset with
  | nil => simp [microBlockStarts]
  | cons x rest ih =>
    show offset :: microBlockStarts (offset + x.length) (rest ++ [mb]) = _
    rw [ih]
    simp [microBlockStarts, Nat.add_assoc]

theorem microBlockStarts_length (offset : Nat) (l : List MicroBlock) :
    (microBlockStarts offset l).length = l.length := by
  induction l generalizing offset with
  | nil => rfl
  | cons x rest ih => simp [microBlockStarts, ih]

/-- A loop invariant of `blockLoop` that every returning loop body carries
from instruction `i` to instruction `i + 1` holds when the loop returns, for
the number `L` of instructions it has decoded. -/
theorem blockLoop_invariant {iteration : Nat → LoopState → Except TranslateError LoopState}
    (size : Nat) (t0 : Translator) (Inv : Nat → LoopState → Prop)
    (hadv : ∀ i s, Inv i s → Inv i (advance s size))
    (hstep : ∀ i s s1, s.translator = t0.at size i → Inv i s → iteration i s = .ok s1 →
      Inv (i + 1) s1 ∧ s1.translator = s.translator) (n : Nat) :
    ∀ (i : Nat) (s s' : LoopState), s.translator = t0.at size i → Inv i s →
      blockLoop iteration size n i s = .ok s' →
      ∃ L, i ≤ L ∧ L ≤ i + n ∧ Inv L s' := by
  induction n with
  | zero =>
    intro i s s' _ inv h
    unfold blockLoop at h
    cases h
    exact ⟨i, le_refl _, le_refl _, inv⟩
  | succ n ih =>
    intro i s s' ht inv h
    unfold blockLoop at h
    cases hit : iteration i s with
    | error e => rw [hit] at h; cases h
    | ok s1 =>
      rw [hit] at h
      simp only at h
      obtain ⟨inv1, ht1⟩ := hstep i s s1 ht inv hit
      split at h
      · cases h
        exact ⟨i + 1, by omega, by omega, inv1⟩
      · have ht2 : (advance s1 size).translator = t0.at size (i + 1) := by
          have := advance_translator_at s1 size 0
          rw [Translator.at_zero _ size (advance_code_address_lt _ size), ht1, ht] at this
          rw [this]
          unfold Translator.at
          simp only [Nat.mod_add_mod]
          have e : t0.code_address + size * i + size * (0 + 1)
              = t0.code_address + size * (i + 1) := by ring
          rw [e]
        obtain ⟨L, h1, h2, h3⟩ := ih (i + 1) _ s' ht2 (hadv _ _ inv1) h
        exact ⟨L, by omega, by omega, h3⟩

/-- Opening a new micro-block keeps the accounting. -/
theorem CountInv.after_break {cond : Nat → Condition} {pre : List MicroBlock}
    {len0 i : Nat} {s : LoopState} {mbs : List MicroBlock} (c : Condition)
    (inv : CountInv cond pre len0 i s mbs) :
    CountInv cond pre len0 i (Lunatic.break_micro_block s c) (mbs ++ [s.micro_block]) := by
  obtain ⟨h1, h2, h3⟩ := inv
  refine ⟨?_, ?_, ?_⟩
  · simp [Lunatic.break_micro_block, add_micro_block, h1]
  · rw [conditionSlots_snoc, h2]
    simp [Lunatic.break_micro_block, MicroBlock.new]
  · simpa [Lunatic.break_micro_block, add_micro_block] using h3

/-- The lifter call and the two increments count instruction `i` in the
current micro-block. -/
theorem CountInv.after_count {cond : Nat → Condition} {pre : List MicroBlock}
    {len0 i : Nat} {s : LoopState} {mbs : List MicroBlock} (lifted : Lifted)
    (inv : CountInv cond pre len0 i s mbs) (hc : s.micro_block.condition = cond i) :
    CountInv cond pre len0 (i + 1) (countInstruction (applyLifted s lifted)) mbs := by
  obtain ⟨h1, h2, h3⟩ := inv
  rw [conditionSlots_snoc] at h2
  refine ⟨?_, ?_, ?_⟩
  · simpa [countInstruction, applyLifted] using h1
  · rw [conditionSlots_snoc, List.range_succ, List.map_append, ← h2]
    simp [countInstruction, applyLifted, List.replicate_succ', hc]
  · simp [countInstruction, applyLifted, h3]
    omega

/-- The condition tracking of `TranslateARM` keeps the accounting and leaves
the condition of instruction `i` on the current micro-block. -/
theorem CountInv.after_armTrack {cond : Nat → Condition} {pre : List MicroBlock}
    {len0 i : Nat} {s : LoopState} {mbs : List MicroBlock}
    (inv : CountInv cond pre len0 i s mbs) :
    ∃ mbs1, CountInv cond pre len0 i (Lunatic.armTrack i s (cond i)) mbs1
      ∧ (Lunatic.armTrack i s (cond i)).micro_block.condition = cond i := by
  unfold Lunatic.armTrack
  by_cases hi : i = 0
  · subst hi
    obtain ⟨h1, h2, h3⟩ := inv
    rw [conditionSlots_snoc] at h2
    simp only [List.range_zero, List.map_nil, List.append_eq_nil, List.replicate_eq_nil_iff] at h2
    refine ⟨mbs, ⟨h1, ?_, h3⟩, rfl⟩
    rw [conditionSlots_snoc]
    simp [h2.1, h2.2]
  · have hb : (i == 0) = false := by simpa using hi
    simp only [hb, Bool.false_eq_true, if_false]
    by_cases hne : cond i = s.micro_block.condition
    · have hb2 : (cond i != s.micro_block.condition) = false := by simp [hne]
      rw [hb2]
      exact ⟨mbs, inv, hne.symm⟩
    · have hb2 : (cond i != s.micro_block.condition) = true := by simpa using hne
      rw [hb2]
      exact ⟨_, inv.after_break (cond i), rfl⟩

/-- One loop body of `TranslateARM` keeps the accounting. -/
theorem armStep_count (env : Environment) (t : Translator) (pre : List MicroBlock)
    (len0 i : Nat) (s : LoopState) (mbs : List MicroBlock) (lifted : Lifted)
    (inv : CountInv (armConditionAt env t) pre len0 i s mbs) :
    ∃ mbs', CountInv (armConditionAt env t) pre len0 (i + 1)
      (armStep i s (armConditionAt env t i) lifted) mbs' := by
  obtain ⟨mbs1, inv1, hc⟩ := inv.after_armTrack
  have inv2 := inv1.after_count lifted hc
  unfold armStep
  simp only
  split
  · exact ⟨_, inv2.after_break _⟩
  · exact ⟨_, inv2⟩

theorem CountInv.advance {cond : Nat → Condition} {pre : List MicroBlock}
    {len0 i : Nat} {s : LoopState} {mbs : List MicroBlock} (size : Nat)
    (inv : CountInv cond pre len0 i s mbs) :
    CountInv cond pre len0 i (Lunatic.advance s size) mbs :=
  ⟨inv.pushed, inv.slots, inv.length⟩

/-- The micro-blocks a returning `TranslateARM` leaves behind, with their
accounting. -/
theorem TranslateARM_count (env : Environment) (t : Translator) (bb : BasicBlock)
    (st : Status) (t2 : Translator) (bb2 : BasicBlock) (hc : t.code_address < 2 ^ 32)
    (hrun : TranslateARM env t bb = .ok (st, t2, bb2)) :
    ∃ L mbs s', bb2.micro_blocks = bb.micro_blocks ++ (mbs ++ [s'.micro_block])
      ∧ bb2.length = bb.length + L
      ∧ CountInv (armConditionAt env t) bb.micro_blocks bb.length L s' mbs := by
  obtain ⟨s', hloop, -, -, rfl⟩ := (TranslateARM_ok_iff env t bb st t2 bb2).mp hrun
  have h0 : CountInv (armConditionAt env t) bb.micro_blocks bb.length 0
      (loopStart t bb env.default_condition) [] :=
    ⟨by simp [loopStart], by simp [loopStart, MicroBlock.new, conditionSlots], by simp [loopStart]⟩
  obtain ⟨L, -, -, mbs, inv⟩ :=
    blockLoop_invariant 4 t
      (fun i s => ∃ mbs, CountInv (armConditionAt env t) bb.micro_blocks bb.length i s mbs)
      (fun i s ⟨mbs, inv⟩ => ⟨mbs, inv.advance 4⟩)
      (by
        intro i s s1 ht ⟨mbs, inv⟩ hit
        rw [armIteration_eq env t i s ht] at hit
        split at hit
        · cases hit
        · simp only [Except.ok.injEq] at hit
          subst hit
          exact ⟨armStep_count env t _ _ i s mbs _ inv, (armStep_frame i s _ _).1⟩)
      _ 0 _ s' (Translator.at_zero t 4 hc).symm ⟨[], h0⟩ hloop
  refine ⟨L, mbs, s', ?_, ?_, inv⟩
  · simp [add_micro_block, inv.pushed]
  · simpa [add_micro_block] using inv.length

/-! ### Micro-blocks of `TranslateThumb` -/

/-- The detection at the head of the loop body of `TranslateThumb`, by the
bit fields of the instruction. -/
theorem thumbTrack_eq (i : Nat) (s : LoopState) (instruction : Nat) :
    thumbTrack i s instruction = specThumbTrack i s instruction := by
  unfold specThumbTrack
  rw [← thumbDetect_eq_spec]
  unfold thumbTrack thumbDetect
  split
  · simp only
    by_cases hi : i = 0
    · simp [hi]
    · simp [hi]
  · rfl

theorem thumbStep_frame (i : Nat) (s : LoopState) (instruction : Nat) (lifted : Lifted) :
    (thumbStep i s instruction lifted).translator = s.translator := by
  unfold thumbStep
  simp [countInstruction, applyLifted, (thumbTrack_frame i s instruction).1]

/-- The loop body of `TranslateThumb` on the `i`-th instruction of the block. -/
theorem thumbIteration_eq (env : Environment) (t0 : Translator) (i : Nat) (s : LoopState)
    (ht : s.translator = t0.at 2 i) :
    thumbIteration env i s =
      if (thumbLift env (t0.at 2 i)).status = Status.Unimplemented then
        .error (TranslateError.UnknownOpcode (thumbFetch env (t0.at 2 i).code_address)
          (t0.at 2 i).code_address 1)
      else .ok (thumbStep i s (thumbFetch env (t0.at 2 i).code_address)
        (thumbLift env (t0.at 2 i))) := by
  unfold thumbIteration thumbStep thumbLift
  have hf2 : (thumbTrack i s (thumbFetch env (t0.at 2 i).code_address)).translator
      = t0.at 2 i := by
    rw [(thumbTrack_frame i s (thumbFetch env (t0.at 2 i).code_address)).1, ht]
  simp only [ht, hf2]
  by_cases h : (env.decode_thumb (thumbFetch env (t0.at 2 i).code_address) (t0.at 2 i)).status
      = Status.Unimplemented
  · rw [if_pos h]
    simp [applyLifted, h, hf2]
  · rw [if_neg h]
    have hb : ((applyLifted
        (thumbTrack i s (thumbFetch env (t0.at 2 i).code_address))
        (env.decode_thumb (thumbFetch env (t0.at 2 i).code_address) (t0.at 2 i))).status
          == Status.Unimplemented) = false := by
      simpa [applyLifted] using h
    rw [hb]
    simp

theorem thumbConditionAt_of_branch (env : Environment) (t : Translator) (i : Nat)
    (c : Condition) (h : thumbBranchAt env t i = some c) : thumbConditionAt env t i = c := by
  cases i <;> simp [thumbConditionAt, h]

theorem thumbConditionAt_of_none (env : Environment) (t : Translator) (i : Nat)
    (h : thumbBranchAt env t i = none) :
    thumbConditionAt env t i
      = if 0 < i then thumbConditionAt env t (i - 1) else Condition.AL := by
  cases i <;> simp [thumbConditionAt, h]

theorem thumbStarts_succ (env : Environment) (t : Translator) (i : Nat) :
    (List.range (i + 1)).filter (fun j => decide (0 < j) && (thumbBranchAt env t j).isSome)
      = (List.range i).filter (fun j => decide (0 < j) && (thumbBranchAt env t j).isSome)
        ++ (if 0 < i ∧ (thumbBranchAt env t i).isSome = true then [i] else []) := by
  rw [List.range_succ, List.filter_append]
  congr 1
  by_cases h : 0 < i ∧ (thumbBranchAt env t i).isSome = true
  · rw [if_pos h]
    simp [List.filter_cons, h.1, h.2]
  · rw [if_neg h]
    simp only [List.filter_cons, List.filter_nil]
    split
    · rename_i hp
      simp only [Bool.and_eq_true, decide_eq_true_eq] at hp
      exact absurd hp h
    · rfl

/-- One loop body of `TranslateThumb` keeps the micro-block bookkeeping. -/
theorem thumbStep_inv (env : Environment) (t : Translator) (pre : List MicroBlock)
    (len0 i : Nat) (s : LoopState) (mbs : List MicroBlock) (lifted : Lifted)
    (inv : ThumbInv env t pre len0 i s mbs) :
    ∃ mbs', ThumbInv env t pre len0 (i + 1)
      (thumbStep i s (thumbFetch env (t.at 2 i).code_address) lifted) mbs' := by
  obtain ⟨hcount, hstarts, hfirst, hcur⟩ := inv
  have hsum : ((mbs ++ [s.micro_block]).map (fun mb => mb.length)).sum = i := by
    rw [← conditionSlots_length, hcount.slots]
    simp
  have hnil : i = 0 → mbs = [] := by
    intro hi
    subst hi
    have := congrArg List.length hstarts
    rw [microBlockStarts_length] at this
    simp at this
    exact this
  unfold thumbStep
  rw [thumbTrack_eq]
  unfold specThumbTrack
  have hb : specThumbBranch (thumbFetch env (t.at 2 i).code_address) = thumbBranchAt env t i :=
    rfl
  rw [hb]
  cases hbr : thumbBranchAt env t i with
  | none =>
    simp only
    have hcond : s.micro_block.condition = thumbConditionAt env t i := by
      rw [thumbConditionAt_of_none env t i hbr, hcur]
    refine ⟨mbs, hcount.after_count lifted hcond, ?_, ?_, ?_⟩
    · rw [microBlockStarts_snoc] at hstarts ⊢
      rw [hstarts, thumbStarts_succ, hbr]
      simp
    · intro mb hmb
      rw [if_pos (Nat.succ_pos i)]
      cases mbs with
      | nil =>
        simp only [List.nil_append, List.head?_cons, Option.some.injEq] at hmb
        subst hmb
        show s.micro_block.condition = _
        by_cases hi : 0 < i
        · have := hfirst s.micro_block rfl
          rw [if_pos hi] at this
          exact this
        · have hi0 : i = 0 := by omega
          rw [hcond, hi0]
      | cons m rest =>
        have hi : 0 < i := by
          by_contra hn
          have := hnil (by omega)
          cases this
        simp only [List.cons_append, List.head?_cons, Option.some.injEq] at hmb
        subst hmb
        have := hfirst m rfl
        rw [if_pos hi] at this
        exact this
    · show s.micro_block.condition = _
      rw [if_pos (Nat.succ_pos i), Nat.add_sub_cancel]
      exact hcond
  | some c =>
    simp only
    have hc : thumbConditionAt env t i = c := thumbConditionAt_of_branch env t i c hbr
    by_cases hi : i = 0
    · subst hi
      have hm := hnil rfl
      subst hm
      rw [if_pos rfl]
      have hslots := hcount.slots
      rw [conditionSlots_snoc] at hslots
      simp only [List.range_zero, List.map_nil, List.append_eq_nil,
        List.replicate_eq_nil_iff] at hslots
      have hcount1 : CountInv (thumbConditionAt env t) pre len0 0
          { s with micro_block := { s.micro_block with condition := c } } [] := by
        refine ⟨hcount.pushed, ?_, hcount.length⟩
        rw [conditionSlots_snoc]
        simp [hslots.2, conditionSlots]
      refine ⟨[], hcount1.after_count lifted hc.symm, ?_, ?_, ?_⟩
      · rw [thumbStarts_succ]
        simp [microBlockStarts]
      · intro mb hmb
        simp only [List.nil_append, List.head?_cons, Option.some.injEq] at hmb
        subst hmb
        rw [if_pos (Nat.succ_pos 0)]
        exact hc.symm
      · rw [if_pos (Nat.succ_pos 0)]
        exact hc.symm
    · rw [if_neg hi]
      have hpos : 0 < i := Nat.pos_of_ne_zero hi
      refine ⟨mbs ++ [s.micro_block],
        (hcount.after_break c).after_count lifted hc.symm, ?_, ?_, ?_⟩
      · rw [microBlockStarts_snoc, hstarts, hsum, thumbStarts_succ, hbr]
        simp [hpos]
      · intro mb hmb
        rw [if_pos (Nat.succ_pos i)]
        have hhead : (mbs ++ [s.micro_block]).head? = some mb := by
          cases mbs with
          | nil => simpa using hmb
          | cons m rest => simpa using hmb
        have := hfirst mb hhead
        rw [if_pos hpos] at this
        exact this
      · rw [if_pos (Nat.succ_pos i), Nat.add_sub_cancel]
        exact hc.symm

theorem ThumbInv.advance_state {env : Environment} {t : Translator} {pre : List MicroBlock}
    {len0 i : Nat} {s : LoopState} {mbs : List MicroBlock} (size : Nat)
    (inv : ThumbInv env t pre len0 i s mbs) :
    ThumbInv env t pre len0 i (Lunatic.advance s size) mbs :=
  ⟨inv.count.advance size, inv.starts, inv.first, inv.current⟩

/-- The micro-blocks a returning `TranslateThumb` leaves behind, with their
bookkeeping. -/
theorem TranslateThumb_inv (env : Environment) (t : Translator) (bb : BasicBlock)
    (st : Status) (t2 : Translator) (bb2 : BasicBlock) (hc : t.code_address < 2 ^ 32)
    (hrun : TranslateThumb env t bb = .ok (st, t2, bb2)) :
    ∃ L mbs s', bb2.micro_blocks = bb.micro_blocks ++ (mbs ++ [s'.micro_block])
      ∧ bb2.length = bb.length + L
      ∧ ThumbInv env t bb.micro_blocks bb.length L s' mbs := by
  obtain ⟨s', hloop, -, -, rfl⟩ := (TranslateThumb_ok_iff env t bb st t2 bb2).mp hrun
  have h0 : ThumbInv env t bb.micro_blocks bb.length 0 (loopStart t bb Condition.AL) [] := by
    refine ⟨⟨by simp [loopStart], by simp [loopStart, MicroBlock.new, conditionSlots],
      by simp [loopStart]⟩, by simp [microBlockStarts], ?_, by simp [loopStart, MicroBlock.new]⟩
    intro mb hmb
    simp only [List.nil_append, List.head?_cons, Option.some.injEq] at hmb
    subst hmb
    simp [loopStart, MicroBlock.new]
  obtain ⟨L, -, -, mbs, inv⟩ :=
    blockLoop_invariant 2 t
      (fun i s => ∃ mbs, ThumbInv env t bb.micro_blocks bb.length i s mbs)
      (fun i s ⟨mbs, inv⟩ => ⟨mbs, inv.advance_state 2⟩)
      (by
        intro i s s1 ht ⟨mbs, inv⟩ hit
        rw [thumbIteration_eq env t i s ht] at hit
        split at hit
        · cases hit
        · simp only [Except.ok.injEq] at hit
          subst hit
          exact ⟨thumbStep_inv env t _ _ i s mbs _ inv, thumbStep_frame i s _ _⟩)
      _ 0 _ s' (Translator.at_zero t 2 hc).symm ⟨[], h0⟩ hloop
  refine ⟨L, mbs, s', ?_, ?_, inv⟩
  · simp [add_micro_block, inv.count.pushed]
  · simpa [add_micro_block] using inv.count.length

theorem microBlockStarts_ge (offset : Nat) (l : List MicroBlock) (k start : Nat)
    (h : (microBlockStarts offset l)[k]? = some start) : offset ≤ start := by
  induction l generalizing offset k with
  | nil => simp [microBlockStarts] at h
  | cons mb rest ih =>
    cases k with
    | zero =>
      simp only [microBlockStarts, List.getElem?_cons_zero, Option.some.injEq] at h
      omega
    | succ k =>
      simp only [microBlockStarts, List.getElem?_cons_succ] at h
      have := ih _ _ h
      omega

/-- When the instruction slots of a list of micro-blocks carry the conditions
`c offset, c (offset + 1), ...`, every instruction is counted by exactly one
micro-block, and that micro-block has the condition of the instruction. -/
theorem countsFrom_unique (c : Nat → Condition) (l : List MicroBlock) :
    ∀ (offset m : Nat),
      conditionSlots l = (List.range m).map (fun j => c (offset + j)) →
      ∀ j, offset ≤ j → j < offset + m → ∃! k, countsFrom offset l j k (c j) := by
  induction l with
  | nil =>
    intro offset m hslots j h1 h2
    have := congrArg List.length hslots
    simp [conditionSlots] at this
    omega
  | cons mb rest ih =>
    intro offset m hslots j h1 h2
    have hlen := congrArg List.length hslots
    simp only [conditionSlots, List.length_append, List.length_replicate, List.length_map,
      List.length_range] at hlen
    have hm : m = mb.length + (m - mb.length) := by omega
    rw [hm, List.range_add, List.map_append, List.map_map] at hslots
    have hsplit := List.append_inj hslots (by simp)
    obtain ⟨hhead, htail⟩ := hsplit
    have htail' : conditionSlots rest
        = (List.range (m - mb.length)).map (fun j => c (offset + mb.length + j)) := by
      rw [htail]
      apply List.map_congr_left
      intro a _
      simp [Nat.add_assoc]
    by_cases hj : j < offset + mb.length
    · refine ⟨0, ⟨mb, offset, by simp, by simp [microBlockStarts], h1, hj, ?_⟩, ?_⟩
      · have := congrArg (fun l => l[j - offset]?) hhead
        simp only at this
        rw [List.getElem?_replicate, List.getElem?_map, List.getElem?_range (by omega)] at this
        rw [if_pos (by omega)] at this
        simp only [Option.map_some', Option.some.injEq] at this
        rw [this]
        congr 1
        omega
      · rintro k ⟨mb', start, hk, hs, hle, hlt, -⟩
        cases k with
        | zero => rfl
        | succ k =>
          simp only [microBlockStarts, List.getElem?_cons_succ] at hs
          have := microBlockStarts_ge _ _ _ _ hs
          omega
    · obtain ⟨k, ⟨mb', start, hk, hs, hle, hlt, hc⟩, huniq⟩ :=
        ih (offset + mb.length) (m - mb.length) htail' j (by omega) (by omega)
      refine ⟨k + 1, ⟨mb', start, by simpa using hk, by simpa [microBlockStarts] using hs,
        hle, hlt, hc⟩, ?_⟩
      rintro k2 ⟨mb2, start2, hk2, hs2, hle2, hlt2, hc2⟩
      cases k2 with
      | zero =>
        simp only [microBlockStarts, List.getElem?_cons_zero, Option.some.injEq] at hk2 hs2
        subst hk2 hs2
        omega
      | succ k2 =>
        simp only [microBlockStarts, List.getElem?_cons_succ] at hk2 hs2
        have := huniq k2 ⟨mb2, start2, hk2, hs2, hle2, hlt2, hc2⟩
        rw [this]

/-- The accounting of a translation in terms of single instructions. -/
theorem countsUnder_unique (c : Nat → Condition) (l : List MicroBlock) (n : Nat)
    (hslots : conditionSlots l = (List.range n).map c) (j : Nat) (hj : j < n) :
    ∃! k, countsUnder l j k (c j) := by
  unfold countsUnder
  apply countsFrom_unique c l 0 n _ j (Nat.zero_le _) (by omega)
  rw [hslots]
  apply List.map_congr_left
  intro a _
  simp

/-- C21. The test of `TranslateThumb` picks exactly the instructions whose low
halfword has bits 15 to 12 equal to `0b1101` and bits 11 to 8 different from
`0b1111`, and reads the condition from bits 11 to 8; for such an instruction
the loop body sets the condition of the current micro-block when `i = 0` and
opens a new micro-block with that condition when `i > 0`, for every other
instruction it leaves the micro-blocks alone.  For a returning run over `L`
instructions the appended micro-blocks start at instruction 0 and at exactly
the conditional branches with index above 0, each instruction is counted
under the condition of the last conditional branch up to it (`AL` when there
is none), and the first micro-block has condition `AL` unless instruction 0
is a conditional branch. -/
theorem TranslateThumb_predicate_detection (env : Environment) (t : Translator)
    (bb : BasicBlock) (st : Status) (t2 : Translator) (bb2 : BasicBlock)
    (hc : t.code_address < 2 ^ 32)
    (hrun : TranslateThumb env t bb = .ok (st, t2, bb2)) :
    (∀ instruction, thumbDetect instruction = specThumbBranch instruction)
    ∧ (∀ i s instruction, thumbTrack i s instruction = specThumbTrack i s instruction)
    ∧ ∃ L appended, bb2.length = bb.length + L
      ∧ bb2.micro_blocks = bb.micro_blocks ++ appended
      ∧ microBlockStarts 0 appended
          = 0 :: (List.range L).filter
              (fun j => decide (0 < j) && (thumbBranchAt env t j).isSome)
      ∧ conditionSlots appended = (List.range L).map (thumbConditionAt env t)
      ∧ (∀ mb, appended.head? = some mb →
          mb.condition
            = if 0 < L then (thumbBranchAt env t 0).getD Condition.AL else Condition.AL) := by
  refine ⟨thumbDetect_eq_spec, thumbTrack_eq, ?_⟩
  obtain ⟨L, mbs, s', hmb, hL, inv⟩ := TranslateThumb_inv env t bb st t2 bb2 hc hrun
  exact ⟨L, mbs ++ [s'.micro_block], hL, hmb, inv.starts, inv.count.slots, inv.first⟩

/-- Witness for C21: three Thumb instructions from address 0x100 (`MOV`,
`BEQ`, `B .`); the `BEQ` at index 1 opens the second micro-block. -/
theorem TranslateThumb_predicate_detection_witness :
    (∀ instruction, thumbDetect instruction = specThumbBranch instruction)
    ∧ (∀ i s instruction, thumbTrack i s instruction = specThumbTrack i s instruction)
    ∧ ∃ L appended,
      3 = (BasicBlock.new { address := 0x104, mode := Mode.User, thumb := true }).length + L
      ∧ [ ({ condition := Condition.AL, emitter := { vars := 0, code := [] }, length := 1 }
            : MicroBlock),
          { condition := Condition.EQ, emitter := { vars := 0, code := [] }, length := 2 } ]
        = (BasicBlock.new { address := 0x104, mode := Mode.User, thumb := true }).micro_blocks
            ++ appended
      ∧ microBlockStarts 0 appended
          = 0 :: (List.range L).filter
              (fun j => decide (0 < j) && (thumbBranchAt demoEnv
                { armv5te := true, max_block_size := 3, exception_base := 0,
                  mode := Mode.User, thumb_mode := true, opcode_size := 2,
                  code_address := 0x100 } j).isSome)
      ∧ conditionSlots appended = (List.range L).map (thumbConditionAt demoEnv
          { armv5te := true, max_block_size := 3, exception_base := 0,
            mode := Mode.User, thumb_mode := true, opcode_size := 2,
            code_address := 0x100 })
      ∧ (∀ mb, appended.head? = some mb →
          mb.condition
            = if 0 < L then (thumbBranchAt demoEnv
                { armv5te := true, max_block_size := 3, exception_base := 0,
                  mode := Mode.User, thumb_mode := true, opcode_size := 2,
                  code_address := 0x100 } 0).getD Condition.AL else Condition.AL) :=
  TranslateThumb_predicate_detection demoEnv
    { armv5te := true, max_block_size := 3, exception_base := 0, mode := Mode.User,
      thumb_mode := true, opcode_size := 2, code_address := 0x100 }
    (BasicBlock.new { address := 0x104, mode := Mode.User, thumb := true })
    Status.BreakBasicBlock
    { armv5te := true, max_block_size := 3, exception_base := 0, mode := Mode.User,
      thumb_mode := true, opcode_size := 2, code_address := 0x104 }
    { key := { address := 0x104, mode := Mode.User, thumb := true }
      micro_blocks :=
        [{ condition := Condition.AL, emitter := { vars := 0, code := [] }, length := 1 },
         { condition := Condition.EQ, emitter := { vars := 0, code := [] }, length := 2 }]
      length := 3
      branch_target :=
        { key := some { address := 0x108, mode := Mode.User, thumb := true }
          condition := Condition.AL } }
    (by norm_num) (by decide)

/-- C22. After a returning `TranslateARM` or `TranslateThumb` on a block of
length 0 the lengths of the appended micro-blocks add up to the length of the
block, and every instruction of the block is counted by exactly one appended
micro-block; that micro-block has the condition tracked for the instruction:
in ARM mode its condition field (`NV` read as `AL` on ARMv5TE), in Thumb mode
the condition of the last conditional branch up to it. -/
theorem Translate_micro_block_accounting (env : Environment) (t : Translator)
    (bb : BasicBlock) (st : Status) (t2 : Translator) (bb2 : BasicBlock)
    (hc : t.code_address < 2 ^ 32) (hlen : bb.length = 0) :
    (TranslateARM env t bb = .ok (st, t2, bb2) →
      ∃ appended, bb2.micro_blocks = bb.micro_blocks ++ appended
        ∧ (appended.map (fun mb => mb.length)).sum = bb2.length
        ∧ ∀ j, j < bb2.length → ∃! k, countsUnder appended j k (armConditionAt env t j))
    ∧ (TranslateThumb env t bb = .ok (st, t2, bb2) →
      ∃ appended, bb2.micro_blocks = bb.micro_blocks ++ appended
        ∧ (appended.map (fun mb => mb.length)).sum = bb2.length
        ∧ ∀ j, j < bb2.length → ∃! k, countsUnder appended j k (thumbConditionAt env t j)) := by
  constructor
  · intro hrun
    obtain ⟨L, mbs, s', hmb, hL, inv⟩ := TranslateARM_count env t bb st t2 bb2 hc hrun
    have hLen : bb2.length = L := by omega
    rw [hLen]
    refine ⟨mbs ++ [s'.micro_block], hmb, ?_, ?_⟩
    · rw [← conditionSlots_length, inv.slots]
      simp
    · intro j hj
      exact countsUnder_unique _ _ L inv.slots j hj
  · intro hrun
    obtain ⟨L, mbs, s', hmb, hL, inv⟩ := TranslateThumb_inv env t bb st t2 bb2 hc hrun
    have hLen : bb2.length = L := by omega
    rw [hLen]
    refine ⟨mbs ++ [s'.micro_block], hmb, ?_, ?_⟩
    · rw [← conditionSlots_length, inv.count.slots]
      simp
    · intro j hj
      exact countsUnder_unique _ _ L inv.count.slots j hj

/-- Witness for C22: three ARM instructions from address 0 on ARMv5TE (`MOV`,
`ADDEQS`, `MOVNV`) give four micro-blocks of lengths 1, 1, 0, 1; three Thumb
instructions from address 0x100 (`MOV`, `BEQ`, `B .`) give two micro-blocks of
lengths 1 and 2. -/
theorem Translate_micro_block_accounting_witness :
    (∃ appended,
      [ ({ condition := Condition.AL, emitter := { vars := 0, code := [] }, length := 1 }
          : MicroBlock),
        { condition := Condition.EQ, emitter := { vars := 0, code := [] }, length := 1 },
        { condition := Condition.EQ, emitter := { vars := 0, code := [] }, length := 0 },
        { condition := Condition.AL, emitter := { vars := 0, code := [] }, length := 1 } ]
        = (BasicBlock.new { address := 8, mode := Mode.User, thumb := false }).micro_blocks
            ++ appended
      ∧ (appended.map (fun mb => mb.length)).sum = 3
      ∧ ∀ j, j < 3 → ∃! k, countsUnder appended j k (armConditionAt demoEnv
          { armv5te := true, max_block_size := 3, exception_base := 0,
            mode := Mode.User, thumb_mode := false, opcode_size := 4,
            code_address := 0 } j))
    ∧ (∃ appended,
      [ ({ condition := Condition.AL, emitter := { vars := 0, code := [] }, length := 1 }
          : MicroBlock),
        { condition := Condition.EQ, emitter := { vars := 0, code := [] }, length := 2 } ]
        = (BasicBlock.new { address := 0x104, mode := Mode.User, thumb := true }).micro_blocks
            ++ appended
      ∧ (appended.map (fun mb => mb.length)).sum = 3
      ∧ ∀ j, j < 3 → ∃! k, countsUnder appended j k (thumbConditionAt demoEnv
          { armv5te := true, max_block_size := 3, exception_base := 0,
            mode := Mode.User, thumb_mode := true, opcode_size := 2,
            code_address := 0x100 } j)) :=
  ⟨(Translate_micro_block_accounting demoEnv
      { armv5te := true, max_block_size := 3, exception_base := 0, mode := Mode.User,
        thumb_mode := false, opcode_size := 4, code_address := 0 }
      (BasicBlock.new { address := 8, mode := Mode.User, thumb := false })
      Status.Continue
      { armv5te := true, max_block_size := 3, exception_base := 0, mode := Mode.User,
        thumb_mode := false, opcode_size := 4, code_address := 12 }
      { key := { address := 8, mode := Mode.User, thumb := false }
        micro_blocks :=
          [{ condition := Condition.AL, emitter := { vars := 0, code := [] }, length := 1 },
           { condition := Condition.EQ, emitter := { vars := 0, code := [] }, length := 1 },
           { condition := Condition.EQ, emitter := { vars := 0, code := [] }, length := 0 },
           { condition := Condition.AL, emitter := { vars := 0, code := [] }, length := 1 }]
        length := 3
        branch_target := { key := none, condition := Condition.AL } }
      (by norm_num) rfl).1 (by decide),
    (Translate_micro_block_accounting demoEnv
      { armv5te := true, max_block_size := 3, exception_base := 0, mode := Mode.User,
        thumb_mode := true, opcode_size := 2, code_address := 0x100 }
      (BasicBlock.new { address := 0x104, mode := Mode.User, thumb := true })
      Status.BreakBasicBlock
      { armv5te := true, max_block_size := 3, exception_base := 0, mode := Mode.User,
        thumb_mode := true, opcode_size := 2, code_address := 0x104 }
      { key := { address := 0x104, mode := Mode.User, thumb := true }
        micro_blocks :=
          [{ condition := Condition.AL, emitter := { vars := 0, code := [] }, length := 1 },
           { condition := Condition.EQ, emitter := { vars := 0, code := [] }, length := 2 }]
        length := 3
        branch_target :=
          { key := some { address := 0x108, mode := Mode.User, thumb := true }
            condition := Condition.AL } }
      (by norm_num) rfl).2 (by decide)⟩

/-! ### `TranslateARM`: where micro-blocks are opened -/

theorem microBlockStarts_ne_nil (offset : Nat) (l : List MicroBlock) (x : MicroBlock) :
    microBlockStarts offset (l ++ [x]) ≠ [] := by
  intro h
  have := congrArg List.length h
  rw [microBlockStarts_length] at this
  simp at this

theorem OpenedBy.mono {env : Environment} {t : Translator} {n n' : Nat}
    {l : List MicroBlock} (hn : n ≤ n') (h : OpenedBy env t n l) : OpenedBy env t n' l := by
  intro start hs
  obtain ⟨h1, h2, h3⟩ := h start hs
  refine ⟨h1, by omega, ?_⟩
  rcases h3 with ⟨a, b⟩ | h3
  · exact Or.inl ⟨by omega, b⟩
  · exact Or.inr h3

/-- The starts of the micro-blocks do not depend on the last micro-block. -/
theorem OpenedBy.last_congr {env : Environment} {t : Translator} {n : Nat}
    {mbs : List MicroBlock} (x y : MicroBlock) (h : OpenedBy env t n (mbs ++ [x])) :
    OpenedBy env t n (mbs ++ [y]) := by
  intro start hs
  apply h start
  rw [microBlockStarts_snoc] at hs ⊢
  exact hs

/-- Opening a micro-block at an instruction at which `TranslateARM` opens
one. -/
theorem OpenedBy.snoc {env : Environment} {t : Translator} {n : Nat}
    {l : List MicroBlock} (x y : MicroBlock) (h : OpenedBy env t n (l ++ [x]))
    (hnew : 0 < ((l ++ [x]).map (fun mb => mb.length)).sum
      ∧ ((l ++ [x]).map (fun mb => mb.length)).sum ≤ n
      ∧ ((((l ++ [x]).map (fun mb => mb.length)).sum < n
          ∧ armConditionAt env t (((l ++ [x]).map (fun mb => mb.length)).sum)
            ≠ armConditionAt env t (((l ++ [x]).map (fun mb => mb.length)).sum - 1))
        ∨ (armStatusAt env t (((l ++ [x]).map (fun mb => mb.length)).sum - 1)
            = Status.BreakMicroBlock
          ∧ armConditionAt env t (((l ++ [x]).map (fun mb => mb.length)).sum - 1)
            ≠ Condition.AL))) :
    OpenedBy env t n ((l ++ [x]) ++ [y]) := by
  intro start hs
  rw [microBlockStarts_snoc, List.tail_append_of_ne_nil (microBlockStarts_ne_nil 0 l x)]
    at hs
  rcases List.mem_append.mp hs with h1 | h1
  · exact h start h1
  · rw [List.mem_singleton] at h1
    rw [h1, Nat.zero_add]
    exact hnew

theorem armTrack_cases (i : Nat) (s : LoopState) (c : Condition) :
    (i = 0 ∧ armTrack i s c
        = { s with micro_block := { s.micro_block with condition := c } })
    ∨ (i ≠ 0 ∧ c = s.micro_block.condition ∧ armTrack i s c = s)
    ∨ (i ≠ 0 ∧ c ≠ s.micro_block.condition ∧ armTrack i s c = break_micro_block s c) := by
  unfold armTrack
  by_cases hi : i = 0
  · left
    simp [hi]
  · right
    have hb : (i == 0) = false := by simpa using hi
    simp only [hb, Bool.false_eq_true, if_false]
    by_cases hne : c = s.micro_block.condition
    · left
      have hb2 : (c != s.micro_block.condition) = false := by simp [hne]
      rw [hb2]
      exact ⟨hi, hne, rfl⟩
    · right
      have hb2 : (c != s.micro_block.condition) = true := by simpa using hne
      rw [hb2]
      exact ⟨hi, hne, rfl⟩

theorem CountInv.total {cond : Nat → Condition} {pre : List MicroBlock}
    {len0 i : Nat} {s : LoopState} {mbs : List MicroBlock}
    (inv : CountInv cond pre len0 i s mbs) :
    ((mbs ++ [s.micro_block]).map (fun mb => mb.length)).sum = i := by
  rw [← conditionSlots_length, inv.slots]
  simp

/-- One loop body of `TranslateARM` keeps the bookkeeping by instruction. -/
theorem armStep_starts (env : Environment) (t : Translator) (pre : List MicroBlock)
    (len0 i : Nat) (s : LoopState) (mbs : List MicroBlock) (lifted : Lifted)
    (hst : lifted.status = armStatusAt env t i)
    (inv : ArmStartsInv env t pre len0 i s mbs) :
    ∃ mbs', ArmStartsInv env t pre len0 (i + 1)
      (armStep i s (armConditionAt env t i) lifted) mbs' := by
  obtain ⟨hcount, hcur, hopen⟩ := inv
  have hsum := hcount.total
  -- the condition tracking
  have htrack : ∃ mbs1,
      CountInv (armConditionAt env t) pre len0 i (armTrack i s (armConditionAt env t i)) mbs1
      ∧ (armTrack i s (armConditionAt env t i)).micro_block.condition = armConditionAt env t i
      ∧ OpenedBy env t (i + 1)
          (mbs1 ++ [(armTrack i s (armConditionAt env t i)).micro_block]) := by
    rcases armTrack_cases i s (armConditionAt env t i) with ⟨hi, he⟩ | ⟨hi, hc, he⟩ | ⟨hi, hc, he⟩
    · rw [he]
      subst hi
      obtain ⟨h1, h2, h3⟩ := hcount
      rw [conditionSlots_snoc] at h2
      simp only [List.range_zero, List.map_nil, List.append_eq_nil,
        List.replicate_eq_nil_iff] at h2
      refine ⟨mbs, ⟨h1, ?_, h3⟩, rfl, (hopen.last_congr _ _).mono (Nat.le_succ _)⟩
      rw [conditionSlots_snoc]
      simp [h2.1, h2.2]
    · rw [he]
      exact ⟨mbs, hcount, hc.symm, hopen.mono (Nat.le_succ _)⟩
    · rw [he]
      refine ⟨mbs ++ [s.micro_block], hcount.after_break _, rfl, ?_⟩
      have hpos : 0 < i := Nat.pos_of_ne_zero hi
      apply OpenedBy.snoc _ _ (hopen.mono (Nat.le_succ _))
      rw [hsum]
      refine ⟨hpos, Nat.le_succ _, Or.inl ⟨Nat.lt_succ_self _, ?_⟩⟩
      rw [← hcur hpos]
      exact hc
  obtain ⟨mbs1, hcount1, hcond1, hopen1⟩ := htrack
  -- the lifter call and the increments
  have hcount3 := hcount1.after_count lifted hcond1
  have hcond3 : (countInstruction (applyLifted (armTrack i s (armConditionAt env t i))
      lifted)).micro_block.condition = armConditionAt env t i := by
    simpa [countInstruction, applyLifted] using hcond1
  have hopen3 : OpenedBy env t (i + 1)
      (mbs1 ++ [(countInstruction (applyLifted (armTrack i s (armConditionAt env t i))
        lifted)).micro_block]) := hopen1.last_congr _ _
  unfold armStep
  simp only
  split
  · rename_i hbr
    simp only [Bool.and_eq_true, beq_iff_eq, bne_iff_ne, ne_eq] at hbr
    have hstatus : lifted.status = Status.BreakMicroBlock := by
      simpa [countInstruction, applyLifted] using hbr.1
    refine ⟨_, hcount3.after_break _, fun _ => rfl, ?_⟩
    apply OpenedBy.snoc _ _ hopen3
    rw [hcount3.total]
    refine ⟨Nat.succ_pos _, le_refl _, Or.inr ?_⟩
    rw [Nat.add_sub_cancel, ← hst]
    exact ⟨hstatus, hbr.2⟩
  · exact ⟨mbs1, hcount3, fun _ => by rw [Nat.add_sub_cancel]; exact hcond3, hopen3⟩

theorem ArmStartsInv.advance_arm {env : Environment} {t : Translator} {pre : List MicroBlock}
    {len0 i : Nat} {s : LoopState} {mbs : List MicroBlock} (size : Nat)
    (inv : ArmStartsInv env t pre len0 i s mbs) :
    ArmStartsInv env t pre len0 i (Lunatic.advance s size) mbs :=
  ⟨inv.count.advance size, inv.current, inv.opened⟩

/-- The micro-blocks a returning `TranslateARM` leaves behind, with their
bookkeeping by instruction. -/
theorem TranslateARM_starts (env : Environment) (t : Translator) (bb : BasicBlock)
    (st : Status) (t2 : Translator) (bb2 : BasicBlock) (hc : t.code_address < 2 ^ 32)
    (hrun : TranslateARM env t bb = .ok (st, t2, bb2)) :
    ∃ L mbs s', bb2.micro_blocks = bb.micro_blocks ++ (mbs ++ [s'.micro_block])
      ∧ bb2.length = bb.length + L
      ∧ ArmStartsInv env t bb.micro_blocks bb.length L s' mbs := by
  obtain ⟨s', hloop, -, -, rfl⟩ := (TranslateARM_ok_iff env t bb st t2 bb2).mp hrun
  have h0 : ArmStartsInv env t bb.micro_blocks bb.length 0
      (loopStart t bb env.default_condition) [] := by
    refine ⟨⟨by simp [loopStart], by simp [loopStart, MicroBlock.new, conditionSlots],
      by simp [loopStart]⟩, fun h => absurd h (lt_irrefl 0), ?_⟩
    intro start hs
    simp [microBlockStarts] at hs
  obtain ⟨L, -, -, mbs, inv⟩ :=
    blockLoop_invariant 4 t
      (fun i s => ∃ mbs, ArmStartsInv env t bb.micro_blocks bb.length i s mbs)
      (fun i s ⟨mbs, inv⟩ => ⟨mbs, inv.advance_arm 4⟩)
      (by
        intro i s s1 ht ⟨mbs, inv⟩ hit
        rw [armIteration_eq env t i s ht] at hit
        split at hit
        · cases hit
        · simp only [Except.ok.injEq] at hit
          subst hit
          exact ⟨armStep_starts env t _ _ i s mbs _ rfl inv, (armStep_frame i s _ _).1⟩)
      _ 0 _ s' (Translator.at_zero t 4 hc).symm ⟨[], h0⟩ hloop
  refine ⟨L, mbs, s', ?_, ?_, inv⟩
  · simp [add_micro_block, inv.count.pushed]
  · simpa [add_micro_block] using inv.count.length

theorem mem_tail_of_getElem?_succ {l : List Nat} {k x : Nat} (h : l[k + 1]? = some x) :
    x ∈ l.tail := by
  cases l with
  | nil => simp at h
  | cons a tl =>
    simp only [List.getElem?_cons_succ] at h
    exact List.getElem?_mem h

/-- In a state of the bookkeeping, an instruction `j > 0` at which
`TranslateARM` opens no micro-block is counted by the micro-block that counts
instruction `j - 1`. -/
theorem ArmStartsInv.same_block {env : Environment} {t : Translator}
    {pre : List MicroBlock} {len0 L : Nat} {s : LoopState} {mbs : List MicroBlock}
    (inv : ArmStartsInv env t pre len0 L s mbs) (j : Nat) (h0 : 0 < j) (hj : j < L)
    (c : Condition) (hprev : armConditionAt env t (j - 1) = c)
    (hthis : armConditionAt env t j = c)
    (hnb : ¬ (armStatusAt env t (j - 1) = Status.BreakMicroBlock
      ∧ armConditionAt env t (j - 1) ≠ Condition.AL)) :
    ∃ k, countsUnder (mbs ++ [s.micro_block]) (j - 1) k c
      ∧ countsUnder (mbs ++ [s.micro_block]) j k c := by
  obtain ⟨k, ⟨mb, start, hk, hs, hle, hlt, hc⟩, -⟩ :=
    countsUnder_unique (armConditionAt env t) _ L inv.count.slots j hj
  rw [hthis] at hc
  have hne : start ≠ j := by
    intro he
    cases k with
    | zero =>
      have h00 : (microBlockStarts 0 (mbs ++ [s.micro_block]))[0]? = some 0 := by
        cases mbs <;> simp [microBlockStarts]
      rw [h00] at hs
      simp only [Option.some.injEq] at hs
      omega
    | succ k =>
      obtain ⟨-, -, h3⟩ := inv.opened start (mem_tail_of_getElem?_succ hs)
      rw [he] at h3
      rcases h3 with ⟨-, h3⟩ | h3
      · exact h3 (hthis.trans hprev.symm)
      · exact hnb h3
  exact ⟨k, ⟨mb, start, hk, hs, by omega, by omega, hc⟩,
    ⟨mb, start, hk, hs, hle, hlt, hc⟩⟩

/-! ### `NV` on ARMv5TE and on ARMv4T -/

/-- C10. An ARM instruction word whose top four bits are `NV` is tracked under
`AL` on ARMv5TE (ARM9) and under `NV` on ARMv4T (ARM7).  On ARMv5TE no
micro-block that `TranslateARM` produces has condition `NV`, and an `NV`
instruction behind instructions tracked under `AL` stays in their micro-block;
on ARMv4T it opens a micro-block with condition `NV`.  (A run with a ceiling
below one decodes nothing and leaves one micro-block with the condition of a
value-initialised `MicroBlock`.)  For a returning run of `TranslateARM`: on
ARMv5TE every `NV` instruction of the block is counted by exactly one appended
micro-block and that micro-block has condition `AL`, and an `NV` instruction
behind an instruction tracked under `AL` is counted by the same micro-block
as that instruction; on ARMv4T every `NV` instruction of the block is counted
by exactly one appended micro-block and that micro-block has condition
`NV`. -/
theorem TranslateARM_NV_rewriting (env : Environment) :
    (∀ instruction, instruction / 2 ^ 28 % 16 = 15 →
        armCondition true instruction = Condition.AL
        ∧ armCondition false instruction = Condition.NV)
    ∧ (∀ d : Descriptor,
        (d.model = Model.ARM9 → (Translator.new d).armv5te = true)
        ∧ (d.model = Model.ARM7 → (Translator.new d).armv5te = false))
    ∧ (∀ t bb st t2 bb2, t.armv5te = true → t.code_address < 2 ^ 32 →
        (1 ≤ t.max_block_size ∨ env.default_condition ≠ Condition.NV) →
        TranslateARM env t bb = .ok (st, t2, bb2) →
        ∃ appended, bb2.micro_blocks = bb.micro_blocks ++ appended
          ∧ ∀ mb, mb ∈ appended → mb.condition ≠ Condition.NV)
    ∧ (∀ i s instruction lifted, 0 < i → s.micro_block.condition = Condition.AL →
        instruction / 2 ^ 28 % 16 = 15 →
        armTrack i s (armCondition true instruction) = s
        ∧ armStep i s (armCondition true instruction) lifted
            = countInstruction (applyLifted s lifted))
    ∧ (∀ i s instruction, 0 < i → s.micro_block.condition = Condition.AL →
        instruction / 2 ^ 28 % 16 = 15 →
        armTrack i s (armCondition false instruction)
          = break_micro_block s Condition.NV)
    ∧ (∀ t bb st t2 bb2, t.armv5te = true → t.code_address < 2 ^ 32 →
        TranslateARM env t bb = .ok (st, t2, bb2) →
        ∃ L appended, bb2.length = bb.length + L
          ∧ bb2.micro_blocks = bb.micro_blocks ++ appended
          ∧ (∀ j, j < L → armFetch env (t.at 4 j).code_address / 2 ^ 28 % 16 = 15 →
              ∃! k, countsUnder appended j k Condition.AL)
          ∧ (∀ j, 0 < j → j < L →
              armFetch env (t.at 4 j).code_address / 2 ^ 28 % 16 = 15 →
              armConditionAt env t (j - 1) = Condition.AL →
              ∃ k, countsUnder appended (j - 1) k Condition.AL
                ∧ countsUnder appended j k Condition.AL))
    ∧ (∀ t bb st t2 bb2, t.armv5te = false → t.code_address < 2 ^ 32 →
        TranslateARM env t bb = .ok (st, t2, bb2) →
        ∃ L appended, bb2.length = bb.length + L
          ∧ bb2.micro_blocks = bb.micro_blocks ++ appended
          ∧ (∀ j, j < L → armFetch env (t.at 4 j).code_address / 2 ^ 28 % 16 = 15 →
              ∃! k, countsUnder appended j k Condition.NV)) := by
  have hv5 : ∀ instruction, instruction / 2 ^ 28 % 16 = 15 →
      armCondition true instruction = Condition.AL := by
    intro instruction h
    have e := ofField_NV _ h
    simp only [armCondition, e]
    rfl
  have hv4 : ∀ instruction, instruction / 2 ^ 28 % 16 = 15 →
      armCondition false instruction = Condition.NV := by
    intro instruction h
    have e := ofField_NV _ h
    simp only [armCondition, e]
    rfl
  refine ⟨fun x h => ⟨hv5 x h, hv4 x h⟩, ?_, ?_, ?_, ?_, ?_, ?_⟩
  · intro d
    constructor
    · intro h
      simp [Translator.new, h]
    · intro h
      simp [Translator.new, h]
  · intro t bb st t2 bb2 harm hc hmax hrun
    obtain ⟨L, mbs, s', hmb, _, _, hpos, hdef, inv⟩ :=
      TranslateARM_inv env t bb st t2 bb2 hc hrun
    refine ⟨mbs ++ [s'.micro_block], hmb, ?_⟩
    intro mb hmem
    rcases List.mem_append.mp hmem with h | h
    · obtain ⟨j, _, hj⟩ := inv.origin mb h
      rw [hj]
      unfold armConditionAt
      rw [harm]
      exact armCondition_v5_ne_NV _
    · simp only [List.mem_singleton] at h
      subst h
      rcases Nat.eq_zero_or_pos L with hL | hL
      · rw [hdef hL]
        rcases hmax with h1 | h1
        · have := hpos (by omega)
          omega
        · exact h1
      · rw [inv.current hL]
        unfold armConditionAt
        rw [harm]
        exact armCondition_v5_ne_NV _
  · intro i s instruction lifted hi hs h
    have hib : (i == 0) = false := by
      have : i ≠ 0 := by omega
      simpa using this
    have htrack : armTrack i s (armCondition true instruction) = s := by
      unfold armTrack
      simp [hv5 _ h, hib, hs]
    refine ⟨htrack, ?_⟩
    unfold armStep
    rw [htrack, hv5 _ h]
    simp
  · intro i s instruction hi hs h
    have hib : (i == 0) = false := by
      have : i ≠ 0 := by omega
      simpa using this
    unfold armTrack
    simp [hv4 _ h, hib, hs]
  · intro t bb st t2 bb2 harm hc hrun
    obtain ⟨L, mbs, s', hmb, hL, inv⟩ := TranslateARM_starts env t bb st t2 bb2 hc hrun
    have hAL : ∀ j, armFetch env (t.at 4 j).code_address / 2 ^ 28 % 16 = 15 →
        armConditionAt env t j = Condition.AL := by
      intro j h
      unfold armConditionAt
      rw [harm]
      exact hv5 _ h
    refine ⟨L, mbs ++ [s'.micro_block], hL, hmb, ?_, ?_⟩
    · intro j hj hnv
      have := countsUnder_unique (armConditionAt env t) _ L inv.count.slots j hj
      rw [hAL j hnv] at this
      exact this
    · intro j h0 hj hnv hprev
      exact inv.same_block j h0 hj Condition.AL hprev (hAL j hnv) (fun h => h.2 hprev)
  · intro t bb st t2 bb2 harm hc hrun
    obtain ⟨L, mbs, s', hmb, hL, inv⟩ := TranslateARM_count env t bb st t2 bb2 hc hrun
    refine ⟨L, mbs ++ [s'.micro_block], hL, hmb, ?_⟩
    intro j hj hnv
    have := countsUnder_unique (armConditionAt env t) _ L inv.slots j hj
    have hNV : armConditionAt env t j = Condition.NV := by
      unfold armConditionAt
      rw [harm]
      exact hv4 _ hnv
    rw [hNV] at this
    exact this

/-- Witness for C10: `MOV`, `MOVNV`, `MOV` from address 0.  On ARMv5TE the run
leaves one micro-block `AL` of length 3, which counts the `MOVNV` together
with the `MOV` before it; on ARMv4T it leaves three micro-blocks `AL`, `NV`,
`AL` and the `MOVNV` is counted by the second. -/
theorem TranslateARM_NV_rewriting_witness :
    (∃ L appended,
      3 = (BasicBlock.new { address := 8, mode := Mode.User, thumb := false }).length + L
      ∧ [ ({ condition := Condition.AL, emitter := { vars := 0, code := [] }, length := 3 }
            : MicroBlock) ]
        = (BasicBlock.new { address := 8, mode := Mode.User, thumb := false }).micro_blocks
            ++ appended
      ∧ (∀ j, j < L →
          armFetch demoEnvNV
            (Translator.at { armv5te := true, max_block_size := 3, exception_base := 0,
                             mode := Mode.User, thumb_mode := false, opcode_size := 4,
                             code_address := 0 } 4 j).code_address / 2 ^ 28 % 16 = 15 →
          ∃! k, countsUnder appended j k Condition.AL)
      ∧ (∀ j, 0 < j → j < L →
          armFetch demoEnvNV
            (Translator.at { armv5te := true, max_block_size := 3, exception_base := 0,
                             mode := Mode.User, thumb_mode := false, opcode_size := 4,
                             code_address := 0 } 4 j).code_address / 2 ^ 28 % 16 = 15 →
          armConditionAt demoEnvNV
            { armv5te := true, max_block_size := 3, exception_base := 0,
              mode := Mode.User, thumb_mode := false, opcode_size := 4,
              code_address := 0 } (j - 1) = Condition.AL →
          ∃ k, countsUnder appended (j - 1) k Condition.AL
            ∧ countsUnder appended j k Condition.AL))
    ∧ (∃ L appended,
      3 = (BasicBlock.new { address := 8, mode := Mode.User, thumb := false }).length + L
      ∧ [ ({ condition := Condition.AL, emitter := { vars := 0, code := [] }, length := 1 }
            : MicroBlock),
          { condition := Condition.NV, emitter := { vars := 0, code := [] }, length := 1 },
          { condition := Condition.AL, emitter := { vars := 0, code := [] }, length := 1 } ]
        = (BasicBlock.new { address := 8, mode := Mode.User, thumb := false }).micro_blocks
            ++ appended
      ∧ (∀ j, j < L →
          armFetch demoEnvNV
            (Translator.at { armv5te := false, max_block_size := 3, exception_base := 0,
                             mode := Mode.User, thumb_mode := false, opcode_size := 4,
                             code_address := 0 } 4 j).code_address / 2 ^ 28 % 16 = 15 →
          ∃! k, countsUnder appended j k Condition.NV)) :=
  ⟨(TranslateARM_NV_rewriting demoEnvNV).2.2.2.2.2.1
      { armv5te := true, max_block_size := 3, exception_base := 0, mode := Mode.User,
        thumb_mode := false, opcode_size := 4, code_address := 0 }
      (BasicBlock.new { address := 8, mode := Mode.User, thumb := false })
      Status.Continue
      { armv5te := true, max_block_size := 3, exception_base := 0, mode := Mode.User,
        thumb_mode := false, opcode_size := 4, code_address := 12 }
      { key := { address := 8, mode := Mode.User, thumb := false }
        micro_blocks :=
          [{ condition := Condition.AL, emitter := { vars := 0, code := [] }, length := 3 }]
        length := 3
        branch_target := { key := none, condition := Condition.AL } }
      rfl (by norm_num) (by decide),
    (TranslateARM_NV_rewriting demoEnvNV).2.2.2.2.2.2
      { armv5te := false, max_block_size := 3, exception_base := 0, mode := Mode.User,
        thumb_mode := false, opcode_size := 4, code_address := 0 }
      (BasicBlock.new { address := 8, mode := Mode.User, thumb := false })
      Status.Continue
      { armv5te := false, max_block_size := 3, exception_base := 0, mode := Mode.User,
        thumb_mode := false, opcode_size := 4, code_address := 12 }
      { key := { address := 8, mode := Mode.User, thumb := false }
        micro_blocks :=
          [{ condition := Condition.AL, emitter := { vars := 0, code := [] }, length := 1 },
           { condition := Condition.NV, emitter := { vars := 0, code := [] }, length := 1 },
           { condition := Condition.AL, emitter := { vars := 0, code := [] }, length := 1 }]
        length := 3
        branch_target := { key := none, condition := Condition.AL } }
      rfl (by norm_num) (by decide)⟩
end Lunatic
